import Mathlib

/-!
Verification development for the queue-allocation and capability-negotiation
core of the neuron-engine repository.

The definitions below are a shallow embedding of the Rust source:

  * src/render/context/device.rs  (Device::new: queue request seeding,
    strict/flexible queue allocation, queue-creation priorities,
    device extension resolution)
  * src/render/context/queues.rs  (QueueLabel, QueueRef, QueueLabels,
    UnlabeledQueues)
  * src/app/feature_request.rs    (QueueRequest and its constructors,
    ExtensionRequest)
  * src/errors.rs                 (QueueRequestValidationError)

Modelling conventions:

  * Rust HashMap is modelled as an association list whose iteration order is
    the order of first insertion.  The source iterates HashMaps in an
    arbitrary (hash-dependent) order; first-insertion order is one faithful
    determinization of that order.
  * Rust HashSet of u32 is modelled as a Finset of naturals.
  * Rust u32 counters are modelled as naturals.  Every subtraction performed
    by the source is either guarded by a comparison (and cannot underflow) or
    is an unchecked decrement of a loop counter; for the latter the model
    returns the arithmeticOverflow error exactly where a debug build of the
    source panics on underflow (and a modulo by zero likewise returns
    arithmeticOverflow where the source panics with a division by zero).
  * The f32 queue priority constant 1.0 is modelled as the rational 1; the
    source only ever stores the literal and never computes with it.
-/

/-- Lookup in an association list: the value of the first pair whose key
matches, mirroring HashMap::get. -/
def alistGet {α : Type} {β : Type} [DecidableEq α] : List (α × β) → α → Option β
  | [], _ => none
  | (a, b) :: rest, k => if a = k then some b else alistGet rest k

/-- Insert into an association list: replace the value at the first matching
key, or append a new pair at the end, mirroring HashMap::insert together with
the first-insertion iteration order used throughout the model. -/
def alistInsert {α : Type} {β : Type} [DecidableEq α] : List (α × β) → α → β → List (α × β)
  | [], k, v => [(k, v)]
  | (a, b) :: rest, k, v => if a = k then (k, v) :: rest else (a, b) :: alistInsert rest k v

/-- Keys of an association list, in order. -/
def alistKeys {α : Type} {β : Type} (m : List (α × β)) : List α :=
  m.map Prod.fst

/-- Well-formedness of an association list: no key occurs twice. -/
def alistNodupKeys {α β : Type} (m : List (α × β)) : Prop :=
  (alistKeys m).Nodup

/-!
## Data model

Translated from src/render/context/queues.rs and src/app/feature_request.rs.
-/

/-- Role tag of a queue (queues.rs, enum QueueLabel). -/
inductive QueueLabel where
  | Graphics
  | Compute
  | Transfer
  | Presentation
  | VideoDecode
  | VideoEncode
  | Custom (name : String)
deriving DecidableEq, Repr

/-- Stable identifier of one hardware queue slot (queues.rs, struct QueueRef). -/
structure QueueRef where
  family : Nat
  index : Nat
deriving DecidableEq, Repr

/-- A queue demand (feature_request.rs, struct QueueRequest). -/
structure QueueRequest where
  family : Nat
  count : Nat
  label : Option QueueLabel
  allow_merge : Bool
deriving DecidableEq, Repr

/-- Constructor QueueRequest::strict_labeled. -/
def QueueRequest.strict_labeled (family count : Nat) (label : QueueLabel) : QueueRequest :=
  { family := family, count := count, label := some label, allow_merge := false }

/-- Constructor QueueRequest::strict_unlabeled. -/
def QueueRequest.strict_unlabeled (family count : Nat) : QueueRequest :=
  { family := family, count := count, label := none, allow_merge := false }

/-- Constructor QueueRequest::flexible_labeled. -/
def QueueRequest.flexible_labeled (family count : Nat) (label : QueueLabel) : QueueRequest :=
  { family := family, count := count, label := some label, allow_merge := true }

/-- Constructor QueueRequest::flexible_unlabeled. -/
def QueueRequest.flexible_unlabeled (family count : Nat) : QueueRequest :=
  { family := family, count := count, label := none, allow_merge := true }

/-- Failure modes of queue allocation.  notEnoughQueuesInFamily mirrors
QueueRequestValidationError::NotEnoughQueuesInFamily from errors.rs with its
family, req and avail fields; arithmeticOverflow marks the places where a
debug build of the source panics (u32 underflow of a loop counter, or modulo
by zero on an empty flexible range). -/
inductive AllocError where
  | notEnoughQueuesInFamily (family req avail : Nat)
  | arithmeticOverflow
deriving DecidableEq, Repr

/-!
## Request tallying

Translation of the partition-and-tally loop of Device::new
(device.rs lines 171-264).
-/

/-- The six maps built by the request-processing loop of Device::new. -/
structure Tally where
  strict_requests : List (Nat × Nat)
  flexible_requests : List (Nat × Nat)
  strict_labels : List (Nat × List QueueLabel)
  flexible_labels : List (Nat × List QueueLabel)
  strict_labels_counts : List (QueueLabel × List (Nat × Nat))
  flexible_labels_counts : List (QueueLabel × List (Nat × Nat))
deriving DecidableEq, Repr

/-- Add a count into a demand map, mirroring the get/insert update pattern of
the source (insert count + req.count if present, else insert req.count). -/
def bumpCount (m : List (Nat × Nat)) (family count : Nat) : List (Nat × Nat) :=
  match alistGet m family with
  | some c => alistInsert m family (c + count)
  | none => alistInsert m family count

/-- Append a label to a family's label list, mirroring the get_mut/push or
insert(vec![label]) pattern of the source. -/
def pushLabel (m : List (Nat × List QueueLabel)) (family : Nat) (l : QueueLabel) :
    List (Nat × List QueueLabel) :=
  match alistGet m family with
  | some ls => alistInsert m family (ls ++ [l])
  | none => alistInsert m family [l]

/-- Add a count into a per-label per-family tally, mirroring the nested
get_mut/insert pattern of the source. -/
def bumpLabelCount (m : List (QueueLabel × List (Nat × Nat))) (l : QueueLabel)
    (family count : Nat) : List (QueueLabel × List (Nat × Nat)) :=
  match alistGet m l with
  | some counts => alistInsert m l (bumpCount counts family count)
  | none => alistInsert m l [(family, count)]

/-- Process one request in the validation loop of Device::new (lines 182-264):
flexible requests feed the flexible maps, strict requests the strict maps. -/
def processRequest (t : Tally) (req : QueueRequest) : Tally :=
  if req.allow_merge then
    let fr := bumpCount t.flexible_requests req.family req.count
    match req.label with
    | some l =>
      { t with
        flexible_requests := fr
        flexible_labels := pushLabel t.flexible_labels req.family l
        flexible_labels_counts := bumpLabelCount t.flexible_labels_counts l req.family req.count }
    | none => { t with flexible_requests := fr }
  else
    let sr := bumpCount t.strict_requests req.family req.count
    match req.label with
    | some l =>
      { t with
        strict_requests := sr
        strict_labels := pushLabel t.strict_labels req.family l
        strict_labels_counts := bumpLabelCount t.strict_labels_counts l req.family req.count }
    | none => { t with strict_requests := sr }

/-- Empty tally. -/
def Tally.empty : Tally :=
  { strict_requests := [], flexible_requests := [], strict_labels := [],
    flexible_labels := [], strict_labels_counts := [], flexible_labels_counts := [] }

/-- Run the tally loop over a request list starting from a given state. -/
def tallyAux (rs : List QueueRequest) (t : Tally) : Tally :=
  rs.foldl processRequest t

/-- Tally of a request list, as computed by Device::new before allocation. -/
def tally (rs : List QueueRequest) : Tally :=
  tallyAux rs Tally.empty

/-!
## Reference quantities of a request list

These definitions restate the per-family demands directly on the request list;
the tally lemmas below connect them to the maps the source builds.
-/

/-- Is the request a strict request on family f. -/
def isStrictOn (f : Nat) (r : QueueRequest) : Bool :=
  decide (r.allow_merge = false ∧ r.family = f)

/-- Is the request a flexible request on family f. -/
def isFlexOn (f : Nat) (r : QueueRequest) : Bool :=
  decide (r.allow_merge = true ∧ r.family = f)

/-- Total strict demand of family f. -/
def strictDemand (rs : List QueueRequest) (f : Nat) : Nat :=
  ((rs.filter (isStrictOn f)).map (fun r => r.count)).sum

/-- Total flexible demand of family f. -/
def flexDemand (rs : List QueueRequest) (f : Nat) : Nat :=
  ((rs.filter (isFlexOn f)).map (fun r => r.count)).sum

/-- Does any strict request mention family f. -/
def hasStrict (rs : List QueueRequest) (f : Nat) : Bool :=
  rs.any (isStrictOn f)

/-- Does any flexible request mention family f. -/
def hasFlex (rs : List QueueRequest) (f : Nat) : Bool :=
  rs.any (isFlexOn f)

/-- Labels of the strict requests on family f, in request order. -/
def strictLabelsOf (rs : List QueueRequest) (f : Nat) : List QueueLabel :=
  rs.filterMap (fun r => if isStrictOn f r then r.label else none)

/-- Labels of the flexible requests on family f, in request order. -/
def flexLabelsOf (rs : List QueueRequest) (f : Nat) : List QueueLabel :=
  rs.filterMap (fun r => if isFlexOn f r then r.label else none)

/-- Total strict demand of label l on family f. -/
def strictLabelCount (rs : List QueueRequest) (f : Nat) (l : QueueLabel) : Nat :=
  ((rs.filter (fun r => isStrictOn f r && decide (r.label = some l))).map (fun r => r.count)).sum

/-- Total flexible demand of label l on family f. -/
def flexLabelCount (rs : List QueueRequest) (f : Nat) (l : QueueLabel) : Nat :=
  ((rs.filter (fun r => isFlexOn f r && decide (r.label = some l))).map (fun r => r.count)).sum

/-- Total labelled strict demand of family f. -/
def labeledStrictDemand (rs : List QueueRequest) (f : Nat) : Nat :=
  ((rs.filter (fun r => isStrictOn f r && r.label.isSome)).map (fun r => r.count)).sum

/-- Total labelled flexible demand of family f. -/
def labeledFlexDemand (rs : List QueueRequest) (f : Nat) : Nat :=
  ((rs.filter (fun r => isFlexOn f r && r.label.isSome)).map (fun r => r.count)).sum

/-- Does some strict request on family f carry label l. -/
def hasStrictLabel (rs : List QueueRequest) (f : Nat) (l : QueueLabel) : Bool :=
  rs.any (fun r => isStrictOn f r && decide (r.label = some l))

/-- Does some flexible request on family f carry label l. -/
def hasFlexLabel (rs : List QueueRequest) (f : Nat) (l : QueueLabel) : Bool :=
  rs.any (fun r => isFlexOn f r && decide (r.label = some l))

/-- The per-label per-family repetition count read by the allocation loops:
strict_labels_counts.get(label).and_then(get(family)).unwrap_or(1). -/
def rcStrict (t : Tally) (fam : Nat) (l : QueueLabel) : Nat :=
  ((alistGet t.strict_labels_counts l).bind (fun cs => alistGet cs fam)).getD 1

/-- Flexible counterpart of rcStrict. -/
def rcFlex (t : Tally) (fam : Nat) (l : QueueLabel) : Nat :=
  ((alistGet t.flexible_labels_counts l).bind (fun cs => alistGet cs fam)).getD 1

/-!
## Queue allocation

Translation of the strict pass (device.rs lines 266-347), the flexible pass
(lines 349-452) and the queue-creation priority construction (lines 454-489)
of Device::new.
-/

/-- Mutable allocation state of Device::new: queue_availability, the labeled
map, the unlabeled map and flexible_starts.  The trace field is
instrumentation added by the model: it records every (label, QueueRef) push
into the labeled map, in the order the pushes happen. -/
structure AllocState where
  avail : List (Nat × Nat)
  labeled : List (QueueLabel × List QueueRef)
  unlabeled : List (Nat × Finset Nat)
  flexible_starts : List (Nat × Nat)
  trace : List (QueueLabel × QueueRef)
deriving DecidableEq

/-- The slice of the state touched by the label-allocation inner loops. -/
structure LabelState where
  labeled : List (QueueLabel × List QueueRef)
  trace : List (QueueLabel × QueueRef)
deriving DecidableEq, Repr

/-- Push one QueueRef onto a label's list, mirroring the
labeled.get_mut(label).push / labeled.insert(label, vec![ref]) pattern. -/
def pushLabeled (m : List (QueueLabel × List QueueRef)) (l : QueueLabel) (q : QueueRef) :
    List (QueueLabel × List QueueRef) :=
  match alistGet m l with
  | some qs => alistInsert m l (qs ++ [q])
  | none => alistInsert m l [q]

/-- Push one QueueRef and record it in the trace. -/
def pushRefL (ls : LabelState) (l : QueueLabel) (q : QueueRef) : LabelState :=
  { labeled := pushLabeled ls.labeled l q, trace := ls.trace ++ [(l, q)] }

/-- The inner for _ in 0..rc loop of the strict pass (device.rs lines
304-322): allocate rc consecutive indices to label l, incrementing end_index
and decrementing count each time.  The decrement of the u32 count underflows
(debug panic) when count is already 0. -/
def assignRun (fam : Nat) (l : QueueLabel) :
    Nat → LabelState → Nat → Nat → Except AllocError (LabelState × Nat × Nat)
  | 0, ls, endIndex, count => .ok (ls, endIndex, count)
  | rc + 1, ls, endIndex, count =>
    match count with
    | 0 => .error .arithmeticOverflow
    | count' + 1 =>
      assignRun fam l rc (pushRefL ls l { family := fam, index := endIndex })
        (endIndex + 1) count'

/-- The for label in labels loop of the strict pass (lines 296-324). -/
def strictLabelLoop (t : Tally) (fam : Nat) :
    List QueueLabel → LabelState → Nat → Nat → Except AllocError (LabelState × Nat × Nat)
  | [], ls, endIndex, count => .ok (ls, endIndex, count)
  | l :: rest, ls, endIndex, count =>
    match assignRun fam l (rcStrict t fam l) ls endIndex count with
    | .error e => .error e
    | .ok (ls', endIndex', count') => strictLabelLoop t fam rest ls' endIndex' count'

/-- Tail of the strict per-family processing after the availability check
(lines 296-346): label allocation, the unlabeled leftover insert, and the
flexible_starts insert. -/
def strictAfterAvail (t : Tally) (st : AllocState) (fam count : Nat) :
    Except AllocError AllocState :=
  match strictLabelLoop t fam ((alistGet t.strict_labels fam).getD [])
      ⟨st.labeled, st.trace⟩ 0 count with
  | .error e => .error e
  | .ok (ls, endIndex, count') =>
    if 0 < count' then
      .ok { st with
        labeled := ls.labeled, trace := ls.trace,
        unlabeled := alistInsert st.unlabeled fam (Finset.Ico endIndex (endIndex + count')),
        flexible_starts := alistInsert st.flexible_starts fam (endIndex + count') }
    else
      .ok { st with
        labeled := ls.labeled, trace := ls.trace,
        flexible_starts := alistInsert st.flexible_starts fam endIndex }

/-- One iteration of the strict pass (lines 271-347): the availability check
and decrement (note the source silently skips both when the family is not in
queue_availability), then the label allocation. -/
def processStrictFamily (totalAvail : List (Nat × Nat)) (t : Tally) (st : AllocState)
    (fam count : Nat) : Except AllocError AllocState :=
  match alistGet st.avail fam with
  | some available =>
    if available < count then
      .error (.notEnoughQueuesInFamily fam
        (count + (if (alistGet t.flexible_requests fam).isSome then 1 else 0))
        ((alistGet totalAvail fam).getD 0))
    else
      strictAfterAvail t { st with avail := alistInsert st.avail fam (available - count) }
        fam count
  | none => strictAfterAvail t st fam count

/-- Sequential processing of the per-family entries of a demand map,
short-circuiting on the first error, as the for loops of Device::new do. -/
def runSteps (step : AllocState → Nat × Nat → Except AllocError AllocState) :
    List (Nat × Nat) → AllocState → Except AllocError AllocState
  | [], st => .ok st
  | p :: rest, st =>
    match step st p with
    | .error e => .error e
    | .ok st' => runSteps step rest st'

/-- Initial allocation state: queue_availability starts as a copy of
total_queue_availability, every other map empty. -/
def initAllocState (totalAvail : List (Nat × Nat)) : AllocState :=
  { avail := totalAvail, labeled := [], unlabeled := [], flexible_starts := [], trace := [] }

/-- The strict pass of Device::new over all families with strict demand. -/
def strictPass (rs : List QueueRequest) (totalAvail : List (Nat × Nat)) :
    Except AllocError AllocState :=
  runSteps (fun st p => processStrictFamily totalAvail (tally rs) st p.1 p.2)
    (tally rs).strict_requests (initAllocState totalAvail)

/-- The inner for _ in 0..rc loop of the flexible pass (lines 406-422):
index = flexible_range.start + o_index % flexible_range.len(), with the
modulo panicking on an empty range and the count decrement underflowing at
zero exactly as in a debug build. -/
def flexAssignRun (fam : Nat) (l : QueueLabel) (start len : Nat) :
    Nat → LabelState → Nat → Nat → Except AllocError (LabelState × Nat × Nat)
  | 0, ls, oIndex, count => .ok (ls, oIndex, count)
  | rc + 1, ls, oIndex, count =>
    if len = 0 then .error .arithmeticOverflow
    else
      match count with
      | 0 => .error .arithmeticOverflow
      | count' + 1 =>
        flexAssignRun fam l start len rc
          (pushRefL ls l { family := fam, index := start + oIndex % len })
          (oIndex + 1) count'

/-- The for label in labels loop of the flexible pass (lines 395-424). -/
def flexLabelLoop (t : Tally) (fam start len : Nat) :
    List QueueLabel → LabelState → Nat → Nat → Except AllocError (LabelState × Nat × Nat)
  | [], ls, oIndex, count => .ok (ls, oIndex, count)
  | l :: rest, ls, oIndex, count =>
    match flexAssignRun fam l start len (rcFlex t fam l) ls oIndex count with
    | .error e => .error e
    | .ok (ls', oIndex', count') => flexLabelLoop t fam start len rest ls' oIndex' count'

/-- One iteration of the flexible pass (lines 349-452).  The availability
write (to 0 on merge, else decremented) happens before the label loop in the
source; since the loop never reads availability the write is recorded on the
success paths here.  The unlabeled leftover insert at line 441 overwrites any
unlabeled set the strict pass stored for the same family. -/
def processFlexibleFamily (totalAvail : List (Nat × Nat)) (t : Tally) (st : AllocState)
    (fam count : Nat) : Except AllocError AllocState :=
  match alistGet totalAvail fam with
  | none =>
    .error (.notEnoughQueuesInFamily fam ((alistGet t.strict_requests fam).getD 0 + 1) 0)
  | some total =>
    match alistGet st.avail fam with
    | none => .ok st
    | some available =>
      if available = 0 then
        .error (.notEnoughQueuesInFamily fam ((alistGet t.strict_requests fam).getD 0 + 1) total)
      else
        match flexLabelLoop t fam ((alistGet st.flexible_starts fam).getD 0)
            (total - (alistGet st.flexible_starts fam).getD 0)
            ((alistGet t.flexible_labels fam).getD []) ⟨st.labeled, st.trace⟩ 0 count with
        | .error e => .error e
        | .ok (ls, oIndex, count') =>
          if 0 < count' then
            if total - (alistGet st.flexible_starts fam).getD 0 = 0 then
              .error .arithmeticOverflow
            else
              .ok { st with
                avail := alistInsert st.avail fam
                  (if available < count then 0 else available - count),
                labeled := ls.labeled, trace := ls.trace,
                unlabeled := alistInsert st.unlabeled fam
                  (((List.range' oIndex count').map
                    (fun i => (alistGet st.flexible_starts fam).getD 0
                      + i % (total - (alistGet st.flexible_starts fam).getD 0))).toFinset) }
          else
            .ok { st with
              avail := alistInsert st.avail fam
                (if available < count then 0 else available - count),
              labeled := ls.labeled, trace := ls.trace }

/-- The flexible pass of Device::new over all families with flexible demand. -/
def flexPass (rs : List QueueRequest) (totalAvail : List (Nat × Nat)) (st : AllocState) :
    Except AllocError AllocState :=
  runSteps (fun st p => processFlexibleFamily totalAvail (tally rs) st p.1 p.2)
    (tally rs).flexible_requests st

/-- One iteration of the priority-construction loop (lines 457-476): skip the
family when its remaining availability equals its total, else record
total - remaining priorities of 1.0. -/
def prioStep (availNow : List (Nat × Nat)) (acc : List (Nat × List ℚ)) (p : Nat × Nat) :
    List (Nat × List ℚ) :=
  match alistGet availNow p.1 with
  | some real =>
    if real = p.2 then acc else alistInsert acc p.1 (List.replicate (p.2 - real) 1)
  | none => acc

/-- Queue-creation priority lists (lines 457-476): for each family whose
remaining availability differs from its total, a list of total - remaining
priorities of 1.0; families with no allocated queues are skipped. -/
def buildPriorities (totalAvail availNow : List (Nat × Nat)) : List (Nat × List ℚ) :=
  totalAvail.foldl (prioStep availNow) []

/-- Outcome of a successful allocation: the labeled and unlabeled maps, the
final availability, the model trace (with strictCut marking where the strict
pass's pushes end and the flexible pass's begin) and the queue-creation
priorities. -/
structure AllocResult where
  labeled : List (QueueLabel × List QueueRef)
  unlabeled : List (Nat × Finset Nat)
  avail : List (Nat × Nat)
  trace : List (QueueLabel × QueueRef)
  strictCut : Nat
  priorities : List (Nat × List ℚ)
deriving DecidableEq

/-- The whole queue allocation of Device::new: tally, strict pass, flexible
pass, priority construction. -/
def allocateQueues (rs : List QueueRequest) (totalAvail : List (Nat × Nat)) :
    Except AllocError AllocResult :=
  match strictPass rs totalAvail with
  | .error e => .error e
  | .ok st1 =>
    match flexPass rs totalAvail st1 with
    | .error e => .error e
    | .ok st2 =>
      .ok { labeled := st2.labeled, unlabeled := st2.unlabeled, avail := st2.avail,
            trace := st2.trace, strictCut := st1.trace.length,
            priorities := buildPriorities totalAvail st2.avail }

deriving instance DecidableEq for Except

/-!
## Invariant: the labeled map is the per-label view of the push trace
-/

/-- The labeled map agrees with filtering the chronological push trace. -/
def LabeledMatchesTrace (m : List (QueueLabel × List QueueRef))
    (tr : List (QueueLabel × QueueRef)) : Prop :=
  ∀ l, (alistGet m l).getD []
    = (tr.filter (fun e => decide (e.1 = l))).map (fun e => e.2)

/-- Blocks of consecutive refs assigned per label by the strict label walk. -/
def strictBlocks (fam : Nat) (c : QueueLabel → Nat) :
    List QueueLabel → Nat → List (QueueLabel × QueueRef)
  | [], _ => []
  | l :: rest, e =>
    (List.range' e (c l)).map (fun i => (l, QueueRef.mk fam i))
      ++ strictBlocks fam c rest (e + c l)

/-- Blocks of refs assigned per label by the flexible label walk, wrapping
each running offset into the flexible range by the modulo scheme. -/
def flexBlocks (fam start len : Nat) (c : QueueLabel → Nat) :
    List QueueLabel → Nat → List (QueueLabel × QueueRef)
  | [], _ => []
  | l :: rest, o =>
    (List.range' o (c l)).map (fun k => (l, QueueRef.mk fam (start + k % len)))
      ++ flexBlocks fam start len c rest (o + c l)

/-- Remaining availability stays defined and bounded by the capacity table. -/
def AvailBounded (caps : List (Nat × Nat)) (st : AllocState) : Prop :=
  ∀ f C, alistGet caps f = some C → ∃ r, alistGet st.avail f = some r ∧ r ≤ C

/-- Capabilities of one queue family, as Device::new reads them from
vk::QueueFamilyProperties (queue count and the GRAPHICS / COMPUTE / TRANSFER
flags) and from platform::can_present. -/
structure QueueFamilyProps where
  queue_count : Nat
  graphics : Bool
  compute : Bool
  transfer : Bool
  can_present : Bool

deriving instance DecidableEq for QueueFamilyProps

/-- The mutable selection state of the family scan of Device::new
(lines 51-56): the four chosen family indices and the two availability maps. -/
structure FamilyScan where
  graphics : Option Nat
  transfer : Option Nat
  compute : Option Nat
  presentation : Option Nat
  queue_availability : List (Nat × Nat)
  total_queue_availability : List (Nat × Nat)

deriving instance DecidableEq for FamilyScan

def initFamilyScan : FamilyScan where
  graphics := none
  transfer := none
  compute := none
  presentation := none
  queue_availability := []
  total_queue_availability := []

/-- One iteration of the for_each over enumerate() (lines 60-97): record the
family's queue count in both availability maps and latch the first family
matching each capability test.  The transfer test is
contains(TRANSFER) && !contains(GRAPHICS | COMPUTE), i.e. the family must not
have both GRAPHICS and COMPUTE at once. -/
def scanStep (s : FamilyScan) (p : Nat × QueueFamilyProps) : FamilyScan where
  queue_availability := alistInsert s.queue_availability p.1 p.2.queue_count
  total_queue_availability := alistInsert s.total_queue_availability p.1 p.2.queue_count
  graphics := if p.2.graphics && s.graphics.isNone then some p.1 else s.graphics
  transfer :=
    if p.2.transfer && !(p.2.graphics && p.2.compute) && s.transfer.isNone
    then some p.1 else s.transfer
  compute := if p.2.compute && s.compute.isNone then some p.1 else s.compute
  presentation :=
    if s.presentation.isNone && p.2.can_present then some p.1 else s.presentation

/-- The whole family scan of Device::new, over the enumerated property list. -/
def scanFamilies (props : List QueueFamilyProps) : FamilyScan :=
  props.enum.foldl scanStep initFamilyScan

/-- Warning-level log lines emitted while seeding the engine's queue requests
(lines 145 and 160-162). -/
inductive SeedDiagnostic where
  | noExclusiveTransferWarning
  | noPresentationWarning

deriving instance DecidableEq for SeedDiagnostic

/-- The engine-seeded queue requests of Device::new (lines 115-163): flexible
Graphics and Compute requests, a Transfer request that is strict on the
dedicated transfer family when one was found and otherwise flexible on the
graphics family (with a warning), and a flexible Presentation request when a
presentation-capable family was found (otherwise a warning). -/
def seedQueueRequests (graphics compute : Nat) (transfer presentation : Option Nat) :
    List QueueRequest × List SeedDiagnostic :=
  let base := [QueueRequest.flexible_labeled graphics 1 QueueLabel.Graphics,
               QueueRequest.flexible_labeled compute 1 QueueLabel.Compute]
  let withT :=
    match transfer with
    | some t => (base ++ [QueueRequest.strict_labeled t 1 QueueLabel.Transfer],
                 ([] : List SeedDiagnostic))
    | none => (base ++ [QueueRequest.flexible_labeled graphics 1 QueueLabel.Transfer],
               [SeedDiagnostic.noExclusiveTransferWarning])
  match presentation with
  | some q => (withT.1 ++ [QueueRequest.flexible_labeled q 1 QueueLabel.Presentation],
               withT.2)
  | none => (withT.1, withT.2 ++ [SeedDiagnostic.noPresentationWarning])

/-- Failure modes of the queue phase of Device::new: the two early aborts of
lines 99-107 and a queue request validation failure. -/
inductive DeviceInitError where
  | noGraphicsQueueFamily
  | noComputeQueueFamily
  | queueValidation (e : AllocError)

deriving instance DecidableEq for DeviceInitError

/-- The queue phase of Device::new (lines 48-489): scan the family properties,
abort when no graphics or no compute family exists, seed the engine requests,
append the host callback's requests and run the queue allocation.  The
callback is a parameter; on the two early aborts the result does not depend
on it, reflecting that Device::new returns before invoking it. -/
def deviceQueuePhase (props : List QueueFamilyProps)
    (cb : List QueueRequest → List QueueRequest) :
    Except DeviceInitError (AllocResult × List SeedDiagnostic) :=
  let scan := scanFamilies props
  match scan.graphics with
  | none => .error .noGraphicsQueueFamily
  | some graphics =>
    match scan.compute with
    | none => .error .noComputeQueueFamily
    | some compute =>
      let seeded := seedQueueRequests graphics compute scan.transfer scan.presentation
      let rs := seeded.1 ++ cb seeded.1
      match allocateQueues rs scan.total_queue_availability with
      | .error e => .error (.queueValidation e)
      | .ok res => .ok (res, seeded.2)

/-- First index at or after n whose entry satisfies the test: the reference
form used to state which family the scan latches. -/
def firstIdxFrom (test : QueueFamilyProps → Bool) : List QueueFamilyProps → Nat → Option Nat
  | [], _ => none
  | p :: rest, n => if test p then some n else firstIdxFrom test rest (n + 1)

/-- One device extension request (extensions.rs, struct ExtensionRequest):
a name and whether the request is required. -/
structure ExtensionRequest where
  name : String
  required : Bool

deriving instance DecidableEq for ExtensionRequest

/-- The device extension negotiation of Device::new (lines 491-552): collect
the required requests whose name is not available and fail on them, otherwise
resolve to the set of requested names that are available (missing optional
names are only logged). -/
def resolveDeviceExtensions (requested : List ExtensionRequest) (available : Finset String) :
    Except (List String) (Finset String) :=
  let missing := (requested.filter
      (fun req => req.required && !(decide (req.name ∈ available)))).map
    (fun req => req.name)
  if missing.isEmpty then
    .ok ((requested.filter (fun req => decide (req.name ∈ available))).map
      (fun req => req.name)).toFinset
  else
    .error missing

instance : Inhabited AllocResult where
  default := { labeled := [], unlabeled := [], avail := [], trace := [], strictCut := 0,
               priorities := [] }

/-- The payload of a success value, used to name concrete allocation results. -/
def exceptOkD {ε α : Type} [Inhabited α] : Except ε α → α
  | .ok a => a
  | .error _ => default

def rs3w : List QueueRequest :=
  [QueueRequest.strict_labeled 0 1 QueueLabel.Graphics,
   QueueRequest.flexible_labeled 0 2 QueueLabel.Transfer]

def caps3w : List (Nat × Nat) := [(0, 2)]

def rs4w : List QueueRequest :=
  [QueueRequest.flexible_labeled 0 1 (QueueLabel.Custom "X"),
   QueueRequest.flexible_unlabeled 0 1]

def caps4w : List (Nat × Nat) := [(0, 4)]

def rs5b : List QueueRequest :=
  [QueueRequest.strict_labeled 0 1 QueueLabel.Graphics,
   QueueRequest.strict_unlabeled 0 2,
   QueueRequest.flexible_unlabeled 0 1]

def caps5b : List (Nat × Nat) := [(0, 4)]

def props6 : List QueueFamilyProps :=
  [⟨4, true, false, true, true⟩, ⟨2, false, true, false, false⟩]

def rs7c : List QueueRequest :=
  [QueueRequest.flexible_labeled 0 1 (QueueLabel.Custom "X"),
   QueueRequest.strict_labeled 1 1 (QueueLabel.Custom "X")]

def caps7c : List (Nat × Nat) := [(0, 1), (1, 1)]

def rs8w : List QueueRequest := [QueueRequest.strict_labeled 0 1 QueueLabel.Graphics]

def caps8w : List (Nat × Nat) := [(0, 2), (1, 3)]

def props10g : List QueueFamilyProps := [⟨1, false, true, true, false⟩]

def props10c : List QueueFamilyProps := [⟨2, true, false, false, true⟩]

def props10n : List QueueFamilyProps := [⟨4, true, true, false, false⟩]

def cb10 : List QueueRequest → List QueueRequest := fun _ => []

def cb10x : List QueueRequest → List QueueRequest :=
  fun _ => [QueueRequest.strict_labeled 0 9 QueueLabel.Graphics]

theorem alistGet_insert {α β : Type} [DecidableEq α] (m : List (α × β)) (k : α) (v : β) (k' : α) :
    alistGet (alistInsert m k v) k' = if k' = k then some v else alistGet m k' := by
  induction m with
  | nil =>
    by_cases h : k' = k <;> simp [alistInsert, alistGet, h]
    intro h'; exact absurd h'.symm h
  | cons p rest ih =>
    obtain ⟨a, b⟩ := p
    by_cases hak : a = k
    · subst hak
      simp only [alistInsert, if_pos rfl, alistGet]
      by_cases h : k' = a
      · subst h; simp
      · have h2 : ¬(a = k') := fun hh => h hh.symm
        simp [h, h2]
    · simp only [alistInsert, if_neg hak]
      by_cases h : k' = k
      · subst h
        have hak' : ¬(a = k') := hak
        simp [alistGet, hak', ih]
      · by_cases hax : a = k'
        · subst hax
          simp [alistGet, h]
        · simp [alistGet, hax, ih, h]

theorem alistGet_isSome_iff_mem_keys {α β : Type} [DecidableEq α] (m : List (α × β)) (k : α) :
    (alistGet m k).isSome = true ↔ k ∈ alistKeys m := by
  induction m with
  | nil => simp [alistGet, alistKeys]
  | cons p rest ih =>
    obtain ⟨a, b⟩ := p
    by_cases h : a = k
    · subst h; simp [alistGet, alistKeys]
    · have h' : ¬(k = a) := fun hh => h hh.symm
      simp [alistGet, alistKeys, h, h', ih]

theorem alistKeys_insert {α β : Type} [DecidableEq α] (m : List (α × β)) (k : α) (v : β) :
    alistKeys (alistInsert m k v) = if k ∈ alistKeys m then alistKeys m else alistKeys m ++ [k] := by
  induction m with
  | nil => simp [alistInsert, alistKeys]
  | cons p rest ih =>
    obtain ⟨a, b⟩ := p
    by_cases h : a = k
    · subst h; simp [alistInsert, alistKeys]
    · have h' : ¬(k = a) := fun hh => h hh.symm
      simp [alistInsert, alistKeys, h, h'] at ih ⊢
      rw [ih]
      by_cases hk : k ∈ List.map Prod.fst rest <;> simp [hk, h']

theorem alistNodupKeys_insert {α β : Type} [DecidableEq α] (m : List (α × β)) (k : α) (v : β)
    (h : alistNodupKeys m) : alistNodupKeys (alistInsert m k v) := by
  unfold alistNodupKeys at *
  rw [alistKeys_insert]
  by_cases hk : k ∈ alistKeys m
  · simpa [hk] using h
  · simp only [hk, if_false]
    simpa [List.nodup_append] using ⟨h, hk⟩

theorem alistGet_of_mem_of_nodup {α β : Type} [DecidableEq α] (m : List (α × β)) (p : α × β)
    (hmem : p ∈ m) (hnd : alistNodupKeys m) : alistGet m p.1 = some p.2 := by
  induction m with
  | nil => cases hmem
  | cons q rest ih =>
    obtain ⟨a, b⟩ := q
    rcases List.mem_cons.mp hmem with h | h
    · subst h; simp [alistGet]
    · have hnd' : alistNodupKeys rest := by
        simpa [alistNodupKeys, alistKeys] using (List.nodup_cons.mp hnd).2
      have ha : a ∉ alistKeys rest := by
        simpa [alistNodupKeys, alistKeys] using (List.nodup_cons.mp hnd).1
      have hne : a ≠ p.1 := by
        intro hEq
        exact ha (by
          rw [hEq]
          exact List.mem_map_of_mem Prod.fst h)
      simp [alistGet, hne, ih h hnd']

/-!
## Lemmas about the tally maps
-/

theorem alistGet_bumpCount (m : List (Nat × Nat)) (f c f' : Nat) :
    alistGet (bumpCount m f c) f'
      = if f' = f then some ((alistGet m f).getD 0 + c) else alistGet m f' := by
  unfold bumpCount
  cases h : alistGet m f <;> simp [alistGet_insert, h]

theorem alistGet_pushLabel (m : List (Nat × List QueueLabel)) (f : Nat) (l : QueueLabel) (f' : Nat) :
    alistGet (pushLabel m f l) f'
      = if f' = f then some ((alistGet m f).getD [] ++ [l]) else alistGet m f' := by
  unfold pushLabel
  cases h : alistGet m f <;> simp [alistGet_insert, h]

theorem alistGet_bumpLabelCount (m : List (QueueLabel × List (Nat × Nat))) (l : QueueLabel)
    (f c : Nat) (l' : QueueLabel) :
    alistGet (bumpLabelCount m l f c) l'
      = if l' = l then some (bumpCount ((alistGet m l).getD []) f c) else alistGet m l' := by
  unfold bumpLabelCount
  cases h : alistGet m l <;> simp [alistGet_insert, h, bumpCount, alistGet, alistInsert]

theorem alistNodupKeys_bumpCount (m : List (Nat × Nat)) (f c : Nat)
    (h : alistNodupKeys m) : alistNodupKeys (bumpCount m f c) := by
  unfold bumpCount
  cases alistGet m f <;> exact alistNodupKeys_insert _ _ _ h

theorem isStrictOn_iff (f : Nat) (r : QueueRequest) :
    isStrictOn f r = true ↔ (r.allow_merge = false ∧ r.family = f) := by
  simp [isStrictOn]

theorem isFlexOn_iff (f : Nat) (r : QueueRequest) :
    isFlexOn f r = true ↔ (r.allow_merge = true ∧ r.family = f) := by
  simp [isFlexOn]

theorem strictDemand_cons (r : QueueRequest) (rs : List QueueRequest) (f : Nat) :
    strictDemand (r :: rs) f = (if isStrictOn f r then r.count else 0) + strictDemand rs f := by
  unfold strictDemand
  cases h : isStrictOn f r <;> simp [List.filter_cons, h]

theorem flexDemand_cons (r : QueueRequest) (rs : List QueueRequest) (f : Nat) :
    flexDemand (r :: rs) f = (if isFlexOn f r then r.count else 0) + flexDemand rs f := by
  unfold flexDemand
  cases h : isFlexOn f r <;> simp [List.filter_cons, h]

theorem hasStrict_cons (r : QueueRequest) (rs : List QueueRequest) (f : Nat) :
    hasStrict (r :: rs) f = (isStrictOn f r || hasStrict rs f) := by
  simp [hasStrict]

theorem hasFlex_cons (r : QueueRequest) (rs : List QueueRequest) (f : Nat) :
    hasFlex (r :: rs) f = (isFlexOn f r || hasFlex rs f) := by
  simp [hasFlex]

theorem strictLabelsOf_cons (r : QueueRequest) (rs : List QueueRequest) (f : Nat) :
    strictLabelsOf (r :: rs) f
      = (if isStrictOn f r then r.label.toList else []) ++ strictLabelsOf rs f := by
  unfold strictLabelsOf
  cases h : isStrictOn f r
  · simp [List.filterMap_cons, h]
  · cases hl : r.label <;> simp [List.filterMap_cons, h, hl]

theorem flexLabelsOf_cons (r : QueueRequest) (rs : List QueueRequest) (f : Nat) :
    flexLabelsOf (r :: rs) f
      = (if isFlexOn f r then r.label.toList else []) ++ flexLabelsOf rs f := by
  unfold flexLabelsOf
  cases h : isFlexOn f r
  · simp [List.filterMap_cons, h]
  · cases hl : r.label <;> simp [List.filterMap_cons, h, hl]

theorem strictLabelCount_cons (r : QueueRequest) (rs : List QueueRequest) (f : Nat) (l : QueueLabel) :
    strictLabelCount (r :: rs) f l
      = (if isStrictOn f r && decide (r.label = some l) then r.count else 0)
        + strictLabelCount rs f l := by
  unfold strictLabelCount
  cases h : (isStrictOn f r && decide (r.label = some l)) <;> simp [List.filter_cons, h]

theorem flexLabelCount_cons (r : QueueRequest) (rs : List QueueRequest) (f : Nat) (l : QueueLabel) :
    flexLabelCount (r :: rs) f l
      = (if isFlexOn f r && decide (r.label = some l) then r.count else 0)
        + flexLabelCount rs f l := by
  unfold flexLabelCount
  cases h : (isFlexOn f r && decide (r.label = some l)) <;> simp [List.filter_cons, h]

theorem labeledStrictDemand_cons (r : QueueRequest) (rs : List QueueRequest) (f : Nat) :
    labeledStrictDemand (r :: rs) f
      = (if isStrictOn f r && r.label.isSome then r.count else 0) + labeledStrictDemand rs f := by
  unfold labeledStrictDemand
  cases h : (isStrictOn f r && r.label.isSome) <;> simp [List.filter_cons, h]

theorem labeledFlexDemand_cons (r : QueueRequest) (rs : List QueueRequest) (f : Nat) :
    labeledFlexDemand (r :: rs) f
      = (if isFlexOn f r && r.label.isSome then r.count else 0) + labeledFlexDemand rs f := by
  unfold labeledFlexDemand
  cases h : (isFlexOn f r && r.label.isSome) <;> simp [List.filter_cons, h]

theorem processRequest_strict_requests (t : Tally) (r : QueueRequest) :
    (processRequest t r).strict_requests
      = if r.allow_merge then t.strict_requests
        else bumpCount t.strict_requests r.family r.count := by
  unfold processRequest
  cases hm : r.allow_merge <;> cases hl : r.label <;> simp

theorem processRequest_flexible_requests (t : Tally) (r : QueueRequest) :
    (processRequest t r).flexible_requests
      = if r.allow_merge then bumpCount t.flexible_requests r.family r.count
        else t.flexible_requests := by
  unfold processRequest
  cases hm : r.allow_merge <;> cases hl : r.label <;> simp

theorem processRequest_strict_labels (t : Tally) (r : QueueRequest) :
    (processRequest t r).strict_labels
      = if r.allow_merge then t.strict_labels
        else match r.label with
          | some l => pushLabel t.strict_labels r.family l
          | none => t.strict_labels := by
  unfold processRequest
  cases hm : r.allow_merge <;> cases hl : r.label <;> simp

theorem processRequest_flexible_labels (t : Tally) (r : QueueRequest) :
    (processRequest t r).flexible_labels
      = if r.allow_merge then
          match r.label with
          | some l => pushLabel t.flexible_labels r.family l
          | none => t.flexible_labels
        else t.flexible_labels := by
  unfold processRequest
  cases hm : r.allow_merge <;> cases hl : r.label <;> simp

theorem processRequest_strict_labels_counts (t : Tally) (r : QueueRequest) :
    (processRequest t r).strict_labels_counts
      = if r.allow_merge then t.strict_labels_counts
        else match r.label with
          | some l => bumpLabelCount t.strict_labels_counts l r.family r.count
          | none => t.strict_labels_counts := by
  unfold processRequest
  cases hm : r.allow_merge <;> cases hl : r.label <;> simp

theorem processRequest_flexible_labels_counts (t : Tally) (r : QueueRequest) :
    (processRequest t r).flexible_labels_counts
      = if r.allow_merge then
          match r.label with
          | some l => bumpLabelCount t.flexible_labels_counts l r.family r.count
          | none => t.flexible_labels_counts
        else t.flexible_labels_counts := by
  unfold processRequest
  cases hm : r.allow_merge <;> cases hl : r.label <;> simp

theorem optionBind_alistGet_getD (o : Option (List (Nat × Nat))) (f : Nat) :
    ((o.bind (fun cs => alistGet cs f)).getD 0) = (alistGet (o.getD []) f).getD 0 := by
  cases o <;> simp [alistGet]

theorem optionBind_alistGet_isSome (o : Option (List (Nat × Nat))) (f : Nat) :
    ((o.bind (fun cs => alistGet cs f)).isSome) = (alistGet (o.getD []) f).isSome := by
  cases o <;> simp [alistGet]

theorem tallyAux_cons (r : QueueRequest) (rs : List QueueRequest) (t : Tally) :
    tallyAux (r :: rs) t = tallyAux rs (processRequest t r) := rfl

theorem tallyAux_strict_requests_getD (rs : List QueueRequest) (t : Tally) (f : Nat) :
    (alistGet (tallyAux rs t).strict_requests f).getD 0
      = (alistGet t.strict_requests f).getD 0 + strictDemand rs f := by
  induction rs generalizing t with
  | nil => simp [tallyAux, strictDemand]
  | cons r rs ih =>
    rw [tallyAux_cons, ih, strictDemand_cons, processRequest_strict_requests]
    cases hm : r.allow_merge
    · have hs : isStrictOn f r = decide (r.family = f) := by simp [isStrictOn, hm]
      simp only [Bool.false_eq_true, if_false, alistGet_bumpCount, hs]
      by_cases hf : r.family = f
      · simp [hf]
        omega
      · have hf' : ¬(f = r.family) := fun hh => hf hh.symm
        simp [hf, hf']
    · have hs : isStrictOn f r = false := by simp [isStrictOn, hm]
      simp [hs]

theorem tallyAux_flexible_requests_getD (rs : List QueueRequest) (t : Tally) (f : Nat) :
    (alistGet (tallyAux rs t).flexible_requests f).getD 0
      = (alistGet t.flexible_requests f).getD 0 + flexDemand rs f := by
  induction rs generalizing t with
  | nil => simp [tallyAux, flexDemand]
  | cons r rs ih =>
    rw [tallyAux_cons, ih, flexDemand_cons, processRequest_flexible_requests]
    cases hm : r.allow_merge
    · have hs : isFlexOn f r = false := by simp [isFlexOn, hm]
      simp [hs]
    · have hs : isFlexOn f r = decide (r.family = f) := by simp [isFlexOn, hm]
      simp only [if_true, alistGet_bumpCount, hs]
      by_cases hf : r.family = f
      · simp [hf]
        omega
      · have hf' : ¬(f = r.family) := fun hh => hf hh.symm
        simp [hf, hf']

theorem tallyAux_strict_requests_isSome (rs : List QueueRequest) (t : Tally) (f : Nat) :
    ((alistGet (tallyAux rs t).strict_requests f).isSome = true)
      ↔ ((alistGet t.strict_requests f).isSome = true ∨ hasStrict rs f = true) := by
  induction rs generalizing t with
  | nil => simp [tallyAux, hasStrict]
  | cons r rs ih =>
    rw [tallyAux_cons, ih, hasStrict_cons, processRequest_strict_requests]
    cases hm : r.allow_merge
    · have hs : isStrictOn f r = decide (r.family = f) := by simp [isStrictOn, hm]
      simp only [Bool.false_eq_true, if_false, alistGet_bumpCount, hs]
      by_cases hf : r.family = f
      · simp [hf]
      · have hf' : ¬(f = r.family) := fun hh => hf hh.symm
        simp [hf, hf']
    · have hs : isStrictOn f r = false := by simp [isStrictOn, hm]
      simp [hs]

theorem tallyAux_flexible_requests_isSome (rs : List QueueRequest) (t : Tally) (f : Nat) :
    ((alistGet (tallyAux rs t).flexible_requests f).isSome = true)
      ↔ ((alistGet t.flexible_requests f).isSome = true ∨ hasFlex rs f = true) := by
  induction rs generalizing t with
  | nil => simp [tallyAux, hasFlex]
  | cons r rs ih =>
    rw [tallyAux_cons, ih, hasFlex_cons, processRequest_flexible_requests]
    cases hm : r.allow_merge
    · have hs : isFlexOn f r = false := by simp [isFlexOn, hm]
      simp [hs]
    · have hs : isFlexOn f r = decide (r.family = f) := by simp [isFlexOn, hm]
      simp only [if_true, alistGet_bumpCount, hs]
      by_cases hf : r.family = f
      · simp [hf]
      · have hf' : ¬(f = r.family) := fun hh => hf hh.symm
        simp [hf, hf']

theorem tallyAux_strict_labels_getD (rs : List QueueRequest) (t : Tally) (f : Nat) :
    (alistGet (tallyAux rs t).strict_labels f).getD []
      = (alistGet t.strict_labels f).getD [] ++ strictLabelsOf rs f := by
  induction rs generalizing t with
  | nil => simp [tallyAux, strictLabelsOf]
  | cons r rs ih =>
    rw [tallyAux_cons, ih, strictLabelsOf_cons, processRequest_strict_labels]
    cases hm : r.allow_merge
    · have hs : isStrictOn f r = decide (r.family = f) := by simp [isStrictOn, hm]
      cases hl : r.label with
      | none =>
        have hz : (if isStrictOn f r then r.label.toList else []) = [] := by
          cases isStrictOn f r <;> simp [hl]
        simp [hz]
      | some l0 =>
        simp only [Bool.false_eq_true, if_false, alistGet_pushLabel, hs, hl]
        by_cases hf : r.family = f
        · simp [hf]
        · have hf' : ¬(f = r.family) := fun hh => hf hh.symm
          simp [hf, hf']
    · have hs : isStrictOn f r = false := by simp [isStrictOn, hm]
      simp [hs]

theorem tallyAux_flexible_labels_getD (rs : List QueueRequest) (t : Tally) (f : Nat) :
    (alistGet (tallyAux rs t).flexible_labels f).getD []
      = (alistGet t.flexible_labels f).getD [] ++ flexLabelsOf rs f := by
  induction rs generalizing t with
  | nil => simp [tallyAux, flexLabelsOf]
  | cons r rs ih =>
    rw [tallyAux_cons, ih, flexLabelsOf_cons, processRequest_flexible_labels]
    cases hm : r.allow_merge
    · have hs : isFlexOn f r = false := by simp [isFlexOn, hm]
      simp [hs]
    · have hs : isFlexOn f r = decide (r.family = f) := by simp [isFlexOn, hm]
      cases hl : r.label with
      | none =>
        have hz : (if isFlexOn f r then r.label.toList else []) = [] := by
          cases isFlexOn f r <;> simp [hl]
        simp [hz]
      | some l0 =>
        simp only [if_true, alistGet_pushLabel, hs, hl]
        by_cases hf : r.family = f
        · simp [hf]
        · have hf' : ¬(f = r.family) := fun hh => hf hh.symm
          simp [hf, hf']

theorem mem_strictLabelsOf_iff (rs : List QueueRequest) (f : Nat) (l : QueueLabel) :
    l ∈ strictLabelsOf rs f ↔ hasStrictLabel rs f l = true := by
  induction rs with
  | nil => simp [strictLabelsOf, hasStrictLabel]
  | cons r rs ih =>
    rw [strictLabelsOf_cons]
    simp only [hasStrictLabel, List.any_cons] at *
    cases h : isStrictOn f r
    · simpa [h] using ih
    · cases hl : r.label with
      | none => simpa [h, hl] using ih
      | some v =>
        simp only [h, hl, if_true, Option.toList_some, List.singleton_append,
          List.mem_cons, Bool.true_and, Bool.or_eq_true, decide_eq_true_eq,
          Option.some.injEq]
        exact or_congr eq_comm ih

theorem mem_flexLabelsOf_iff (rs : List QueueRequest) (f : Nat) (l : QueueLabel) :
    l ∈ flexLabelsOf rs f ↔ hasFlexLabel rs f l = true := by
  induction rs with
  | nil => simp [flexLabelsOf, hasFlexLabel]
  | cons r rs ih =>
    rw [flexLabelsOf_cons]
    simp only [hasFlexLabel, List.any_cons] at *
    cases h : isFlexOn f r
    · simpa [h] using ih
    · cases hl : r.label with
      | none => simpa [h, hl] using ih
      | some v =>
        simp only [h, hl, if_true, Option.toList_some, List.singleton_append,
          List.mem_cons, Bool.true_and, Bool.or_eq_true, decide_eq_true_eq,
          Option.some.injEq]
        exact or_congr eq_comm ih

theorem tallyAux_strict_counts_getD (rs : List QueueRequest) (t : Tally) (f : Nat) (l : QueueLabel) :
    ((alistGet (tallyAux rs t).strict_labels_counts l).bind (fun cs => alistGet cs f)).getD 0
      = ((alistGet t.strict_labels_counts l).bind (fun cs => alistGet cs f)).getD 0
        + strictLabelCount rs f l := by
  induction rs generalizing t with
  | nil => simp [tallyAux, strictLabelCount]
  | cons r rs ih =>
    rw [tallyAux_cons, ih, strictLabelCount_cons, processRequest_strict_labels_counts]
    cases hm : r.allow_merge
    · cases hl : r.label with
      | none =>
        have hz : (isStrictOn f r && decide (r.label = some l)) = false := by
          simp [hl]
        simp [hz]
      | some l0 =>
        have hs : isStrictOn f r = decide (r.family = f) := by simp [isStrictOn, hm]
        by_cases hll : l = l0
        · subst hll
          by_cases hf : r.family = f
          · simp [optionBind_alistGet_getD, alistGet_bumpLabelCount,
              alistGet_bumpCount, hl, hf, hs]
            omega
          · have hf' : ¬(f = r.family) := fun hh => hf hh.symm
            simp [optionBind_alistGet_getD, alistGet_bumpLabelCount,
              alistGet_bumpCount, hl, hf, hf', hs]
        · have hll' : ¬(l0 = l) := fun hh => hll hh.symm
          simp [optionBind_alistGet_getD, alistGet_bumpLabelCount, hl, hll, hll']
    · have hz : (isStrictOn f r && decide (r.label = some l)) = false := by
        simp [isStrictOn, hm]
      simp [hz]

theorem tallyAux_flexible_counts_getD (rs : List QueueRequest) (t : Tally) (f : Nat) (l : QueueLabel) :
    ((alistGet (tallyAux rs t).flexible_labels_counts l).bind (fun cs => alistGet cs f)).getD 0
      = ((alistGet t.flexible_labels_counts l).bind (fun cs => alistGet cs f)).getD 0
        + flexLabelCount rs f l := by
  induction rs generalizing t with
  | nil => simp [tallyAux, flexLabelCount]
  | cons r rs ih =>
    rw [tallyAux_cons, ih, flexLabelCount_cons, processRequest_flexible_labels_counts]
    cases hm : r.allow_merge
    · have hz : (isFlexOn f r && decide (r.label = some l)) = false := by
        simp [isFlexOn, hm]
      simp [hz]
    · cases hl : r.label with
      | none =>
        have hz : (isFlexOn f r && decide (r.label = some l)) = false := by
          simp [hl]
        simp [hz]
      | some l0 =>
        have hs : isFlexOn f r = decide (r.family = f) := by simp [isFlexOn, hm]
        by_cases hll : l = l0
        · subst hll
          by_cases hf : r.family = f
          · simp [optionBind_alistGet_getD, alistGet_bumpLabelCount,
              alistGet_bumpCount, hl, hf, hs]
            omega
          · have hf' : ¬(f = r.family) := fun hh => hf hh.symm
            simp [optionBind_alistGet_getD, alistGet_bumpLabelCount,
              alistGet_bumpCount, hl, hf, hf', hs]
        · have hll' : ¬(l0 = l) := fun hh => hll hh.symm
          simp [optionBind_alistGet_getD, alistGet_bumpLabelCount, hl, hll, hll']

theorem tallyAux_strict_counts_isSome (rs : List QueueRequest) (t : Tally) (f : Nat) (l : QueueLabel) :
    (((alistGet (tallyAux rs t).strict_labels_counts l).bind (fun cs => alistGet cs f)).isSome = true)
      ↔ (((alistGet t.strict_labels_counts l).bind (fun cs => alistGet cs f)).isSome = true
          ∨ hasStrictLabel rs f l = true) := by
  induction rs generalizing t with
  | nil => simp [tallyAux, hasStrictLabel]
  | cons r rs ih =>
    rw [tallyAux_cons, ih, processRequest_strict_labels_counts]
    simp only [hasStrictLabel, List.any_cons, Bool.or_eq_true]
    cases hm : r.allow_merge
    · cases hl : r.label with
      | none =>
        have hz : (isStrictOn f r && decide (r.label = some l)) = false := by
          simp [hl]
        simp [hz, hasStrictLabel, or_assoc]
      | some l0 =>
        have hs : isStrictOn f r = decide (r.family = f) := by simp [isStrictOn, hm]
        by_cases hll : l = l0
        · subst hll
          by_cases hf : r.family = f
          · simp [optionBind_alistGet_isSome, alistGet_bumpLabelCount,
              alistGet_bumpCount, hl, hf, hs, hasStrictLabel]
          · have hf' : ¬(f = r.family) := fun hh => hf hh.symm
            simp [optionBind_alistGet_isSome, alistGet_bumpLabelCount,
              alistGet_bumpCount, hl, hf, hf', hs, hasStrictLabel, or_assoc]
        · have hll' : ¬(l0 = l) := fun hh => hll hh.symm
          simp [optionBind_alistGet_isSome, alistGet_bumpLabelCount, hl, hll, hll',
            hasStrictLabel, or_assoc]
    · have hz : (isStrictOn f r && decide (r.label = some l)) = false := by
        simp [isStrictOn, hm]
      simp [hz, hasStrictLabel, or_assoc]

theorem tallyAux_flexible_counts_isSome (rs : List QueueRequest) (t : Tally) (f : Nat) (l : QueueLabel) :
    (((alistGet (tallyAux rs t).flexible_labels_counts l).bind (fun cs => alistGet cs f)).isSome = true)
      ↔ (((alistGet t.flexible_labels_counts l).bind (fun cs => alistGet cs f)).isSome = true
          ∨ hasFlexLabel rs f l = true) := by
  induction rs generalizing t with
  | nil => simp [tallyAux, hasFlexLabel]
  | cons r rs ih =>
    rw [tallyAux_cons, ih, processRequest_flexible_labels_counts]
    simp only [hasFlexLabel, List.any_cons, Bool.or_eq_true]
    cases hm : r.allow_merge
    · have hz : (isFlexOn f r && decide (r.label = some l)) = false := by
        simp [isFlexOn, hm]
      simp [hz, hasFlexLabel, or_assoc]
    · cases hl : r.label with
      | none =>
        have hz : (isFlexOn f r && decide (r.label = some l)) = false := by
          simp [hl]
        simp [hz, hasFlexLabel, or_assoc]
      | some l0 =>
        have hs : isFlexOn f r = decide (r.family = f) := by simp [isFlexOn, hm]
        by_cases hll : l = l0
        · subst hll
          by_cases hf : r.family = f
          · simp [optionBind_alistGet_isSome, alistGet_bumpLabelCount,
              alistGet_bumpCount, hl, hf, hs, hasFlexLabel]
          · have hf' : ¬(f = r.family) := fun hh => hf hh.symm
            simp [optionBind_alistGet_isSome, alistGet_bumpLabelCount,
              alistGet_bumpCount, hl, hf, hf', hs, hasFlexLabel, or_assoc]
        · have hll' : ¬(l0 = l) := fun hh => hll hh.symm
          simp [optionBind_alistGet_isSome, alistGet_bumpLabelCount, hl, hll, hll',
            hasFlexLabel, or_assoc]

theorem tallyAux_strict_requests_nodup (rs : List QueueRequest) (t : Tally)
    (h : alistNodupKeys t.strict_requests) : alistNodupKeys (tallyAux rs t).strict_requests := by
  induction rs generalizing t with
  | nil => exact h
  | cons r rs ih =>
    rw [tallyAux_cons]
    apply ih
    rw [processRequest_strict_requests]
    cases hm : r.allow_merge
    · simpa using alistNodupKeys_bumpCount _ _ _ h
    · simpa using h

theorem tallyAux_flexible_requests_nodup (rs : List QueueRequest) (t : Tally)
    (h : alistNodupKeys t.flexible_requests) : alistNodupKeys (tallyAux rs t).flexible_requests := by
  induction rs generalizing t with
  | nil => exact h
  | cons r rs ih =>
    rw [tallyAux_cons]
    apply ih
    rw [processRequest_flexible_requests]
    cases hm : r.allow_merge
    · simpa using h
    · simpa using alistNodupKeys_bumpCount _ _ _ h

theorem tally_strict_requests_get (rs : List QueueRequest) (f : Nat) :
    alistGet (tally rs).strict_requests f
      = if hasStrict rs f = true then some (strictDemand rs f) else none := by
  have h1 := tallyAux_strict_requests_getD rs Tally.empty f
  have h2 := tallyAux_strict_requests_isSome rs Tally.empty f
  rw [show tallyAux rs Tally.empty = tally rs from rfl] at h1 h2
  simp only [Tally.empty, alistGet, Option.getD_none, Option.isSome_none,
    Bool.false_eq_true, false_or] at h1 h2
  cases hget : alistGet (tally rs).strict_requests f with
  | none =>
    have : ¬(hasStrict rs f = true) := by
      intro hh
      have := h2.mpr hh
      rw [hget] at this
      simp at this
    simp [this]
  | some v =>
    have hv : v = strictDemand rs f := by
      rw [hget] at h1
      simpa using h1
    have hh : hasStrict rs f = true := by
      apply h2.mp
      rw [hget]
      rfl
    simp [hh, hv]

theorem tally_flexible_requests_get (rs : List QueueRequest) (f : Nat) :
    alistGet (tally rs).flexible_requests f
      = if hasFlex rs f = true then some (flexDemand rs f) else none := by
  have h1 := tallyAux_flexible_requests_getD rs Tally.empty f
  have h2 := tallyAux_flexible_requests_isSome rs Tally.empty f
  rw [show tallyAux rs Tally.empty = tally rs from rfl] at h1 h2
  simp only [Tally.empty, alistGet, Option.getD_none, Option.isSome_none,
    Bool.false_eq_true, false_or] at h1 h2
  cases hget : alistGet (tally rs).flexible_requests f with
  | none =>
    have : ¬(hasFlex rs f = true) := by
      intro hh
      have := h2.mpr hh
      rw [hget] at this
      simp at this
    simp [this]
  | some v =>
    have hv : v = flexDemand rs f := by
      rw [hget] at h1
      simpa using h1
    have hh : hasFlex rs f = true := by
      apply h2.mp
      rw [hget]
      rfl
    simp [hh, hv]

theorem tally_strict_labels_getD (rs : List QueueRequest) (f : Nat) :
    (alistGet (tally rs).strict_labels f).getD [] = strictLabelsOf rs f := by
  have h := tallyAux_strict_labels_getD rs Tally.empty f
  rw [show tallyAux rs Tally.empty = tally rs from rfl] at h
  simpa [Tally.empty, alistGet] using h

theorem tally_flexible_labels_getD (rs : List QueueRequest) (f : Nat) :
    (alistGet (tally rs).flexible_labels f).getD [] = flexLabelsOf rs f := by
  have h := tallyAux_flexible_labels_getD rs Tally.empty f
  rw [show tallyAux rs Tally.empty = tally rs from rfl] at h
  simpa [Tally.empty, alistGet] using h

theorem rcStrict_tally (rs : List QueueRequest) (f : Nat) (l : QueueLabel)
    (h : hasStrictLabel rs f l = true) :
    rcStrict (tally rs) f l = strictLabelCount rs f l := by
  have h1 := tallyAux_strict_counts_getD rs Tally.empty f l
  have h2 := tallyAux_strict_counts_isSome rs Tally.empty f l
  rw [show tallyAux rs Tally.empty = tally rs from rfl] at h1 h2
  have hempty : ((alistGet Tally.empty.strict_labels_counts l).bind (fun cs => alistGet cs f))
      = none := rfl
  rw [hempty] at h1 h2
  have hsome := h2.mpr (Or.inr h)
  unfold rcStrict
  cases hb : ((alistGet (tally rs).strict_labels_counts l).bind (fun cs => alistGet cs f)) with
  | none => rw [hb] at hsome; simp at hsome
  | some v =>
    rw [hb] at h1
    simp at h1
    simp [h1]

theorem rcFlex_tally (rs : List QueueRequest) (f : Nat) (l : QueueLabel)
    (h : hasFlexLabel rs f l = true) :
    rcFlex (tally rs) f l = flexLabelCount rs f l := by
  have h1 := tallyAux_flexible_counts_getD rs Tally.empty f l
  have h2 := tallyAux_flexible_counts_isSome rs Tally.empty f l
  rw [show tallyAux rs Tally.empty = tally rs from rfl] at h1 h2
  have hempty : ((alistGet Tally.empty.flexible_labels_counts l).bind (fun cs => alistGet cs f))
      = none := rfl
  rw [hempty] at h1 h2
  have hsome := h2.mpr (Or.inr h)
  unfold rcFlex
  cases hb : ((alistGet (tally rs).flexible_labels_counts l).bind (fun cs => alistGet cs f)) with
  | none => rw [hb] at hsome; simp at hsome
  | some v =>
    rw [hb] at h1
    simp at h1
    simp [h1]

theorem tally_strict_requests_nodup (rs : List QueueRequest) :
    alistNodupKeys (tally rs).strict_requests :=
  tallyAux_strict_requests_nodup rs Tally.empty (by simp [Tally.empty, alistNodupKeys, alistKeys])

theorem tally_flexible_requests_nodup (rs : List QueueRequest) :
    alistNodupKeys (tally rs).flexible_requests :=
  tallyAux_flexible_requests_nodup rs Tally.empty (by simp [Tally.empty, alistNodupKeys, alistKeys])

theorem listMapCongr {α β : Type} (l : List α) (f g : α → β) (h : ∀ a ∈ l, f a = g a) :
    l.map f = l.map g := by
  induction l with
  | nil => rfl
  | cons a l ih =>
    simp only [List.map_cons, h a (List.mem_cons_self a l)]
    rw [ih (fun b hb => h b (List.mem_cons_of_mem a hb))]

theorem strictLabelCount_eq_zero_of_not_has (rs : List QueueRequest) (f : Nat) (l : QueueLabel)
    (h : ¬(hasStrictLabel rs f l = true)) : strictLabelCount rs f l = 0 := by
  induction rs with
  | nil => simp [strictLabelCount]
  | cons r rs ih =>
    rw [strictLabelCount_cons]
    simp only [hasStrictLabel, List.any_cons, Bool.or_eq_true] at h
    push_neg at h
    have h1 : (isStrictOn f r && decide (r.label = some l)) = false := by
      cases hb : (isStrictOn f r && decide (r.label = some l))
      · rfl
      · exact absurd hb h.1
    rw [h1]
    simp only [Bool.false_eq_true, if_false, Nat.zero_add]
    exact ih (fun hh => h.2 (by simpa [hasStrictLabel] using hh))

theorem flexLabelCount_eq_zero_of_not_has (rs : List QueueRequest) (f : Nat) (l : QueueLabel)
    (h : ¬(hasFlexLabel rs f l = true)) : flexLabelCount rs f l = 0 := by
  induction rs with
  | nil => simp [flexLabelCount]
  | cons r rs ih =>
    rw [flexLabelCount_cons]
    simp only [hasFlexLabel, List.any_cons, Bool.or_eq_true] at h
    push_neg at h
    have h1 : (isFlexOn f r && decide (r.label = some l)) = false := by
      cases hb : (isFlexOn f r && decide (r.label = some l))
      · rfl
      · exact absurd hb h.1
    rw [h1]
    simp only [Bool.false_eq_true, if_false, Nat.zero_add]
    exact ih (fun hh => h.2 (by simpa [hasFlexLabel] using hh))

theorem sum_strictLabelCounts (rs : List QueueRequest) (f : Nat)
    (hnd : (strictLabelsOf rs f).Nodup) :
    ((strictLabelsOf rs f).map (fun l => strictLabelCount rs f l)).sum
      = labeledStrictDemand rs f := by
  induction rs with
  | nil => simp [strictLabelsOf, labeledStrictDemand]
  | cons r rs ih =>
    rw [strictLabelsOf_cons] at hnd ⊢
    rw [labeledStrictDemand_cons]
    cases h : isStrictOn f r
    · simp only [h, Bool.false_eq_true, if_false, List.nil_append, Bool.false_and] at hnd ⊢
      rw [listMapCongr (strictLabelsOf rs f)
        (fun l => strictLabelCount (r :: rs) f l) (fun l => strictLabelCount rs f l)
        (fun l _ => by simp [strictLabelCount_cons, h])]
      simpa using ih hnd
    · cases hl : r.label with
      | none =>
        simp only [h, hl, if_true, Option.toList_none, List.nil_append,
          Bool.true_and, Option.isSome_none, Bool.and_false] at hnd ⊢
        rw [listMapCongr (strictLabelsOf rs f)
          (fun l => strictLabelCount (r :: rs) f l) (fun l => strictLabelCount rs f l)
          (fun l _ => by simp [strictLabelCount_cons, hl])]
        simpa using ih hnd
      | some l0 =>
        simp only [h, hl, if_true, Option.toList_some, List.singleton_append,
          List.nodup_cons] at hnd ⊢
        obtain ⟨hnotmem, hnd'⟩ := hnd
        rw [List.map_cons, List.sum_cons]
        have hc0 : strictLabelCount (r :: rs) f l0 = r.count := by
          rw [strictLabelCount_cons]
          have hz : strictLabelCount rs f l0 = 0 := by
            apply strictLabelCount_eq_zero_of_not_has
            intro hh
            exact hnotmem ((mem_strictLabelsOf_iff rs f l0).mpr hh)
          simp [h, hl, hz]
        rw [hc0]
        rw [listMapCongr (strictLabelsOf rs f)
          (fun l => strictLabelCount (r :: rs) f l) (fun l => strictLabelCount rs f l)
          (fun l hlmem => by
            have hne : ¬(l0 = l) := by
              intro hEq
              subst hEq
              exact hnotmem hlmem
            simp [strictLabelCount_cons, hl, hne])]
        rw [ih hnd']
        simp

theorem sum_flexLabelCounts (rs : List QueueRequest) (f : Nat)
    (hnd : (flexLabelsOf rs f).Nodup) :
    ((flexLabelsOf rs f).map (fun l => flexLabelCount rs f l)).sum
      = labeledFlexDemand rs f := by
  induction rs with
  | nil => simp [flexLabelsOf, labeledFlexDemand]
  | cons r rs ih =>
    rw [flexLabelsOf_cons] at hnd ⊢
    rw [labeledFlexDemand_cons]
    cases h : isFlexOn f r
    · simp only [h, Bool.false_eq_true, if_false, List.nil_append, Bool.false_and] at hnd ⊢
      rw [listMapCongr (flexLabelsOf rs f)
        (fun l => flexLabelCount (r :: rs) f l) (fun l => flexLabelCount rs f l)
        (fun l _ => by simp [flexLabelCount_cons, h])]
      simpa using ih hnd
    · cases hl : r.label with
      | none =>
        simp only [h, hl, if_true, Option.toList_none, List.nil_append,
          Bool.true_and, Option.isSome_none, Bool.and_false] at hnd ⊢
        rw [listMapCongr (flexLabelsOf rs f)
          (fun l => flexLabelCount (r :: rs) f l) (fun l => flexLabelCount rs f l)
          (fun l _ => by simp [flexLabelCount_cons, hl])]
        simpa using ih hnd
      | some l0 =>
        simp only [h, hl, if_true, Option.toList_some, List.singleton_append,
          List.nodup_cons] at hnd ⊢
        obtain ⟨hnotmem, hnd'⟩ := hnd
        rw [List.map_cons, List.sum_cons]
        have hc0 : flexLabelCount (r :: rs) f l0 = r.count := by
          rw [flexLabelCount_cons]
          have hz : flexLabelCount rs f l0 = 0 := by
            apply flexLabelCount_eq_zero_of_not_has
            intro hh
            exact hnotmem ((mem_flexLabelsOf_iff rs f l0).mpr hh)
          simp [h, hl, hz]
        rw [hc0]
        rw [listMapCongr (flexLabelsOf rs f)
          (fun l => flexLabelCount (r :: rs) f l) (fun l => flexLabelCount rs f l)
          (fun l hlmem => by
            have hne : ¬(l0 = l) := by
              intro hEq
              subst hEq
              exact hnotmem hlmem
            simp [flexLabelCount_cons, hl, hne])]
        rw [ih hnd']
        simp

theorem labeledStrictDemand_le (rs : List QueueRequest) (f : Nat) :
    labeledStrictDemand rs f ≤ strictDemand rs f := by
  induction rs with
  | nil => simp [labeledStrictDemand, strictDemand]
  | cons r rs ih =>
    rw [labeledStrictDemand_cons, strictDemand_cons]
    cases h : isStrictOn f r <;> cases hs : r.label.isSome <;> simp [h, hs] <;> omega

theorem labeledFlexDemand_le (rs : List QueueRequest) (f : Nat) :
    labeledFlexDemand rs f ≤ flexDemand rs f := by
  induction rs with
  | nil => simp [labeledFlexDemand, flexDemand]
  | cons r rs ih =>
    rw [labeledFlexDemand_cons, flexDemand_cons]
    cases h : isFlexOn f r <;> cases hs : r.label.isSome <;> simp [h, hs] <;> omega

theorem mem_families_of_hasStrict (rs : List QueueRequest) (f : Nat)
    (h : hasStrict rs f = true) : f ∈ rs.map (fun r => r.family) := by
  unfold hasStrict at h
  rw [List.any_eq_true] at h
  obtain ⟨r, hr, hs⟩ := h
  rw [isStrictOn_iff] at hs
  rw [← hs.2]
  exact List.mem_map_of_mem _ hr

theorem mem_families_of_hasFlex (rs : List QueueRequest) (f : Nat)
    (h : hasFlex rs f = true) : f ∈ rs.map (fun r => r.family) := by
  unfold hasFlex at h
  rw [List.any_eq_true] at h
  obtain ⟨r, hr, hs⟩ := h
  rw [isFlexOn_iff] at hs
  rw [← hs.2]
  exact List.mem_map_of_mem _ hr

theorem strictDemand_eq_zero_of_not_has (rs : List QueueRequest) (f : Nat)
    (h : ¬(hasStrict rs f = true)) : strictDemand rs f = 0 := by
  induction rs with
  | nil => simp [strictDemand]
  | cons r rs ih =>
    rw [strictDemand_cons]
    rw [hasStrict_cons] at h
    simp only [Bool.or_eq_true] at h
    push_neg at h
    have h1 : isStrictOn f r = false := by
      cases hb : isStrictOn f r
      · rfl
      · exact absurd hb h.1
    rw [h1]
    simp only [Bool.false_eq_true, if_false, Nat.zero_add]
    exact ih h.2

theorem strictLabelsOf_eq_nil_of_not_mem (rs : List QueueRequest) (f : Nat)
    (h : f ∉ rs.map (fun r => r.family)) : strictLabelsOf rs f = [] := by
  induction rs with
  | nil => rfl
  | cons r rs ih =>
    rw [strictLabelsOf_cons]
    simp only [List.map_cons, List.mem_cons] at h
    push_neg at h
    have h1 : isStrictOn f r = false := by
      cases hb : isStrictOn f r
      · rfl
      · rw [isStrictOn_iff] at hb
        exact absurd hb.2.symm h.1
    rw [h1]
    simp only [Bool.false_eq_true, if_false, List.nil_append]
    exact ih h.2

theorem flexLabelsOf_eq_nil_of_not_mem (rs : List QueueRequest) (f : Nat)
    (h : f ∉ rs.map (fun r => r.family)) : flexLabelsOf rs f = [] := by
  induction rs with
  | nil => rfl
  | cons r rs ih =>
    rw [flexLabelsOf_cons]
    simp only [List.map_cons, List.mem_cons] at h
    push_neg at h
    have h1 : isFlexOn f r = false := by
      cases hb : isFlexOn f r
      · rfl
      · rw [isFlexOn_iff] at hb
        exact absurd hb.2.symm h.1
    rw [h1]
    simp only [Bool.false_eq_true, if_false, List.nil_append]
    exact ih h.2

theorem flexDemand_eq_zero_of_not_has (rs : List QueueRequest) (f : Nat)
    (h : ¬(hasFlex rs f = true)) : flexDemand rs f = 0 := by
  induction rs with
  | nil => simp [flexDemand]
  | cons r rs ih =>
    rw [flexDemand_cons]
    rw [hasFlex_cons] at h
    simp only [Bool.or_eq_true] at h
    push_neg at h
    have h1 : isFlexOn f r = false := by
      cases hb : isFlexOn f r
      · rfl
      · exact absurd hb h.1
    rw [h1]
    simp only [Bool.false_eq_true, if_false, Nat.zero_add]
    exact ih h.2

theorem hasFlex_of_flexDemand_pos (rs : List QueueRequest) (f : Nat)
    (h : 0 < flexDemand rs f) : hasFlex rs f = true := by
  by_contra hh
  have := flexDemand_eq_zero_of_not_has rs f hh
  omega

theorem alistGet_pushLabeled (m : List (QueueLabel × List QueueRef)) (l : QueueLabel)
    (q : QueueRef) (l' : QueueLabel) :
    alistGet (pushLabeled m l q) l'
      = if l' = l then some ((alistGet m l).getD [] ++ [q]) else alistGet m l' := by
  unfold pushLabeled
  cases h : alistGet m l <;> simp [alistGet_insert, h]

theorem labeledMatchesTrace_push (m : List (QueueLabel × List QueueRef))
    (tr : List (QueueLabel × QueueRef)) (l : QueueLabel) (q : QueueRef)
    (h : LabeledMatchesTrace m tr) :
    LabeledMatchesTrace (pushLabeled m l q) (tr ++ [(l, q)]) := by
  intro l'
  rw [alistGet_pushLabeled, List.filter_append, List.map_append]
  by_cases hll : l' = l
  · subst hll
    simp [h l']
  · have hll' : ¬(l = l') := fun hh => hll hh.symm
    simp [hll, hll', h l']

theorem labeledMatchesTrace_empty : LabeledMatchesTrace [] [] := by
  intro l
  simp [alistGet]

/-!
## Closed forms for the strict allocation loops
-/

theorem assignRun_ok (fam : Nat) (l : QueueLabel) :
    ∀ (rc : Nat) (ls : LabelState) (endIndex count : Nat), rc ≤ count →
    ∃ ls', assignRun fam l rc ls endIndex count = .ok (ls', endIndex + rc, count - rc)
      ∧ ls'.trace = ls.trace
          ++ (List.range' endIndex rc).map (fun i => (l, QueueRef.mk fam i))
      ∧ (LabeledMatchesTrace ls.labeled ls.trace
          → LabeledMatchesTrace ls'.labeled ls'.trace) := by
  intro rc
  induction rc with
  | zero =>
    intro ls endIndex count _
    exact ⟨ls, rfl, by simp, fun h => h⟩
  | succ rc ih =>
    intro ls endIndex count hle
    match count, hle with
    | count' + 1, hle =>
      have hle' : rc ≤ count' := by omega
      obtain ⟨ls', heq, htr, hinv⟩ :=
        ih (pushRefL ls l (QueueRef.mk fam endIndex)) (endIndex + 1) count' hle'
      refine ⟨ls', ?_, ?_, ?_⟩
      · rw [show assignRun fam l (rc + 1) ls endIndex (count' + 1)
            = assignRun fam l rc (pushRefL ls l (QueueRef.mk fam endIndex))
                (endIndex + 1) count' from rfl]
        rw [heq]
        have h1 : endIndex + 1 + rc = endIndex + (rc + 1) := by omega
        have h2 : count' - rc = count' + 1 - (rc + 1) := by omega
        rw [h1, h2]
      · rw [htr]
        show (ls.trace ++ [(l, QueueRef.mk fam endIndex)]) ++ _ = _
        rw [List.append_assoc, List.range'_succ]
        simp
      · intro h
        exact hinv (labeledMatchesTrace_push _ _ _ _ h)

theorem strictBlocks_family (fam : Nat) (c : QueueLabel → Nat) :
    ∀ (labels : List QueueLabel) (e : Nat) (p : QueueLabel × QueueRef),
      p ∈ strictBlocks fam c labels e → p.2.family = fam := by
  intro labels
  induction labels with
  | nil => intro e p hp; cases hp
  | cons l rest ih =>
    intro e p hp
    rw [strictBlocks] at hp
    rcases List.mem_append.mp hp with h | h
    · obtain ⟨i, _, hi⟩ := List.mem_map.mp h
      rw [← hi]
    · exact ih _ p h

theorem map_index_mk (fam : Nat) (l : QueueLabel) (L : List Nat) :
    (L.map (fun i => (l, QueueRef.mk fam i))).map (fun p => p.2.index) = L := by
  induction L with
  | nil => rfl
  | cons a L ih => simp only [List.map_cons, ih]

theorem strictBlocks_indices (fam : Nat) (c : QueueLabel → Nat) :
    ∀ (labels : List QueueLabel) (e : Nat),
      (strictBlocks fam c labels e).map (fun p => p.2.index)
        = List.range' e ((labels.map c).sum) := by
  intro labels
  induction labels with
  | nil => intro e; simp [strictBlocks]
  | cons l rest ih =>
    intro e
    rw [strictBlocks, List.map_append, ih, map_index_mk, List.range'_append_1]
    simp only [List.map_cons, List.sum_cons]
    rw [Nat.add_comm (c l) ((rest.map c).sum)]

theorem strictLabelLoop_ok (t : Tally) (fam : Nat) :
    ∀ (labels : List QueueLabel) (ls : LabelState) (endIndex count : Nat),
    (labels.map (fun l => rcStrict t fam l)).sum ≤ count →
    ∃ ls', strictLabelLoop t fam labels ls endIndex count
        = .ok (ls', endIndex + (labels.map (fun l => rcStrict t fam l)).sum,
               count - (labels.map (fun l => rcStrict t fam l)).sum)
      ∧ ls'.trace = ls.trace ++ strictBlocks fam (rcStrict t fam) labels endIndex
      ∧ (LabeledMatchesTrace ls.labeled ls.trace
          → LabeledMatchesTrace ls'.labeled ls'.trace) := by
  intro labels
  induction labels with
  | nil =>
    intro ls endIndex count _
    exact ⟨ls, by simp [strictLabelLoop], by simp [strictBlocks], fun h => h⟩
  | cons l rest ih =>
    intro ls endIndex count hle
    simp only [List.map_cons, List.sum_cons] at hle
    have hrc : rcStrict t fam l ≤ count := by omega
    obtain ⟨ls1, heq1, htr1, hinv1⟩ := assignRun_ok fam l (rcStrict t fam l) ls endIndex count hrc
    have hle2 : (rest.map (fun l => rcStrict t fam l)).sum ≤ count - rcStrict t fam l := by
      omega
    obtain ⟨ls', heq2, htr2, hinv2⟩ :=
      ih ls1 (endIndex + rcStrict t fam l) (count - rcStrict t fam l) hle2
    refine ⟨ls', ?_, ?_, fun h => hinv2 (hinv1 h)⟩
    · have hstep : strictLabelLoop t fam (l :: rest) ls endIndex count
          = strictLabelLoop t fam rest ls1 (endIndex + rcStrict t fam l)
              (count - rcStrict t fam l) := by
        rw [strictLabelLoop, heq1]
      rw [hstep, heq2]
      simp only [List.map_cons, List.sum_cons]
      have h1 : endIndex + rcStrict t fam l + (rest.map (fun l => rcStrict t fam l)).sum
          = endIndex + (rcStrict t fam l + (rest.map (fun l => rcStrict t fam l)).sum) := by
        omega
      have h2 : count - rcStrict t fam l - (rest.map (fun l => rcStrict t fam l)).sum
          = count - (rcStrict t fam l + (rest.map (fun l => rcStrict t fam l)).sum) := by
        omega
      rw [h1, h2]
    · rw [htr2, htr1, List.append_assoc]
      rfl

theorem alistGet_insert_ne {α β : Type} [DecidableEq α] (m : List (α × β)) (k : α) (v : β)
    (k' : α) (h : ¬(k' = k)) : alistGet (alistInsert m k v) k' = alistGet m k' := by
  rw [alistGet_insert]
  simp [h]

theorem alistGet_insert_self {α β : Type} [DecidableEq α] (m : List (α × β)) (k : α) (v : β) :
    alistGet (alistInsert m k v) k = some v := by
  rw [alistGet_insert]
  simp

theorem strictAfterAvail_ok (t : Tally) (st : AllocState) (fam count : Nat)
    (hsum : (((alistGet t.strict_labels fam).getD []).map (fun l => rcStrict t fam l)).sum
        ≤ count) :
    ∃ st', strictAfterAvail t st fam count = .ok st'
      ∧ st'.avail = st.avail
      ∧ st'.flexible_starts = alistInsert st.flexible_starts fam count
      ∧ st'.unlabeled
          = (if (((alistGet t.strict_labels fam).getD []).map (fun l => rcStrict t fam l)).sum
                < count
             then alistInsert st.unlabeled fam
               (Finset.Ico
                 ((((alistGet t.strict_labels fam).getD []).map (fun l => rcStrict t fam l)).sum)
                 count)
             else st.unlabeled)
      ∧ st'.trace = st.trace
          ++ strictBlocks fam (rcStrict t fam) ((alistGet t.strict_labels fam).getD []) 0
      ∧ (LabeledMatchesTrace st.labeled st.trace
          → LabeledMatchesTrace st'.labeled st'.trace) := by
  set labels := (alistGet t.strict_labels fam).getD [] with hlabels
  set SUM := (labels.map (fun l => rcStrict t fam l)).sum with hSUM
  obtain ⟨ls', heq, htr, hinv⟩ :=
    strictLabelLoop_ok t fam labels ⟨st.labeled, st.trace⟩ 0 count hsum
  rw [show (0 : Nat) + SUM = SUM from by omega] at heq
  by_cases hlt : SUM < count
  · refine
      ⟨{ st with
          labeled := ls'.labeled
          trace := ls'.trace
          unlabeled := alistInsert st.unlabeled fam (Finset.Ico SUM (SUM + (count - SUM)))
          flexible_starts := alistInsert st.flexible_starts fam (SUM + (count - SUM)) },
        ?_, rfl, ?_, ?_, ?_, ?_⟩
    · unfold strictAfterAvail
      rw [← hlabels, heq]
      have hpos : 0 < count - SUM := by omega
      simp [hpos]
    · have : SUM + (count - SUM) = count := by omega
      rw [this]
    · have : SUM + (count - SUM) = count := by omega
      rw [this]
      simp [hlt]
    · exact htr
    · exact hinv
  · have hEq : SUM = count := by omega
    refine
      ⟨{ st with
          labeled := ls'.labeled
          trace := ls'.trace
          flexible_starts := alistInsert st.flexible_starts fam SUM },
        ?_, rfl, ?_, ?_, ?_, ?_⟩
    · unfold strictAfterAvail
      rw [← hlabels, heq]
      have hz : ¬(0 < count - SUM) := by omega
      simp [hz]
    · rw [hEq]
    · simp [hlt]
    · exact htr
    · exact hinv

theorem processStrictFamily_char (totalAvail : List (Nat × Nat)) (t : Tally) (st : AllocState)
    (fam count A : Nat)
    (hA : alistGet st.avail fam = some A) (hle : count ≤ A)
    (hsum : (((alistGet t.strict_labels fam).getD []).map (fun l => rcStrict t fam l)).sum
        ≤ count) :
    ∃ st', processStrictFamily totalAvail t st fam count = .ok st'
      ∧ st'.avail = alistInsert st.avail fam (A - count)
      ∧ st'.flexible_starts = alistInsert st.flexible_starts fam count
      ∧ st'.unlabeled
          = (if (((alistGet t.strict_labels fam).getD []).map (fun l => rcStrict t fam l)).sum
                < count
             then alistInsert st.unlabeled fam
               (Finset.Ico
                 ((((alistGet t.strict_labels fam).getD []).map (fun l => rcStrict t fam l)).sum)
                 count)
             else st.unlabeled)
      ∧ st'.trace = st.trace
          ++ strictBlocks fam (rcStrict t fam) ((alistGet t.strict_labels fam).getD []) 0
      ∧ (LabeledMatchesTrace st.labeled st.trace
          → LabeledMatchesTrace st'.labeled st'.trace) := by
  obtain ⟨st', heq, ha, hf, hu, htr, hinv⟩ :=
    strictAfterAvail_ok t { st with avail := alistInsert st.avail fam (A - count) } fam count hsum
  refine ⟨st', ?_, by rw [ha], by simpa using hf, by simpa using hu, by simpa using htr, hinv⟩
  unfold processStrictFamily
  rw [hA]
  have hnl : ¬(A < count) := by omega
  simp only [hnl, if_false]
  exact heq

theorem processStrictFamily_uncapped (totalAvail : List (Nat × Nat)) (t : Tally)
    (st : AllocState) (fam count : Nat)
    (hA : alistGet st.avail fam = none)
    (hsum : (((alistGet t.strict_labels fam).getD []).map (fun l => rcStrict t fam l)).sum
        ≤ count) :
    ∃ st', processStrictFamily totalAvail t st fam count = .ok st'
      ∧ st'.avail = st.avail
      ∧ st'.flexible_starts = alistInsert st.flexible_starts fam count
      ∧ st'.unlabeled
          = (if (((alistGet t.strict_labels fam).getD []).map (fun l => rcStrict t fam l)).sum
                < count
             then alistInsert st.unlabeled fam
               (Finset.Ico
                 ((((alistGet t.strict_labels fam).getD []).map (fun l => rcStrict t fam l)).sum)
                 count)
             else st.unlabeled)
      ∧ st'.trace = st.trace
          ++ strictBlocks fam (rcStrict t fam) ((alistGet t.strict_labels fam).getD []) 0
      ∧ (LabeledMatchesTrace st.labeled st.trace
          → LabeledMatchesTrace st'.labeled st'.trace) := by
  obtain ⟨st', heq, ha, hf, hu, htr, hinv⟩ := strictAfterAvail_ok t st fam count hsum
  refine ⟨st', ?_, ha, hf, hu, htr, hinv⟩
  unfold processStrictFamily
  rw [hA]
  exact heq

theorem processStrictFamily_ok (totalAvail : List (Nat × Nat)) (t : Tally) (st : AllocState)
    (fam count : Nat)
    (hcap : ∀ A, alistGet st.avail fam = some A → count ≤ A)
    (hsum : (((alistGet t.strict_labels fam).getD []).map (fun l => rcStrict t fam l)).sum
        ≤ count) :
    ∃ st', processStrictFamily totalAvail t st fam count = .ok st'
      ∧ (∀ k, ¬(k = fam) → alistGet st'.avail k = alistGet st.avail k)
      ∧ (∀ k, ¬(k = fam) → alistGet st'.flexible_starts k = alistGet st.flexible_starts k)
      ∧ (∀ k, ¬(k = fam) → alistGet st'.unlabeled k = alistGet st.unlabeled k)
      ∧ (∃ new, st'.trace = st.trace ++ new ∧ ∀ e ∈ new, e.2.family = fam)
      ∧ (LabeledMatchesTrace st.labeled st.trace
          → LabeledMatchesTrace st'.labeled st'.trace) := by
  cases hA : alistGet st.avail fam with
  | none =>
    obtain ⟨st', heq, ha, hf, hu, htr, hinv⟩ :=
      processStrictFamily_uncapped totalAvail t st fam count hA hsum
    refine ⟨st', heq, ?_, ?_, ?_, ⟨_, htr, ?_⟩, hinv⟩
    · intro k _; rw [ha]
    · intro k hk; rw [hf, alistGet_insert_ne _ _ _ _ hk]
    · intro k hk
      rw [hu]
      by_cases hlt : (((alistGet t.strict_labels fam).getD []).map
          (fun l => rcStrict t fam l)).sum < count
      · simp only [hlt, if_true]
        rw [alistGet_insert_ne _ _ _ _ hk]
      · simp [hlt]
    · intro e he
      exact strictBlocks_family fam (rcStrict t fam) _ 0 e he
  | some A =>
    obtain ⟨st', heq, ha, hf, hu, htr, hinv⟩ :=
      processStrictFamily_char totalAvail t st fam count A hA (hcap A hA) hsum
    refine ⟨st', heq, ?_, ?_, ?_, ⟨_, htr, ?_⟩, hinv⟩
    · intro k hk; rw [ha, alistGet_insert_ne _ _ _ _ hk]
    · intro k hk; rw [hf, alistGet_insert_ne _ _ _ _ hk]
    · intro k hk
      rw [hu]
      by_cases hlt : (((alistGet t.strict_labels fam).getD []).map
          (fun l => rcStrict t fam l)).sum < count
      · simp only [hlt, if_true]
        rw [alistGet_insert_ne _ _ _ _ hk]
      · simp [hlt]
    · intro e he
      exact strictBlocks_family fam (rcStrict t fam) _ 0 e he

theorem runSteps_append (step : AllocState → Nat × Nat → Except AllocError AllocState)
    (l1 l2 : List (Nat × Nat)) (st : AllocState) :
    runSteps step (l1 ++ l2) st
      = match runSteps step l1 st with
        | .error e => .error e
        | .ok st' => runSteps step l2 st' := by
  induction l1 generalizing st with
  | nil => simp [runSteps]
  | cons p rest ih =>
    rw [List.cons_append, runSteps, runSteps]
    cases step st p with
    | error e => rfl
    | ok st' => exact ih st'

theorem strictRun_ok (totalAvail : List (Nat × Nat)) (t : Tally) :
    ∀ (l : List (Nat × Nat)) (st : AllocState),
    (∀ p ∈ l, (∀ A, alistGet st.avail p.1 = some A → p.2 ≤ A)
       ∧ (((alistGet t.strict_labels p.1).getD []).map (fun lb => rcStrict t p.1 lb)).sum ≤ p.2) →
    (l.map Prod.fst).Nodup →
    ∃ st', runSteps (fun st p => processStrictFamily totalAvail t st p.1 p.2) l st = .ok st'
      ∧ (∀ k, k ∉ l.map Prod.fst →
          alistGet st'.avail k = alistGet st.avail k
          ∧ alistGet st'.flexible_starts k = alistGet st.flexible_starts k
          ∧ alistGet st'.unlabeled k = alistGet st.unlabeled k)
      ∧ (∃ new, st'.trace = st.trace ++ new ∧ ∀ e ∈ new, e.2.family ∈ l.map Prod.fst)
      ∧ (LabeledMatchesTrace st.labeled st.trace
          → LabeledMatchesTrace st'.labeled st'.trace) := by
  intro l
  induction l with
  | nil =>
    intro st _ _
    exact ⟨st, rfl, fun k _ => ⟨rfl, rfl, rfl⟩, ⟨[], by simp, by simp⟩, fun h => h⟩
  | cons p rest ih =>
    intro st hcond hnd
    obtain ⟨hp, hrest⟩ := List.forall_mem_cons.mp hcond
    obtain ⟨st1, heq1, hav1, hfs1, hun1, ⟨new1, htr1, hfam1⟩, hinv1⟩ :=
      processStrictFamily_ok totalAvail t st p.1 p.2 hp.1 hp.2
    simp only [List.map_cons, List.nodup_cons] at hnd
    have hcond2 : ∀ q ∈ rest, (∀ A, alistGet st1.avail q.1 = some A → q.2 ≤ A)
        ∧ (((alistGet t.strict_labels q.1).getD []).map (fun lb => rcStrict t q.1 lb)).sum
            ≤ q.2 := by
      intro q hq
      have hne : ¬(q.1 = p.1) := by
        intro hEq
        exact hnd.1 (hEq ▸ List.mem_map_of_mem Prod.fst hq)
      refine ⟨?_, (hrest q hq).2⟩
      intro A hA
      exact (hrest q hq).1 A (by rw [← hav1 q.1 hne]; exact hA)
    obtain ⟨st', heq2, hframe2, ⟨new2, htr2, hfam2⟩, hinv2⟩ := ih st1 hcond2 hnd.2
    refine ⟨st', ?_, ?_, ⟨new1 ++ new2, ?_, ?_⟩, fun h => hinv2 (hinv1 h)⟩
    · rw [runSteps, heq1]
      exact heq2
    · intro k hk
      simp only [List.map_cons, List.mem_cons] at hk
      push_neg at hk
      obtain ⟨h1, h2, h3⟩ := hframe2 k hk.2
      exact ⟨by rw [h1, hav1 k hk.1], by rw [h2, hfs1 k hk.1], by rw [h3, hun1 k hk.1]⟩
    · rw [htr2, htr1, List.append_assoc]
    · intro e he
      simp only [List.map_cons, List.mem_cons]
      rcases List.mem_append.mp he with h | h
      · exact Or.inl (hfam1 e h)
      · exact Or.inr (hfam2 e h)

theorem strictLabelsOf_eq_nil_of_not_has (rs : List QueueRequest) (f : Nat)
    (h : hasStrict rs f = false) : strictLabelsOf rs f = [] := by
  induction rs with
  | nil => rfl
  | cons r rs ih =>
    rw [hasStrict_cons] at h
    rcases Bool.or_eq_false_iff.mp h with ⟨h1, h2⟩
    rw [strictLabelsOf_cons, h1]
    simp only [Bool.false_eq_true, if_false, List.nil_append]
    exact ih h2

theorem flexLabelsOf_eq_nil_of_not_has (rs : List QueueRequest) (f : Nat)
    (h : hasFlex rs f = false) : flexLabelsOf rs f = [] := by
  induction rs with
  | nil => rfl
  | cons r rs ih =>
    rw [hasFlex_cons] at h
    rcases Bool.or_eq_false_iff.mp h with ⟨h1, h2⟩
    rw [flexLabelsOf_cons, h1]
    simp only [Bool.false_eq_true, if_false, List.nil_append]
    exact ih h2

theorem alistMem_of_get {α β : Type} [DecidableEq α] (m : List (α × β)) (k : α) (v : β)
    (h : alistGet m k = some v) : (k, v) ∈ m := by
  induction m with
  | nil => cases h
  | cons p rest ih =>
    obtain ⟨a, b⟩ := p
    by_cases hak : a = k
    · subst hak
      simp only [alistGet, if_pos rfl] at h
      rw [List.mem_cons]
      exact Or.inl (by rw [Option.some.inj h])
    · simp only [alistGet, if_neg hak] at h
      exact List.mem_cons_of_mem _ (ih h)

theorem strictBlocks_congr (fam : Nat) (c c' : QueueLabel → Nat) :
    ∀ (labels : List QueueLabel) (e : Nat), (∀ l ∈ labels, c l = c' l) →
      strictBlocks fam c labels e = strictBlocks fam c' labels e := by
  intro labels
  induction labels with
  | nil => intro e _; rfl
  | cons l rest ih =>
    intro e h
    rw [strictBlocks, strictBlocks, h l (List.mem_cons_self l rest),
      ih (e + c' l) (fun x hx => h x (List.mem_cons_of_mem l hx))]

/-- Strict pass master lemma: under positive-capacity hypotheses and per-family
distinct strict labels, the strict pass of Device::new succeeds and is fully
characterized on every family listed in the capacity table. -/
theorem strictPass_master (rs : List QueueRequest) (caps : List (Nat × Nat))
    (hnd : ∀ g ∈ rs.map (fun r => r.family), (strictLabelsOf rs g).Nodup)
    (hcap : ∀ g ∈ rs.map (fun r => r.family),
        strictDemand rs g ≤ (alistGet caps g).getD (strictDemand rs g)) :
    ∃ st1, strictPass rs caps = .ok st1
      ∧ LabeledMatchesTrace st1.labeled st1.trace
      ∧ (∀ f C, alistGet caps f = some C →
          alistGet st1.avail f = some (C - strictDemand rs f)
          ∧ (alistGet st1.flexible_starts f).getD 0 = strictDemand rs f
          ∧ alistGet st1.unlabeled f
              = (if labeledStrictDemand rs f < strictDemand rs f
                 then some (Finset.Ico (labeledStrictDemand rs f) (strictDemand rs f))
                 else none)
          ∧ st1.trace.filter (fun e => decide (e.2.family = f))
              = strictBlocks f (fun l => strictLabelCount rs f l) (strictLabelsOf rs f) 0) := by
  have hT : ((tally rs).strict_requests.map Prod.fst).Nodup := tally_strict_requests_nodup rs
  have hent : ∀ p ∈ (tally rs).strict_requests,
      p.2 = strictDemand rs p.1 ∧ hasStrict rs p.1 = true := by
    intro p hp
    have hg := alistGet_of_mem_of_nodup _ p hp (tally_strict_requests_nodup rs)
    rw [tally_strict_requests_get] at hg
    by_cases hh : hasStrict rs p.1 = true
    · rw [if_pos hh] at hg
      exact ⟨(Option.some.inj hg).symm, hh⟩
    · rw [if_neg hh] at hg
      cases hg
  have hLf : ∀ f, hasStrict rs f = true →
      (((alistGet (tally rs).strict_labels f).getD []).map
        (fun lb => rcStrict (tally rs) f lb)).sum = labeledStrictDemand rs f := by
    intro f hhs
    rw [tally_strict_labels_getD]
    have hsum1 : ((strictLabelsOf rs f).map (fun lb => rcStrict (tally rs) f lb)).sum
        = ((strictLabelsOf rs f).map (fun lb => strictLabelCount rs f lb)).sum := by
      apply congrArg List.sum
      apply listMapCongr
      intro lb hlb
      exact rcStrict_tally rs f lb ((mem_strictLabelsOf_iff rs f lb).mp hlb)
    rw [hsum1]
    exact sum_strictLabelCounts rs f (hnd f (mem_families_of_hasStrict rs f hhs))
  have hcond : ∀ (sub : List (Nat × Nat)), (∀ p ∈ sub, p ∈ (tally rs).strict_requests) →
      ∀ (st : AllocState), (∀ p ∈ sub, alistGet st.avail p.1 = alistGet caps p.1) →
      ∀ p ∈ sub, (∀ A, alistGet st.avail p.1 = some A → p.2 ≤ A)
        ∧ (((alistGet (tally rs).strict_labels p.1).getD []).map
            (fun lb => rcStrict (tally rs) p.1 lb)).sum ≤ p.2 := by
    intro sub hsub st hag p hp
    obtain ⟨hdem, hhs⟩ := hent p (hsub p hp)
    constructor
    · intro A hA
      rw [hag p hp] at hA
      have hmem := mem_families_of_hasStrict rs p.1 hhs
      have hle := hcap p.1 hmem
      rw [hA] at hle
      simpa [hdem] using hle
    · rw [hLf p.1 hhs, hdem]
      exact labeledStrictDemand_le rs p.1
  obtain ⟨st1, heq, hframe, ⟨new, htr, hfam⟩, hinv⟩ :=
    strictRun_ok caps (tally rs) (tally rs).strict_requests (initAllocState caps)
      (hcond (tally rs).strict_requests (fun p hp => hp) _ (fun p hp => rfl)) hT
  refine ⟨st1, heq, hinv labeledMatchesTrace_empty, ?_⟩
  intro f C hfC
  by_cases hhs : hasStrict rs f = true
  · -- f is processed: split the family list around f
    have hS : alistGet (tally rs).strict_requests f = some (strictDemand rs f) := by
      rw [tally_strict_requests_get, if_pos hhs]
    have hmemf : (f, strictDemand rs f) ∈ (tally rs).strict_requests :=
      alistMem_of_get _ _ _ hS
    obtain ⟨l1, l2, hsplit⟩ := List.append_of_mem hmemf
    have hT2 := hT
    rw [hsplit] at hT2
    simp only [List.map_append, List.map_cons] at hT2
    rw [List.nodup_append] at hT2
    obtain ⟨hnd1, hnd2c, hdisj⟩ := hT2
    rw [List.nodup_cons] at hnd2c
    obtain ⟨hf2, hnd2⟩ := hnd2c
    have hf1 : f ∉ l1.map Prod.fst := by
      intro hc
      exact hdisj hc (List.mem_cons_self _ _)
    have hsubl1 : ∀ p ∈ l1, p ∈ (tally rs).strict_requests := by
      intro p hp
      rw [hsplit]
      exact List.mem_append_left _ hp
    have hsubl2 : ∀ p ∈ l2, p ∈ (tally rs).strict_requests := by
      intro p hp
      rw [hsplit]
      exact List.mem_append_right _ (List.mem_cons_of_mem _ hp)
    obtain ⟨stA, heqA, hframeA, ⟨newA, htrA, hfamA⟩, hinvA⟩ :=
      strictRun_ok caps (tally rs) l1 (initAllocState caps)
        (hcond l1 hsubl1 _ (fun p hp => rfl)) hnd1
    have hAf : alistGet stA.avail f = some C := by
      rw [(hframeA f hf1).1]
      exact hfC
    have hSle : strictDemand rs f ≤ C := by
      have hle := hcap f (mem_families_of_hasStrict rs f hhs)
      rw [hfC] at hle
      simpa using hle
    obtain ⟨stB, heqB, hBav, hBfs, hBun, hBtr, hBinv⟩ :=
      processStrictFamily_char caps (tally rs) stA f (strictDemand rs f) C hAf hSle
        (by rw [hLf f hhs]; exact labeledStrictDemand_le rs f)
    obtain ⟨stC, heqC, hframeC, ⟨newC, htrC, hfamC⟩, hinvC⟩ :=
      strictRun_ok caps (tally rs) l2 stB
        (by
          intro p hp
          apply hcond l2 hsubl2 stB _ p hp
          intro q hq
          have hqne : ¬(q.1 = f) := by
            intro hEq
            exact hf2 (hEq ▸ List.mem_map_of_mem Prod.fst hq)
          have hq1 : q.1 ∉ l1.map Prod.fst := by
            intro hc
            exact hdisj hc (by
              rw [List.mem_cons]
              exact Or.inr (List.mem_map_of_mem Prod.fst hq))
          rw [hBav, alistGet_insert_ne _ _ _ _ hqne, (hframeA q.1 hq1).1]
          rfl)
        hnd2
    have hfinal : strictPass rs caps = .ok stC := by
      show runSteps _ (tally rs).strict_requests (initAllocState caps) = .ok stC
      rw [hsplit, runSteps_append, heqA]
      show runSteps _ ((f, strictDemand rs f) :: l2) stA = .ok stC
      rw [runSteps, heqB]
      exact heqC
    have heq' : strictPass rs caps = .ok st1 := heq
    have hstC : st1 = stC := by
      rw [heq'] at hfinal
      exact Except.ok.inj hfinal
    subst hstC
    have hfnotl2 : f ∉ l2.map Prod.fst := hf2
    obtain ⟨hCav, hCfs, hCun⟩ := hframeC f hfnotl2
    refine ⟨?_, ?_, ?_, ?_⟩
    · rw [hCav, hBav, alistGet_insert_self]
    · rw [hCfs, hBfs, alistGet_insert_self]
      rfl
    · rw [hCun, hBun]
      rw [hLf f hhs]
      by_cases hlt : labeledStrictDemand rs f < strictDemand rs f
      · simp only [hlt, if_true]
        rw [alistGet_insert_self]
      · simp only [hlt, if_false]
        rw [(hframeA f hf1).2.2]
        rfl
    · -- trace characterization
      rw [htrC, hBtr, htrA]
      have hinitA : (initAllocState caps).trace = [] := rfl
      rw [hinitA, List.nil_append]
      rw [List.filter_append, List.filter_append]
      have hfa : newA.filter (fun e => decide (e.2.family = f)) = [] := by
        rw [List.filter_eq_nil_iff]
        intro e he
        have := hfamA e he
        simp only [decide_eq_true_eq]
        intro hc
        exact hf1 (hc ▸ this)
      have hfc : newC.filter (fun e => decide (e.2.family = f)) = [] := by
        rw [List.filter_eq_nil_iff]
        intro e he
        have := hfamC e he
        simp only [decide_eq_true_eq]
        intro hc
        exact hf2 (hc ▸ this)
      have hfb : (strictBlocks f (rcStrict (tally rs) f)
            ((alistGet (tally rs).strict_labels f).getD []) 0).filter
            (fun e => decide (e.2.family = f))
          = strictBlocks f (rcStrict (tally rs) f)
              ((alistGet (tally rs).strict_labels f).getD []) 0 := by
        rw [List.filter_eq_self]
        intro e he
        simp only [decide_eq_true_eq]
        exact strictBlocks_family f _ _ 0 e he
      rw [hfa, hfc, hfb]
      simp only [List.append_nil, List.nil_append]
      rw [tally_strict_labels_getD]
      apply strictBlocks_congr
      intro lb hlb
      exact rcStrict_tally rs f lb ((mem_strictLabelsOf_iff rs f lb).mp hlb)
  · -- f has no strict demand: untouched by the strict pass
    have hnotin : f ∉ (tally rs).strict_requests.map Prod.fst := by
      intro hc
      have := (alistGet_isSome_iff_mem_keys (tally rs).strict_requests f).mpr hc
      rw [tally_strict_requests_get, if_neg hhs] at this
      cases this
    obtain ⟨hav, hfs, hun⟩ := hframe f hnotin
    have hdem0 : strictDemand rs f = 0 := strictDemand_eq_zero_of_not_has rs f hhs
    have hlab0 : labeledStrictDemand rs f = 0 := by
      have := labeledStrictDemand_le rs f
      omega
    refine ⟨?_, ?_, ?_, ?_⟩
    · rw [hav, hdem0]
      show alistGet caps f = some (C - 0)
      simpa using hfC
    · rw [hfs, hdem0]
      rfl
    · rw [hun, hdem0, hlab0]
      rfl
    · rw [htr]
      show (([] : List (QueueLabel × QueueRef)) ++ new).filter _ = _
      rw [List.nil_append]
      have hz : new.filter (fun e => decide (e.2.family = f)) = [] := by
        rw [List.filter_eq_nil_iff]
        intro e he
        have := hfam e he
        simp only [decide_eq_true_eq]
        intro hc
        exact hnotin (hc ▸ this)
      rw [hz]
      rw [strictLabelsOf_eq_nil_of_not_has rs f (by
        cases hb : hasStrict rs f
        · rfl
        · exact absurd hb hhs)]
      rfl

/-!
## Closed forms for the flexible allocation loops
-/

theorem flexAssignRun_ok (fam : Nat) (l : QueueLabel) (start len : Nat) (hlen : ¬(len = 0)) :
    ∀ (rc : Nat) (ls : LabelState) (oIndex count : Nat), rc ≤ count →
    ∃ ls', flexAssignRun fam l start len rc ls oIndex count = .ok (ls', oIndex + rc, count - rc)
      ∧ ls'.trace = ls.trace
          ++ (List.range' oIndex rc).map (fun k => (l, QueueRef.mk fam (start + k % len)))
      ∧ (LabeledMatchesTrace ls.labeled ls.trace
          → LabeledMatchesTrace ls'.labeled ls'.trace) := by
  intro rc
  induction rc with
  | zero =>
    intro ls oIndex count _
    exact ⟨ls, rfl, by simp, fun h => h⟩
  | succ rc ih =>
    intro ls oIndex count hle
    match count, hle with
    | count' + 1, hle =>
      have hle' : rc ≤ count' := by omega
      obtain ⟨ls', heq, htr, hinv⟩ :=
        ih (pushRefL ls l (QueueRef.mk fam (start + oIndex % len))) (oIndex + 1) count' hle'
      refine ⟨ls', ?_, ?_, ?_⟩
      · rw [show flexAssignRun fam l start len (rc + 1) ls oIndex (count' + 1)
            = flexAssignRun fam l start len rc
                (pushRefL ls l (QueueRef.mk fam (start + oIndex % len)))
                (oIndex + 1) count' from by
          rw [flexAssignRun]
          simp [hlen]]
        rw [heq]
        have h1 : oIndex + 1 + rc = oIndex + (rc + 1) := by omega
        have h2 : count' - rc = count' + 1 - (rc + 1) := by omega
        rw [h1, h2]
      · rw [htr]
        show (ls.trace ++ [(l, QueueRef.mk fam (start + oIndex % len))]) ++ _ = _
        rw [List.append_assoc, List.range'_succ]
        simp
      · intro h
        exact hinv (labeledMatchesTrace_push _ _ _ _ h)

theorem flexBlocks_family (fam start len : Nat) (c : QueueLabel → Nat) :
    ∀ (labels : List QueueLabel) (o : Nat) (p : QueueLabel × QueueRef),
      p ∈ flexBlocks fam start len c labels o → p.2.family = fam := by
  intro labels
  induction labels with
  | nil => intro o p hp; cases hp
  | cons l rest ih =>
    intro o p hp
    rw [flexBlocks] at hp
    rcases List.mem_append.mp hp with h | h
    · obtain ⟨i, _, hi⟩ := List.mem_map.mp h
      rw [← hi]
    · exact ih _ p h

theorem map_index_mk_fn (fam : Nat) (l : QueueLabel) (g : Nat → Nat) (L : List Nat) :
    (L.map (fun i => (l, QueueRef.mk fam (g i)))).map (fun p => p.2.index) = L.map g := by
  induction L with
  | nil => rfl
  | cons a L ih => simp only [List.map_cons, ih]

theorem flexBlocks_indices (fam start len : Nat) (c : QueueLabel → Nat) :
    ∀ (labels : List QueueLabel) (o : Nat),
      (flexBlocks fam start len c labels o).map (fun p => p.2.index)
        = (List.range' o ((labels.map c).sum)).map (fun k => start + k % len) := by
  intro labels
  induction labels with
  | nil => intro o; simp [flexBlocks]
  | cons l rest ih =>
    intro o
    rw [flexBlocks, List.map_append, ih, map_index_mk_fn, ← List.map_append,
      List.range'_append_1]
    simp only [List.map_cons, List.sum_cons]
    rw [Nat.add_comm (c l) ((rest.map c).sum)]

theorem flexBlocks_congr (fam start len : Nat) (c c' : QueueLabel → Nat) :
    ∀ (labels : List QueueLabel) (o : Nat), (∀ l ∈ labels, c l = c' l) →
      flexBlocks fam start len c labels o = flexBlocks fam start len c' labels o := by
  intro labels
  induction labels with
  | nil => intro o _; rfl
  | cons l rest ih =>
    intro o h
    rw [flexBlocks, flexBlocks, h l (List.mem_cons_self l rest),
      ih (o + c' l) (fun x hx => h x (List.mem_cons_of_mem l hx))]

theorem flexLabelLoop_ok (t : Tally) (fam start len : Nat) (hlen : ¬(len = 0)) :
    ∀ (labels : List QueueLabel) (ls : LabelState) (oIndex count : Nat),
    (labels.map (fun l => rcFlex t fam l)).sum ≤ count →
    ∃ ls', flexLabelLoop t fam start len labels ls oIndex count
        = .ok (ls', oIndex + (labels.map (fun l => rcFlex t fam l)).sum,
               count - (labels.map (fun l => rcFlex t fam l)).sum)
      ∧ ls'.trace = ls.trace ++ flexBlocks fam start len (rcFlex t fam) labels oIndex
      ∧ (LabeledMatchesTrace ls.labeled ls.trace
          → LabeledMatchesTrace ls'.labeled ls'.trace) := by
  intro labels
  induction labels with
  | nil =>
    intro ls oIndex count _
    exact ⟨ls, by simp [flexLabelLoop], by simp [flexBlocks], fun h => h⟩
  | cons l rest ih =>
    intro ls oIndex count hle
    simp only [List.map_cons, List.sum_cons] at hle
    have hrc : rcFlex t fam l ≤ count := by omega
    obtain ⟨ls1, heq1, htr1, hinv1⟩ :=
      flexAssignRun_ok fam l start len hlen (rcFlex t fam l) ls oIndex count hrc
    have hle2 : (rest.map (fun l => rcFlex t fam l)).sum ≤ count - rcFlex t fam l := by
      omega
    obtain ⟨ls', heq2, htr2, hinv2⟩ :=
      ih ls1 (oIndex + rcFlex t fam l) (count - rcFlex t fam l) hle2
    refine ⟨ls', ?_, ?_, fun h => hinv2 (hinv1 h)⟩
    · have hstep : flexLabelLoop t fam start len (l :: rest) ls oIndex count
          = flexLabelLoop t fam start len rest ls1 (oIndex + rcFlex t fam l)
              (count - rcFlex t fam l) := by
        rw [flexLabelLoop, heq1]
      rw [hstep, heq2]
      simp only [List.map_cons, List.sum_cons]
      have h1 : oIndex + rcFlex t fam l + (rest.map (fun l => rcFlex t fam l)).sum
          = oIndex + (rcFlex t fam l + (rest.map (fun l => rcFlex t fam l)).sum) := by
        omega
      have h2 : count - rcFlex t fam l - (rest.map (fun l => rcFlex t fam l)).sum
          = count - (rcFlex t fam l + (rest.map (fun l => rcFlex t fam l)).sum) := by
        omega
      rw [h1, h2]
    · rw [htr2, htr1, List.append_assoc]
      rfl

theorem processFlexibleFamily_char (totalAvail : List (Nat × Nat)) (t : Tally) (st : AllocState)
    (fam count total available : Nat)
    (htot : alistGet totalAvail fam = some total)
    (hav : alistGet st.avail fam = some available)
    (havpos : ¬(available = 0))
    (hstart : (alistGet st.flexible_starts fam).getD 0 < total)
    (hsum : (((alistGet t.flexible_labels fam).getD []).map (fun l => rcFlex t fam l)).sum
        ≤ count) :
    ∃ st', processFlexibleFamily totalAvail t st fam count = .ok st'
      ∧ st'.avail = alistInsert st.avail fam (if available < count then 0 else available - count)
      ∧ st'.flexible_starts = st.flexible_starts
      ∧ st'.unlabeled
          = (if (((alistGet t.flexible_labels fam).getD []).map (fun l => rcFlex t fam l)).sum
                < count
             then alistInsert st.unlabeled fam
               (((List.range'
                   ((((alistGet t.flexible_labels fam).getD []).map
                     (fun l => rcFlex t fam l)).sum)
                   (count - (((alistGet t.flexible_labels fam).getD []).map
                     (fun l => rcFlex t fam l)).sum)).map
                 (fun i => (alistGet st.flexible_starts fam).getD 0
                   + i % (total - (alistGet st.flexible_starts fam).getD 0))).toFinset)
             else st.unlabeled)
      ∧ st'.trace = st.trace
          ++ flexBlocks fam ((alistGet st.flexible_starts fam).getD 0)
              (total - (alistGet st.flexible_starts fam).getD 0) (rcFlex t fam)
              ((alistGet t.flexible_labels fam).getD []) 0
      ∧ (LabeledMatchesTrace st.labeled st.trace
          → LabeledMatchesTrace st'.labeled st'.trace) := by
  set start := (alistGet st.flexible_starts fam).getD 0 with hstartdef
  set len := total - start with hlendef
  have hlen : ¬(len = 0) := by omega
  set labels := (alistGet t.flexible_labels fam).getD [] with hlabels
  set SUMF := (labels.map (fun l => rcFlex t fam l)).sum with hSUMF
  obtain ⟨ls', heqL, htrL, hinvL⟩ :=
    flexLabelLoop_ok t fam start len hlen labels ⟨st.labeled, st.trace⟩ 0 count hsum
  rw [show (0 : Nat) + SUMF = SUMF from by omega] at heqL
  by_cases hlt : SUMF < count
  · refine
      ⟨{ st with
          avail := alistInsert st.avail fam (if available < count then 0 else available - count)
          labeled := ls'.labeled
          trace := ls'.trace
          unlabeled := alistInsert st.unlabeled fam
            (((List.range' SUMF (count - SUMF)).map (fun i => start + i % len)).toFinset) },
        ?_, rfl, rfl, ?_, ?_, ?_⟩
    · unfold processFlexibleFamily
      simp only [htot, hav, if_neg havpos]
      rw [← hstartdef, ← hlendef, ← hlabels, heqL]
      have hpos : 0 < count - SUMF := by omega
      rw [hSUMF] at hpos
      dsimp only
      rw [if_pos hpos, if_neg hlen]
    · rw [if_pos hlt]
    · exact htrL
    · exact hinvL
  · refine
      ⟨{ st with
          avail := alistInsert st.avail fam (if available < count then 0 else available - count)
          labeled := ls'.labeled
          trace := ls'.trace },
        ?_, rfl, rfl, ?_, ?_, ?_⟩
    · unfold processFlexibleFamily
      simp only [htot, hav, if_neg havpos]
      rw [← hstartdef, ← hlendef, ← hlabels, heqL]
      have hz : ¬(0 < count - SUMF) := by omega
      rw [hSUMF] at hz
      dsimp only
      rw [if_neg hz]
    · rw [if_neg hlt]
    · exact htrL
    · exact hinvL

theorem processFlexibleFamily_ok (totalAvail : List (Nat × Nat)) (t : Tally) (st : AllocState)
    (fam count : Nat)
    (hgood : ∃ total available, alistGet totalAvail fam = some total
        ∧ alistGet st.avail fam = some available ∧ ¬(available = 0)
        ∧ (alistGet st.flexible_starts fam).getD 0 < total)
    (hsum : (((alistGet t.flexible_labels fam).getD []).map (fun l => rcFlex t fam l)).sum
        ≤ count) :
    ∃ st', processFlexibleFamily totalAvail t st fam count = .ok st'
      ∧ (∀ k, ¬(k = fam) → alistGet st'.avail k = alistGet st.avail k)
      ∧ st'.flexible_starts = st.flexible_starts
      ∧ (∀ k, ¬(k = fam) → alistGet st'.unlabeled k = alistGet st.unlabeled k)
      ∧ (∃ new, st'.trace = st.trace ++ new ∧ ∀ e ∈ new, e.2.family = fam)
      ∧ (LabeledMatchesTrace st.labeled st.trace
          → LabeledMatchesTrace st'.labeled st'.trace) := by
  obtain ⟨total, available, htot, hav, havpos, hstart⟩ := hgood
  obtain ⟨st', heq, ha, hf, hu, htr, hinv⟩ :=
    processFlexibleFamily_char totalAvail t st fam count total available htot hav havpos
      hstart hsum
  refine ⟨st', heq, ?_, hf, ?_, ⟨_, htr, ?_⟩, hinv⟩
  · intro k hk
    rw [ha, alistGet_insert_ne _ _ _ _ hk]
  · intro k hk
    rw [hu]
    by_cases hlt : (((alistGet t.flexible_labels fam).getD []).map
        (fun l => rcFlex t fam l)).sum < count
    · simp only [hlt, if_true]
      rw [alistGet_insert_ne _ _ _ _ hk]
    · simp [hlt]
  · intro e he
    exact flexBlocks_family fam _ _ _ _ 0 e he

theorem flexRun_ok (totalAvail : List (Nat × Nat)) (t : Tally) :
    ∀ (l : List (Nat × Nat)) (st : AllocState),
    (∀ p ∈ l, (∃ total available, alistGet totalAvail p.1 = some total
        ∧ alistGet st.avail p.1 = some available ∧ ¬(available = 0)
        ∧ (alistGet st.flexible_starts p.1).getD 0 < total)
      ∧ (((alistGet t.flexible_labels p.1).getD []).map (fun lb => rcFlex t p.1 lb)).sum ≤ p.2) →
    (l.map Prod.fst).Nodup →
    ∃ st', runSteps (fun st p => processFlexibleFamily totalAvail t st p.1 p.2) l st = .ok st'
      ∧ (∀ k, k ∉ l.map Prod.fst →
          alistGet st'.avail k = alistGet st.avail k
          ∧ alistGet st'.unlabeled k = alistGet st.unlabeled k)
      ∧ st'.flexible_starts = st.flexible_starts
      ∧ (∃ new, st'.trace = st.trace ++ new ∧ ∀ e ∈ new, e.2.family ∈ l.map Prod.fst)
      ∧ (LabeledMatchesTrace st.labeled st.trace
          → LabeledMatchesTrace st'.labeled st'.trace) := by
  intro l
  induction l with
  | nil =>
    intro st _ _
    exact ⟨st, rfl, fun k _ => ⟨rfl, rfl⟩, rfl, ⟨[], by simp, by simp⟩, fun h => h⟩
  | cons p rest ih =>
    intro st hcond hnd
    obtain ⟨hp, hrest⟩ := List.forall_mem_cons.mp hcond
    obtain ⟨st1, heq1, hav1, hfs1, hun1, ⟨new1, htr1, hfam1⟩, hinv1⟩ :=
      processFlexibleFamily_ok totalAvail t st p.1 p.2 hp.1 hp.2
    simp only [List.map_cons, List.nodup_cons] at hnd
    have hcond2 : ∀ q ∈ rest, (∃ total available, alistGet totalAvail q.1 = some total
        ∧ alistGet st1.avail q.1 = some available ∧ ¬(available = 0)
        ∧ (alistGet st1.flexible_starts q.1).getD 0 < total)
      ∧ (((alistGet t.flexible_labels q.1).getD []).map (fun lb => rcFlex t q.1 lb)).sum
          ≤ q.2 := by
      intro q hq
      have hne : ¬(q.1 = p.1) := by
        intro hEq
        exact hnd.1 (hEq ▸ List.mem_map_of_mem Prod.fst hq)
      obtain ⟨⟨total, available, htot, hav, havpos, hstart⟩, hsum⟩ := hrest q hq
      refine ⟨⟨total, available, htot, ?_, havpos, ?_⟩, hsum⟩
      · rw [hav1 q.1 hne]
        exact hav
      · rw [hfs1]
        exact hstart
    obtain ⟨st', heq2, hframe2, hfs2, ⟨new2, htr2, hfam2⟩, hinv2⟩ := ih st1 hcond2 hnd.2
    refine ⟨st', ?_, ?_, ?_, ⟨new1 ++ new2, ?_, ?_⟩, fun h => hinv2 (hinv1 h)⟩
    · rw [runSteps, heq1]
      exact heq2
    · intro k hk
      simp only [List.map_cons, List.mem_cons] at hk
      push_neg at hk
      obtain ⟨h1, h2⟩ := hframe2 k hk.2
      exact ⟨by rw [h1, hav1 k hk.1], by rw [h2, hun1 k hk.1]⟩
    · rw [hfs2, hfs1]
    · rw [htr2, htr1, List.append_assoc]
    · intro e he
      simp only [List.map_cons, List.mem_cons]
      rcases List.mem_append.mp he with h | h
      · exact Or.inl (hfam1 e h)
      · exact Or.inr (hfam2 e h)

/-- Full-allocation master lemma: with positive capacities for all strict
demand, spare capacity for every family with flexible demand, and per-family
distinct labels in each pass, Device::new's allocation succeeds and both
passes are characterized on every family of the capacity table. -/
theorem allocateQueues_master (rs : List QueueRequest) (caps : List (Nat × Nat))
    (hnd1 : ∀ g ∈ rs.map (fun r => r.family), (strictLabelsOf rs g).Nodup)
    (hnd2 : ∀ g ∈ rs.map (fun r => r.family), (flexLabelsOf rs g).Nodup)
    (hcap : ∀ g ∈ rs.map (fun r => r.family),
        strictDemand rs g ≤ (alistGet caps g).getD (strictDemand rs g))
    (hflex : ∀ g ∈ rs.map (fun r => r.family), hasFlex rs g = true →
        strictDemand rs g < (alistGet caps g).getD 0) :
    ∃ res, allocateQueues rs caps = .ok res
      ∧ LabeledMatchesTrace res.labeled res.trace
      ∧ res.priorities = buildPriorities caps res.avail
      ∧ (∃ tr1 tr2, res.trace = tr1 ++ tr2 ∧ res.strictCut = tr1.length
          ∧ (∀ f C, alistGet caps f = some C →
              tr1.filter (fun e => decide (e.2.family = f))
                = strictBlocks f (fun l => strictLabelCount rs f l) (strictLabelsOf rs f) 0
              ∧ tr2.filter (fun e => decide (e.2.family = f))
                = flexBlocks f (strictDemand rs f) (C - strictDemand rs f)
                    (fun l => flexLabelCount rs f l) (flexLabelsOf rs f) 0
              ∧ alistGet res.avail f
                = some (if hasFlex rs f = true
                    then (if C - strictDemand rs f < flexDemand rs f then 0
                          else C - strictDemand rs f - flexDemand rs f)
                    else C - strictDemand rs f)
              ∧ alistGet res.unlabeled f
                = (if labeledFlexDemand rs f < flexDemand rs f
                   then some (((List.range' (labeledFlexDemand rs f)
                       (flexDemand rs f - labeledFlexDemand rs f)).map
                       (fun i => strictDemand rs f + i % (C - strictDemand rs f))).toFinset)
                   else if labeledStrictDemand rs f < strictDemand rs f
                     then some (Finset.Ico (labeledStrictDemand rs f) (strictDemand rs f))
                     else none))) := by
  obtain ⟨st1, heq1, hLMT1, hper⟩ := strictPass_master rs caps hnd1 hcap
  have hcapsome : ∀ g, g ∈ rs.map (fun r => r.family) → hasFlex rs g = true →
      ∃ C, alistGet caps g = some C ∧ strictDemand rs g < C := by
    intro g hg hfg
    have hlt := hflex g hg hfg
    cases hc : alistGet caps g with
    | none =>
      rw [hc] at hlt
      simp at hlt
    | some C =>
      rw [hc] at hlt
      exact ⟨C, rfl, by simpa using hlt⟩
  have hTF : ((tally rs).flexible_requests.map Prod.fst).Nodup :=
    tally_flexible_requests_nodup rs
  have hentF : ∀ p ∈ (tally rs).flexible_requests,
      p.2 = flexDemand rs p.1 ∧ hasFlex rs p.1 = true := by
    intro p hp
    have hg := alistGet_of_mem_of_nodup _ p hp (tally_flexible_requests_nodup rs)
    rw [tally_flexible_requests_get] at hg
    by_cases hh : hasFlex rs p.1 = true
    · rw [if_pos hh] at hg
      exact ⟨(Option.some.inj hg).symm, hh⟩
    · rw [if_neg hh] at hg
      cases hg
  have hLfF : ∀ f, hasFlex rs f = true →
      (((alistGet (tally rs).flexible_labels f).getD []).map
        (fun lb => rcFlex (tally rs) f lb)).sum = labeledFlexDemand rs f := by
    intro f hhs
    rw [tally_flexible_labels_getD]
    have hsum1 : ((flexLabelsOf rs f).map (fun lb => rcFlex (tally rs) f lb)).sum
        = ((flexLabelsOf rs f).map (fun lb => flexLabelCount rs f lb)).sum := by
      apply congrArg List.sum
      apply listMapCongr
      intro lb hlb
      exact rcFlex_tally rs f lb ((mem_flexLabelsOf_iff rs f lb).mp hlb)
    rw [hsum1]
    exact sum_flexLabelCounts rs f (hnd2 f (mem_families_of_hasFlex rs f hhs))
  have hcondF : ∀ (sub : List (Nat × Nat)), (∀ p ∈ sub, p ∈ (tally rs).flexible_requests) →
      ∀ (st : AllocState),
      (∀ p ∈ sub, alistGet st.avail p.1 = alistGet st1.avail p.1) →
      (∀ p ∈ sub, alistGet st.flexible_starts p.1 = alistGet st1.flexible_starts p.1) →
      ∀ p ∈ sub, (∃ total available, alistGet caps p.1 = some total
        ∧ alistGet st.avail p.1 = some available ∧ ¬(available = 0)
        ∧ (alistGet st.flexible_starts p.1).getD 0 < total)
      ∧ (((alistGet (tally rs).flexible_labels p.1).getD []).map
          (fun lb => rcFlex (tally rs) p.1 lb)).sum ≤ p.2 := by
    intro sub hsub st hag hfg p hp
    obtain ⟨hdem, hhf⟩ := hentF p (hsub p hp)
    have hmemfam := mem_families_of_hasFlex rs p.1 hhf
    obtain ⟨C, hC, hSC⟩ := hcapsome p.1 hmemfam hhf
    obtain ⟨hav, hfs, _, _⟩ := hper p.1 C hC
    refine ⟨⟨C, C - strictDemand rs p.1, hC, ?_, ?_, ?_⟩, ?_⟩
    · rw [hag p hp]
      exact hav
    · omega
    · rw [hfg p hp]
      show (alistGet st1.flexible_starts p.1).getD 0 < C
      omega
    · rw [hLfF p.1 hhf, hdem]
      exact labeledFlexDemand_le rs p.1
  obtain ⟨stF, heqF, hframeF, hfsF, ⟨newF, htrF, hfamF⟩, hinvF⟩ :=
    flexRun_ok caps (tally rs) (tally rs).flexible_requests st1
      (hcondF (tally rs).flexible_requests (fun p hp => hp) st1
        (fun p hp => rfl) (fun p hp => rfl))
      hTF
  have heqFlexPass : flexPass rs caps st1 = .ok stF := heqF
  have hallocEq : allocateQueues rs caps
      = .ok { labeled := stF.labeled, unlabeled := stF.unlabeled, avail := stF.avail,
              trace := stF.trace, strictCut := st1.trace.length,
              priorities := buildPriorities caps stF.avail } := by
    unfold allocateQueues
    simp only [heq1, heqFlexPass]
  refine ⟨_, hallocEq, hinvF hLMT1, rfl, st1.trace, newF, htrF, rfl, ?_⟩
  intro f C hfC
  obtain ⟨hav1, hfs1, hun1, htrace1⟩ := hper f C hfC
  refine ⟨htrace1, ?_⟩
  by_cases hhf : hasFlex rs f = true
  · -- family f has flexible demand: split the flexible list around f
    have hF : alistGet (tally rs).flexible_requests f = some (flexDemand rs f) := by
      rw [tally_flexible_requests_get, if_pos hhf]
    have hmemf : (f, flexDemand rs f) ∈ (tally rs).flexible_requests :=
      alistMem_of_get _ _ _ hF
    obtain ⟨m1, m2, hsplit⟩ := List.append_of_mem hmemf
    have hT2 := hTF
    rw [hsplit] at hT2
    simp only [List.map_append, List.map_cons] at hT2
    rw [List.nodup_append] at hT2
    obtain ⟨hnd1', hnd2c, hdisj⟩ := hT2
    rw [List.nodup_cons] at hnd2c
    obtain ⟨hf2, hnd2'⟩ := hnd2c
    have hf1 : f ∉ m1.map Prod.fst := by
      intro hc
      exact hdisj hc (List.mem_cons_self _ _)
    have hsubm1 : ∀ p ∈ m1, p ∈ (tally rs).flexible_requests := by
      intro p hp
      rw [hsplit]
      exact List.mem_append_left _ hp
    have hsubm2 : ∀ p ∈ m2, p ∈ (tally rs).flexible_requests := by
      intro p hp
      rw [hsplit]
      exact List.mem_append_right _ (List.mem_cons_of_mem _ hp)
    obtain ⟨stA, heqA, hframeA, hfsA, ⟨newA, htrA, hfamA⟩, hinvA⟩ :=
      flexRun_ok caps (tally rs) m1 st1
        (hcondF m1 hsubm1 st1 (fun p hp => rfl) (fun p hp => rfl)) hnd1'
    have hSC : strictDemand rs f < C := by
      obtain ⟨C', hC', hlt⟩ := hcapsome f (mem_families_of_hasFlex rs f hhf) hhf
      rw [hfC] at hC'
      rw [← Option.some.inj hC'] at hlt
      exact hlt
    have hAav : alistGet stA.avail f = some (C - strictDemand rs f) := by
      rw [(hframeA f hf1).1]
      exact hav1
    have hAfs : (alistGet stA.flexible_starts f).getD 0 = strictDemand rs f := by
      rw [hfsA]
      exact hfs1
    obtain ⟨stB, heqB, hBav, hBfs, hBun, hBtr, hBinv⟩ :=
      processFlexibleFamily_char caps (tally rs) stA f (flexDemand rs f) C
        (C - strictDemand rs f) hfC hAav (by omega) (by rw [hAfs]; omega)
        (by rw [hLfF f hhf]; exact labeledFlexDemand_le rs f)
    obtain ⟨stC, heqC, hframeC, hfsC, ⟨newC, htrC, hfamC⟩, hinvC⟩ :=
      flexRun_ok caps (tally rs) m2 stB
        (by
          apply hcondF m2 hsubm2 stB
          · intro q hq
            have hqne : ¬(q.1 = f) := by
              intro hEq
              exact hf2 (hEq ▸ List.mem_map_of_mem Prod.fst hq)
            have hq1 : q.1 ∉ m1.map Prod.fst := by
              intro hc
              exact hdisj hc (by
                rw [List.mem_cons]
                exact Or.inr (List.mem_map_of_mem Prod.fst hq))
            rw [hBav, alistGet_insert_ne _ _ _ _ hqne, (hframeA q.1 hq1).1]
          · intro q hq
            rw [hBfs, hfsA])
        hnd2'
    have hfinal2 : flexPass rs caps st1 = .ok stC := by
      show runSteps _ (tally rs).flexible_requests st1 = .ok stC
      rw [hsplit, runSteps_append, heqA]
      show runSteps _ ((f, flexDemand rs f) :: m2) stA = .ok stC
      rw [runSteps, heqB]
      exact heqC
    have hstCF : stF = stC := by
      rw [heqFlexPass] at hfinal2
      exact Except.ok.inj hfinal2
    subst hstCF
    have hnewF : newF = newA ++ (flexBlocks f (strictDemand rs f) (C - strictDemand rs f)
        (rcFlex (tally rs) f) ((alistGet (tally rs).flexible_labels f).getD []) 0 ++ newC) := by
      have hboth : st1.trace ++ newF
          = st1.trace ++ (newA ++ (flexBlocks f (strictDemand rs f) (C - strictDemand rs f)
            (rcFlex (tally rs) f) ((alistGet (tally rs).flexible_labels f).getD []) 0
            ++ newC)) := by
        rw [← htrF, htrC, hBtr, htrA, hAfs]
        simp [List.append_assoc]
      exact List.append_cancel_left hboth
    refine ⟨?_, ?_, ?_⟩
    · -- flexible trace blocks at f
      rw [hnewF, List.filter_append, List.filter_append]
      have hfa : newA.filter (fun e => decide (e.2.family = f)) = [] := by
        rw [List.filter_eq_nil_iff]
        intro e he
        have := hfamA e he
        simp only [decide_eq_true_eq]
        intro hc
        exact hf1 (hc ▸ this)
      have hfc : newC.filter (fun e => decide (e.2.family = f)) = [] := by
        rw [List.filter_eq_nil_iff]
        intro e he
        have := hfamC e he
        simp only [decide_eq_true_eq]
        intro hc
        exact hf2 (hc ▸ this)
      have hfb : (flexBlocks f (strictDemand rs f) (C - strictDemand rs f)
            (rcFlex (tally rs) f) ((alistGet (tally rs).flexible_labels f).getD []) 0).filter
            (fun e => decide (e.2.family = f))
          = flexBlocks f (strictDemand rs f) (C - strictDemand rs f)
              (rcFlex (tally rs) f) ((alistGet (tally rs).flexible_labels f).getD []) 0 := by
        rw [List.filter_eq_self]
        intro e he
        simp only [decide_eq_true_eq]
        exact flexBlocks_family f _ _ _ _ 0 e he
      rw [hfa, hfc, hfb]
      simp only [List.append_nil, List.nil_append]
      rw [tally_flexible_labels_getD]
      apply flexBlocks_congr
      intro lb hlb
      exact rcFlex_tally rs f lb ((mem_flexLabelsOf_iff rs f lb).mp hlb)
    · -- final availability at f
      show alistGet stF.avail f = _
      rw [(hframeC f hf2).1, hBav, alistGet_insert_self]
      simp [hhf]
    · -- final unlabeled at f
      show alistGet stF.unlabeled f = _
      rw [(hframeC f hf2).2, hBun, hLfF f hhf, hAfs]
      by_cases hlt : labeledFlexDemand rs f < flexDemand rs f
      · simp only [hlt, if_true]
        rw [alistGet_insert_self]
      · simp only [hlt, if_false]
        rw [(hframeA f hf1).2, hun1]
  · -- family f has no flexible demand: untouched by the flexible pass
    have hnotin : f ∉ (tally rs).flexible_requests.map Prod.fst := by
      intro hc
      have := (alistGet_isSome_iff_mem_keys (tally rs).flexible_requests f).mpr hc
      rw [tally_flexible_requests_get, if_neg hhf] at this
      cases this
    have hhfF : hasFlex rs f = false := by
      cases hb : hasFlex rs f
      · rfl
      · exact absurd hb hhf
    have hfd0 : flexDemand rs f = 0 := flexDemand_eq_zero_of_not_has rs f hhf
    have hlf0 : labeledFlexDemand rs f = 0 := by
      have := labeledFlexDemand_le rs f
      omega
    refine ⟨?_, ?_, ?_⟩
    · have hz : newF.filter (fun e => decide (e.2.family = f)) = [] := by
        rw [List.filter_eq_nil_iff]
        intro e he
        have := hfamF e he
        simp only [decide_eq_true_eq]
        intro hc
        exact hnotin (hc ▸ this)
      rw [hz, flexLabelsOf_eq_nil_of_not_has rs f hhfF]
      rfl
    · show alistGet stF.avail f = _
      rw [(hframeF f hnotin).1, hav1, hhfF]
      rfl
    · show alistGet stF.unlabeled f = _
      rw [(hframeF f hnotin).2, hun1, hfd0, hlf0]
      rfl

/-!
## Unconditional invariants of successful runs
-/

theorem assignRun_inv (fam : Nat) (l : QueueLabel) :
    ∀ (rc : Nat) (ls : LabelState) (endIndex count : Nat) (ls' : LabelState)
      (endIndex' count' : Nat),
    assignRun fam l rc ls endIndex count = .ok (ls', endIndex', count') →
    LabeledMatchesTrace ls.labeled ls.trace → LabeledMatchesTrace ls'.labeled ls'.trace := by
  intro rc
  induction rc with
  | zero =>
    intro ls endIndex count ls' endIndex' count' heq h
    rw [assignRun] at heq
    obtain ⟨h1, -, -⟩ := Prod.mk.injEq .. ▸ (Except.ok.inj heq)
    rw [← h1]
    exact h
  | succ rc ih =>
    intro ls endIndex count ls' endIndex' count' heq h
    cases count with
    | zero => rw [assignRun] at heq; cases heq
    | succ c =>
      rw [assignRun] at heq
      exact ih _ _ _ _ _ _ heq (labeledMatchesTrace_push _ _ _ _ h)

theorem strictLabelLoop_inv (t : Tally) (fam : Nat) :
    ∀ (labels : List QueueLabel) (ls : LabelState) (endIndex count : Nat)
      (ls' : LabelState) (endIndex' count' : Nat),
    strictLabelLoop t fam labels ls endIndex count = .ok (ls', endIndex', count') →
    LabeledMatchesTrace ls.labeled ls.trace → LabeledMatchesTrace ls'.labeled ls'.trace := by
  intro labels
  induction labels with
  | nil =>
    intro ls endIndex count ls' endIndex' count' heq h
    rw [strictLabelLoop] at heq
    obtain ⟨h1, -, -⟩ := Prod.mk.injEq .. ▸ (Except.ok.inj heq)
    rw [← h1]
    exact h
  | cons l rest ih =>
    intro ls endIndex count ls' endIndex' count' heq h
    rw [strictLabelLoop] at heq
    cases hr : assignRun fam l (rcStrict t fam l) ls endIndex count with
    | error e => rw [hr] at heq; cases heq
    | ok res =>
      rw [hr] at heq
      obtain ⟨ls1, e1, c1⟩ := res
      exact ih _ _ _ _ _ _ heq (assignRun_inv fam l _ _ _ _ _ _ _ hr h)

theorem flexAssignRun_inv (fam : Nat) (l : QueueLabel) (start len : Nat) :
    ∀ (rc : Nat) (ls : LabelState) (oIndex count : Nat) (ls' : LabelState)
      (oIndex' count' : Nat),
    flexAssignRun fam l start len rc ls oIndex count = .ok (ls', oIndex', count') →
    LabeledMatchesTrace ls.labeled ls.trace → LabeledMatchesTrace ls'.labeled ls'.trace := by
  intro rc
  induction rc with
  | zero =>
    intro ls oIndex count ls' oIndex' count' heq h
    rw [flexAssignRun] at heq
    obtain ⟨h1, -, -⟩ := Prod.mk.injEq .. ▸ (Except.ok.inj heq)
    rw [← h1]
    exact h
  | succ rc ih =>
    intro ls oIndex count ls' oIndex' count' heq h
    cases count with
    | zero =>
      rw [flexAssignRun] at heq
      by_cases hlen : len = 0
      · rw [if_pos hlen] at heq
        cases heq
      · rw [if_neg hlen] at heq
        cases heq
    | succ c =>
      rw [flexAssignRun] at heq
      by_cases hlen : len = 0
      · rw [if_pos hlen] at heq
        cases heq
      · rw [if_neg hlen] at heq
        exact ih _ _ _ _ _ _ heq (labeledMatchesTrace_push _ _ _ _ h)

theorem flexLabelLoop_inv (t : Tally) (fam start len : Nat) :
    ∀ (labels : List QueueLabel) (ls : LabelState) (oIndex count : Nat)
      (ls' : LabelState) (oIndex' count' : Nat),
    flexLabelLoop t fam start len labels ls oIndex count = .ok (ls', oIndex', count') →
    LabeledMatchesTrace ls.labeled ls.trace → LabeledMatchesTrace ls'.labeled ls'.trace := by
  intro labels
  induction labels with
  | nil =>
    intro ls oIndex count ls' oIndex' count' heq h
    rw [flexLabelLoop] at heq
    obtain ⟨h1, -, -⟩ := Prod.mk.injEq .. ▸ (Except.ok.inj heq)
    rw [← h1]
    exact h
  | cons l rest ih =>
    intro ls oIndex count ls' oIndex' count' heq h
    rw [flexLabelLoop] at heq
    cases hr : flexAssignRun fam l start len (rcFlex t fam l) ls oIndex count with
    | error e => rw [hr] at heq; cases heq
    | ok res =>
      rw [hr] at heq
      obtain ⟨ls1, o1, c1⟩ := res
      exact ih _ _ _ _ _ _ heq (flexAssignRun_inv fam l start len _ _ _ _ _ _ _ hr h)

theorem strictAfterAvail_elim (t : Tally) (st : AllocState) (fam count : Nat) (st' : AllocState)
    (heq : strictAfterAvail t st fam count = .ok st') :
    st'.avail = st.avail
      ∧ (LabeledMatchesTrace st.labeled st.trace
          → LabeledMatchesTrace st'.labeled st'.trace) := by
  unfold strictAfterAvail at heq
  split at heq
  · cases heq
  · next ls endIndex count' hr =>
    split at heq
    · rw [← Except.ok.inj heq]
      exact ⟨rfl, fun h => strictLabelLoop_inv t fam _ _ _ _ _ _ _ hr h⟩
    · rw [← Except.ok.inj heq]
      exact ⟨rfl, fun h => strictLabelLoop_inv t fam _ _ _ _ _ _ _ hr h⟩

theorem processStrictFamily_pres (caps totalAvail : List (Nat × Nat)) (t : Tally)
    (st : AllocState) (fam count : Nat) (st' : AllocState)
    (heq : processStrictFamily totalAvail t st fam count = .ok st') :
    (AvailBounded caps st → AvailBounded caps st')
      ∧ (LabeledMatchesTrace st.labeled st.trace
          → LabeledMatchesTrace st'.labeled st'.trace) := by
  unfold processStrictFamily at heq
  split at heq
  · next available hA =>
    split at heq
    · cases heq
    · next hnl =>
      obtain ⟨hav, hinv⟩ := strictAfterAvail_elim t _ fam count st' heq
      refine ⟨?_, hinv⟩
      intro h f C hC
      by_cases hf : f = fam
      · subst hf
        obtain ⟨r, hr, hrle⟩ := h f C hC
        rw [hr] at hA
        rw [hav]
        show ∃ r', alistGet (alistInsert st.avail f (available - count)) f = some r' ∧ r' ≤ C
        rw [alistGet_insert_self]
        exact ⟨available - count, rfl, by
          have : r = available := Option.some.inj hA
          omega⟩
      · obtain ⟨r, hr, hrle⟩ := h f C hC
        rw [hav]
        show ∃ r', alistGet (alistInsert st.avail fam (available - count)) f = some r' ∧ r' ≤ C
        rw [alistGet_insert_ne _ _ _ _ hf]
        exact ⟨r, hr, hrle⟩
  · next hA =>
    obtain ⟨hav, hinv⟩ := strictAfterAvail_elim t st fam count st' heq
    refine ⟨?_, hinv⟩
    intro h f C hC
    rw [hav]
    exact h f C hC

theorem processFlexibleFamily_pres (caps totalAvail : List (Nat × Nat)) (t : Tally)
    (st : AllocState) (fam count : Nat) (st' : AllocState)
    (heq : processFlexibleFamily totalAvail t st fam count = .ok st') :
    (AvailBounded caps st → AvailBounded caps st')
      ∧ (LabeledMatchesTrace st.labeled st.trace
          → LabeledMatchesTrace st'.labeled st'.trace) := by
  unfold processFlexibleFamily at heq
  split at heq
  · cases heq
  · next total htot =>
    split at heq
    · rw [← Except.ok.inj heq]
      exact ⟨fun h => h, fun h => h⟩
    · next available hA =>
      split at heq
      · cases heq
      · next havpos =>
        split at heq
        · cases heq
        · next ls oIndex count' hr =>
          have havupd : ∀ (stx : AllocState), stx.avail
                = alistInsert st.avail fam (if available < count then 0 else available - count) →
              AvailBounded caps st → AvailBounded caps stx := by
            intro stx hx h f C hC
            by_cases hf : f = fam
            · subst hf
              obtain ⟨r, hrr, hrle⟩ := h f C hC
              rw [hrr] at hA
              rw [hx, alistGet_insert_self]
              refine ⟨_, rfl, ?_⟩
              have : r = available := Option.some.inj hA
              by_cases hcl : available < count <;> simp [hcl] <;> omega
            · obtain ⟨r, hrr, hrle⟩ := h f C hC
              rw [hx, alistGet_insert_ne _ _ _ _ hf]
              exact ⟨r, hrr, hrle⟩
          split at heq
          · split at heq
            · cases heq
            · rw [← Except.ok.inj heq]
              exact ⟨havupd _ rfl, fun h => flexLabelLoop_inv t fam _ _ _ _ _ _ _ _ _ hr h⟩
          · rw [← Except.ok.inj heq]
            exact ⟨havupd _ rfl, fun h => flexLabelLoop_inv t fam _ _ _ _ _ _ _ _ _ hr h⟩

theorem runSteps_pres (step : AllocState → Nat × Nat → Except AllocError AllocState)
    (P : AllocState → Prop)
    (hstep : ∀ st p st', step st p = .ok st' → P st → P st') :
    ∀ (l : List (Nat × Nat)) (st st' : AllocState),
      runSteps step l st = .ok st' → P st → P st' := by
  intro l
  induction l with
  | nil =>
    intro st st' heq h
    rw [runSteps] at heq
    rw [← Except.ok.inj heq]
    exact h
  | cons p rest ih =>
    intro st st' heq h
    rw [runSteps] at heq
    cases hs : step st p with
    | error e => rw [hs] at heq; cases heq
    | ok st1 =>
      rw [hs] at heq
      exact ih st1 st' heq (hstep st p st1 hs h)

theorem allocateQueues_elim (rs : List QueueRequest) (caps : List (Nat × Nat))
    (res : AllocResult) (heq : allocateQueues rs caps = .ok res) :
    ∃ st1 st2, strictPass rs caps = .ok st1 ∧ flexPass rs caps st1 = .ok st2
      ∧ res.labeled = st2.labeled ∧ res.unlabeled = st2.unlabeled ∧ res.avail = st2.avail
      ∧ res.trace = st2.trace ∧ res.strictCut = st1.trace.length
      ∧ res.priorities = buildPriorities caps st2.avail := by
  unfold allocateQueues at heq
  split at heq
  · cases heq
  · next st1 h1 =>
    split at heq
    · cases heq
    · next st2 h2 =>
      refine ⟨st1, st2, h1, h2, ?_⟩
      rw [← Except.ok.inj heq]
      exact ⟨rfl, rfl, rfl, rfl, rfl, rfl⟩

theorem allocateQueues_LMT (rs : List QueueRequest) (caps : List (Nat × Nat))
    (res : AllocResult) (heq : allocateQueues rs caps = .ok res) :
    LabeledMatchesTrace res.labeled res.trace := by
  obtain ⟨st1, st2, h1, h2, hl, -, -, htr, -, -⟩ := allocateQueues_elim rs caps res heq
  rw [hl, htr]
  have hP1 : LabeledMatchesTrace st1.labeled st1.trace := by
    refine runSteps_pres _ (fun st => LabeledMatchesTrace st.labeled st.trace) ?_ _ _ _ h1
      labeledMatchesTrace_empty
    intro st p st' hs h
    exact (processStrictFamily_pres caps caps (tally rs) st p.1 p.2 st' hs).2 h
  refine runSteps_pres _ (fun st => LabeledMatchesTrace st.labeled st.trace) ?_ _ _ _ h2 hP1
  intro st p st' hs h
  exact (processFlexibleFamily_pres caps caps (tally rs) st p.1 p.2 st' hs).2 h

theorem allocateQueues_availBounded (rs : List QueueRequest) (caps : List (Nat × Nat))
    (res : AllocResult) (heq : allocateQueues rs caps = .ok res) :
    ∀ f C, alistGet caps f = some C → ∃ r, alistGet res.avail f = some r ∧ r ≤ C := by
  obtain ⟨st1, st2, h1, h2, -, -, hav, -, -, -⟩ := allocateQueues_elim rs caps res heq
  have hP0 : AvailBounded caps (initAllocState caps) := by
    intro f C hC
    exact ⟨C, hC, Nat.le_refl C⟩
  have hP1 : AvailBounded caps st1 := by
    refine runSteps_pres _ (AvailBounded caps) ?_ _ _ _ h1 hP0
    intro st p st' hs h
    exact (processStrictFamily_pres caps caps (tally rs) st p.1 p.2 st' hs).1 h
  have hP2 : AvailBounded caps st2 := by
    refine runSteps_pres _ (AvailBounded caps) ?_ _ _ _ h2 hP1
    intro st p st' hs h
    exact (processFlexibleFamily_pres caps caps (tally rs) st p.1 p.2 st' hs).1 h
  intro f C hC
  rw [hav]
  exact hP2 f C hC

theorem prioFold_frame (avail : List (Nat × Nat)) (l : List (Nat × Nat))
    (acc : List (Nat × List ℚ)) (f : Nat) (hf : f ∉ l.map Prod.fst) :
    alistGet (l.foldl (prioStep avail) acc) f = alistGet acc f := by
  induction l generalizing acc with
  | nil => rfl
  | cons p rest ih =>
    obtain ⟨a, b⟩ := p
    have hfa : f ≠ a := by
      intro h
      exact hf (by rw [h]; exact List.mem_cons_self a _)
    have hf' : f ∉ rest.map Prod.fst := by
      intro h
      exact hf (List.mem_cons_of_mem a h)
    rw [List.foldl_cons, ih _ hf']
    unfold prioStep
    cases alistGet avail a with
    | none => rfl
    | some real =>
      by_cases hr : real = b
      · simp [hr]
      · simp only [hr, if_false]
        exact alistGet_insert_ne acc a _ f hfa

theorem prioFold_mem (avail : List (Nat × Nat)) (l : List (Nat × Nat))
    (acc : List (Nat × List ℚ)) (f C : Nat) (hnd : (l.map Prod.fst).Nodup)
    (hmem : (f, C) ∈ l) (hacc : alistGet acc f = none) :
    alistGet (l.foldl (prioStep avail) acc) f =
      match alistGet avail f with
      | some r => if r = C then none else some (List.replicate (C - r) 1)
      | none => none := by
  induction l generalizing acc with
  | nil => cases hmem
  | cons p rest ih =>
    obtain ⟨a, b⟩ := p
    have hndc : (a :: rest.map Prod.fst).Nodup := by simpa using hnd
    have hnd1 : a ∉ rest.map Prod.fst := (List.nodup_cons.mp hndc).1
    have hnd2 : (rest.map Prod.fst).Nodup := (List.nodup_cons.mp hndc).2
    rcases List.mem_cons.mp hmem with h | h
    · have hfa : f = a := congrArg Prod.fst h
      have hCb : C = b := congrArg Prod.snd h
      subst hfa; subst hCb
      rw [List.foldl_cons, prioFold_frame avail rest _ f hnd1]
      unfold prioStep
      cases alistGet avail f with
      | none => exact hacc
      | some real =>
        by_cases hr : real = C
        · simp only [hr, if_pos rfl]
          exact hacc
        · simp only [hr, if_false]
          exact alistGet_insert_self acc f _
    · have hfa : f ≠ a := by
        intro hEq
        exact hnd1 (hEq ▸ List.mem_map_of_mem Prod.fst h)
      rw [List.foldl_cons]
      have hacc2 : alistGet (prioStep avail acc (a, b)) f = none := by
        unfold prioStep
        cases alistGet avail a with
        | none => exact hacc
        | some real =>
          by_cases hr : real = b
          · simp only [hr, if_pos rfl]
            exact hacc
          · simp only [hr, if_false]
            rw [alistGet_insert_ne acc a _ f hfa]
            exact hacc
      exact ih _ hnd2 h hacc2

theorem alistGet_buildPriorities (caps avail : List (Nat × Nat))
    (hnd : alistNodupKeys caps) (f : Nat) :
    alistGet (buildPriorities caps avail) f =
      match alistGet caps f, alistGet avail f with
      | some C, some r => if r = C then none else some (List.replicate (C - r) 1)
      | _, _ => none := by
  unfold buildPriorities
  cases hC : alistGet caps f with
  | none =>
    have hnm : f ∉ caps.map Prod.fst := by
      intro hmem
      have h1 := (alistGet_isSome_iff_mem_keys caps f).mpr hmem
      rw [hC] at h1
      cases h1
    rw [prioFold_frame avail caps [] f hnm]
    cases alistGet avail f <;> rfl
  | some C =>
    have hmem : (f, C) ∈ caps := alistMem_of_get caps f C hC
    rw [prioFold_mem avail caps [] f C hnd hmem rfl]
    cases alistGet avail f <;> rfl

theorem strictPass_error (rs : List QueueRequest) (caps : List (Nat × Nat)) (f C : Nat)
    (hnd : ∀ g ∈ rs.map (fun r => r.family), (strictLabelsOf rs g).Nodup)
    (hfC : alistGet caps f = some C)
    (hover : C < strictDemand rs f)
    (hcap : ∀ g ∈ rs.map (fun r => r.family), ¬(g = f) →
        strictDemand rs g ≤ (alistGet caps g).getD (strictDemand rs g)) :
    strictPass rs caps
      = .error (.notEnoughQueuesInFamily f
          (strictDemand rs f + (if hasFlex rs f = true then 1 else 0)) C) := by
  have hhs : hasStrict rs f = true := by
    by_contra hh
    have := strictDemand_eq_zero_of_not_has rs f hh
    omega
  have hT : ((tally rs).strict_requests.map Prod.fst).Nodup := tally_strict_requests_nodup rs
  have hent : ∀ p ∈ (tally rs).strict_requests,
      p.2 = strictDemand rs p.1 ∧ hasStrict rs p.1 = true := by
    intro p hp
    have hg := alistGet_of_mem_of_nodup _ p hp (tally_strict_requests_nodup rs)
    rw [tally_strict_requests_get] at hg
    by_cases hh : hasStrict rs p.1 = true
    · rw [if_pos hh] at hg
      exact ⟨(Option.some.inj hg).symm, hh⟩
    · rw [if_neg hh] at hg
      cases hg
  have hLf : ∀ g, hasStrict rs g = true →
      (((alistGet (tally rs).strict_labels g).getD []).map
        (fun lb => rcStrict (tally rs) g lb)).sum = labeledStrictDemand rs g := by
    intro g hhg
    rw [tally_strict_labels_getD]
    have hsum1 : ((strictLabelsOf rs g).map (fun lb => rcStrict (tally rs) g lb)).sum
        = ((strictLabelsOf rs g).map (fun lb => strictLabelCount rs g lb)).sum := by
      apply congrArg List.sum
      apply listMapCongr
      intro lb hlb
      exact rcStrict_tally rs g lb ((mem_strictLabelsOf_iff rs g lb).mp hlb)
    rw [hsum1]
    exact sum_strictLabelCounts rs g (hnd g (mem_families_of_hasStrict rs g hhg))
  have hS : alistGet (tally rs).strict_requests f = some (strictDemand rs f) := by
    rw [tally_strict_requests_get, if_pos hhs]
  have hmemf : (f, strictDemand rs f) ∈ (tally rs).strict_requests :=
    alistMem_of_get _ _ _ hS
  obtain ⟨l1, l2, hsplit⟩ := List.append_of_mem hmemf
  have hT2 := hT
  rw [hsplit] at hT2
  simp only [List.map_append, List.map_cons] at hT2
  rw [List.nodup_append] at hT2
  have hfnotl1 : f ∉ l1.map Prod.fst := by
    intro hc
    exact hT2.2.2 hc (List.mem_cons_self f _)
  have hl1sub : ∀ p ∈ l1, p ∈ (tally rs).strict_requests := by
    intro p hp
    rw [hsplit]
    exact List.mem_append_left _ hp
  have hcond1 : ∀ p ∈ l1,
      (∀ A, alistGet (initAllocState caps).avail p.1 = some A → p.2 ≤ A)
        ∧ (((alistGet (tally rs).strict_labels p.1).getD []).map
            (fun lb => rcStrict (tally rs) p.1 lb)).sum ≤ p.2 := by
    intro p hp
    obtain ⟨hdem, hhg⟩ := hent p (hl1sub p hp)
    have hpne : ¬(p.1 = f) := by
      intro hEq
      exact hfnotl1 (hEq ▸ List.mem_map_of_mem Prod.fst hp)
    constructor
    · intro A hA
      have hle := hcap p.1 (mem_families_of_hasStrict rs p.1 hhg) hpne
      rw [show alistGet (initAllocState caps).avail p.1 = alistGet caps p.1 from rfl] at hA
      rw [hA] at hle
      simpa [hdem] using hle
    · rw [hLf p.1 hhg, hdem]
      exact labeledStrictDemand_le rs p.1
  have hndl1 : (l1.map Prod.fst).Nodup := hT2.1
  obtain ⟨st1, heq1, hframe, -, -⟩ :=
    strictRun_ok caps (tally rs) l1 (initAllocState caps) hcond1 hndl1
  have hav1 : alistGet st1.avail f = some C := by
    rw [(hframe f hfnotl1).1]
    exact hfC
  have hstep : processStrictFamily caps (tally rs) st1 f (strictDemand rs f)
      = .error (.notEnoughQueuesInFamily f
          (strictDemand rs f + (if hasFlex rs f = true then 1 else 0)) C) := by
    unfold processStrictFamily
    rw [hav1]
    simp only [hover, if_true, if_pos hover]
    have hflex : ((alistGet (tally rs).flexible_requests f).isSome = true)
        ↔ (hasFlex rs f = true) := by
      rw [tally_flexible_requests_get]
      by_cases hh : hasFlex rs f = true <;> simp [hh]
    have hm : (if (alistGet (tally rs).flexible_requests f).isSome = true then 1 else 0)
        = (if hasFlex rs f = true then 1 else 0) := by
      by_cases hh : hasFlex rs f = true
      · rw [if_pos hh, if_pos (hflex.mpr hh)]
      · rw [if_neg hh, if_neg (fun hc => hh (hflex.mp hc))]
    rw [hm, hfC]
    rfl
  show runSteps (fun st p => processStrictFamily caps (tally rs) st p.1 p.2)
      (tally rs).strict_requests (initAllocState caps) = _
  rw [hsplit, runSteps_append, heq1]
  show runSteps (fun st p => processStrictFamily caps (tally rs) st p.1 p.2)
      ((f, strictDemand rs f) :: l2) st1 = _
  simp only [runSteps]
  rw [hstep]

theorem allocateQueues_error_of_strict (rs : List QueueRequest) (caps : List (Nat × Nat))
    (e : AllocError) (h : strictPass rs caps = .error e) :
    allocateQueues rs caps = .error e := by
  unfold allocateQueues
  rw [h]

theorem firstIdxFrom_eq_none (test : QueueFamilyProps → Bool) :
    ∀ (props : List QueueFamilyProps) (n : Nat), (∀ p ∈ props, test p = false) →
      firstIdxFrom test props n = none := by
  intro props
  induction props with
  | nil => intro n _; rfl
  | cons p rest ih =>
    intro n h
    rw [firstIdxFrom, h p (List.mem_cons_self p rest)]
    exact ih (n + 1) (fun q hq => h q (List.mem_cons_of_mem p hq))

theorem firstIdxFrom_isSome (test : QueueFamilyProps → Bool) :
    ∀ (props : List QueueFamilyProps) (n : Nat), (∃ p ∈ props, test p = true) →
      ∃ k, firstIdxFrom test props n = some k := by
  intro props
  induction props with
  | nil => intro n h; obtain ⟨p, hp, -⟩ := h; cases hp
  | cons p rest ih =>
    intro n h
    cases hp : test p with
    | true => exact ⟨n, by rw [firstIdxFrom, hp]; rfl⟩
    | false =>
      obtain ⟨q, hq, hqt⟩ := h
      rcases List.mem_cons.mp hq with hEq | hmem
      · rw [hEq] at hqt; rw [hp] at hqt; cases hqt
      · obtain ⟨k, hk⟩ := ih (n + 1) ⟨q, hmem, hqt⟩
        exact ⟨k, by rw [firstIdxFrom, hp]; exact hk⟩

theorem scanFold_char (props : List QueueFamilyProps) : ∀ (n : Nat) (s : FamilyScan),
    (s.graphics = none →
      ((List.enumFrom n props).foldl scanStep s).graphics
        = firstIdxFrom (fun p => p.graphics) props n)
    ∧ (∀ t, s.graphics = some t →
        ((List.enumFrom n props).foldl scanStep s).graphics = some t)
    ∧ (s.compute = none →
      ((List.enumFrom n props).foldl scanStep s).compute
        = firstIdxFrom (fun p => p.compute) props n)
    ∧ (∀ t, s.compute = some t →
        ((List.enumFrom n props).foldl scanStep s).compute = some t)
    ∧ (s.transfer = none →
      ((List.enumFrom n props).foldl scanStep s).transfer
        = firstIdxFrom (fun p => p.transfer && !(p.graphics && p.compute)) props n)
    ∧ (∀ t, s.transfer = some t →
        ((List.enumFrom n props).foldl scanStep s).transfer = some t)
    ∧ (s.presentation = none →
      ((List.enumFrom n props).foldl scanStep s).presentation
        = firstIdxFrom (fun p => p.can_present) props n)
    ∧ (∀ t, s.presentation = some t →
        ((List.enumFrom n props).foldl scanStep s).presentation = some t) := by
  induction props with
  | nil =>
    intro n s
    simp only [List.enumFrom, List.foldl_nil, firstIdxFrom]
    exact ⟨fun h => h, fun t h => h, fun h => h, fun t h => h, fun h => h, fun t h => h,
      fun h => h, fun t h => h⟩
  | cons p rest ih =>
    intro n s
    rw [show List.enumFrom n (p :: rest) = (n, p) :: List.enumFrom (n + 1) rest from rfl,
      List.foldl_cons]
    have ih' := ih (n + 1) (scanStep s (n, p))
    refine ⟨?_, ?_, ?_, ?_, ?_, ?_, ?_, ?_⟩
    · intro h
      cases hp : p.graphics with
      | true =>
        have hg : (scanStep s (n, p)).graphics = some n := by simp [scanStep, hp, h]
        rw [ih'.2.1 n hg, firstIdxFrom]
        simp [hp]
      | false =>
        have hg : (scanStep s (n, p)).graphics = none := by simp [scanStep, hp, h]
        rw [ih'.1 hg, firstIdxFrom]
        simp [hp]
    · intro t h
      have hg : (scanStep s (n, p)).graphics = some t := by simp [scanStep, h]
      exact ih'.2.1 t hg
    · intro h
      cases hp : p.compute with
      | true =>
        have hg : (scanStep s (n, p)).compute = some n := by simp [scanStep, hp, h]
        rw [ih'.2.2.2.1 n hg, firstIdxFrom]
        simp [hp]
      | false =>
        have hg : (scanStep s (n, p)).compute = none := by simp [scanStep, hp, h]
        rw [ih'.2.2.1 hg, firstIdxFrom]
        simp [hp]
    · intro t h
      have hg : (scanStep s (n, p)).compute = some t := by simp [scanStep, h]
      exact ih'.2.2.2.1 t hg
    · intro h
      cases hp : (p.transfer && !(p.graphics && p.compute)) with
      | true =>
        have hg : (scanStep s (n, p)).transfer = some n := by
          show (if p.transfer && !(p.graphics && p.compute) && s.transfer.isNone
                then some n else s.transfer) = some n
          rw [h, hp]
          rfl
        rw [ih'.2.2.2.2.2.1 n hg, firstIdxFrom, hp]
        rfl
      | false =>
        have hg : (scanStep s (n, p)).transfer = none := by
          show (if p.transfer && !(p.graphics && p.compute) && s.transfer.isNone
                then some n else s.transfer) = none
          rw [h, hp]
          rfl
        rw [ih'.2.2.2.2.1 hg, firstIdxFrom, hp]
        rfl
    · intro t h
      have hg : (scanStep s (n, p)).transfer = some t := by simp [scanStep, h]
      exact ih'.2.2.2.2.2.1 t hg
    · intro h
      cases hp : p.can_present with
      | true =>
        have hg : (scanStep s (n, p)).presentation = some n := by simp [scanStep, hp, h]
        rw [ih'.2.2.2.2.2.2.2 n hg, firstIdxFrom]
        simp [hp]
      | false =>
        have hg : (scanStep s (n, p)).presentation = none := by simp [scanStep, hp, h]
        rw [ih'.2.2.2.2.2.2.1 hg, firstIdxFrom]
        simp [hp]
    · intro t h
      have hg : (scanStep s (n, p)).presentation = some t := by simp [scanStep, h]
      exact ih'.2.2.2.2.2.2.2 t hg

theorem scanFamilies_graphics (props : List QueueFamilyProps) :
    (scanFamilies props).graphics = firstIdxFrom (fun p => p.graphics) props 0 :=
  (scanFold_char props 0 initFamilyScan).1 rfl

theorem scanFamilies_compute (props : List QueueFamilyProps) :
    (scanFamilies props).compute = firstIdxFrom (fun p => p.compute) props 0 :=
  (scanFold_char props 0 initFamilyScan).2.2.1 rfl

theorem scanFamilies_transfer (props : List QueueFamilyProps) :
    (scanFamilies props).transfer
      = firstIdxFrom (fun p => p.transfer && !(p.graphics && p.compute)) props 0 :=
  (scanFold_char props 0 initFamilyScan).2.2.2.2.1 rfl

theorem scanFamilies_presentation (props : List QueueFamilyProps) :
    (scanFamilies props).presentation = firstIdxFrom (fun p => p.can_present) props 0 :=
  (scanFold_char props 0 initFamilyScan).2.2.2.2.2.2.1 rfl

theorem strictLabelCounts_sum_all (rs : List QueueRequest)
    (hnd : ∀ g ∈ rs.map (fun r => r.family), (strictLabelsOf rs g).Nodup) (f : Nat) :
    ((strictLabelsOf rs f).map (fun l => strictLabelCount rs f l)).sum
      = labeledStrictDemand rs f := by
  by_cases hf : f ∈ rs.map (fun r => r.family)
  · exact sum_strictLabelCounts rs f (hnd f hf)
  · rw [strictLabelsOf_eq_nil_of_not_mem rs f hf]
    have h1 : ¬(hasStrict rs f = true) := by
      intro hh
      exact hf (mem_families_of_hasStrict rs f hh)
    have h2 := strictDemand_eq_zero_of_not_has rs f h1
    have h3 := labeledStrictDemand_le rs f
    simp only [List.map_nil, List.sum_nil]
    omega

theorem flexLabelCounts_sum_all (rs : List QueueRequest)
    (hnd : ∀ g ∈ rs.map (fun r => r.family), (flexLabelsOf rs g).Nodup) (f : Nat) :
    ((flexLabelsOf rs f).map (fun l => flexLabelCount rs f l)).sum
      = labeledFlexDemand rs f := by
  by_cases hf : f ∈ rs.map (fun r => r.family)
  · exact sum_flexLabelCounts rs f (hnd f hf)
  · rw [flexLabelsOf_eq_nil_of_not_mem rs f hf]
    have h1 : ¬(hasFlex rs f = true) := by
      intro hh
      exact hf (mem_families_of_hasFlex rs f hh)
    have h2 := flexDemand_eq_zero_of_not_has rs f h1
    have h3 := labeledFlexDemand_le rs f
    simp only [List.map_nil, List.sum_nil]
    omega

theorem toFinset_range' (a n : Nat) : (List.range' a n).toFinset = Finset.Ico a (a + n) := by
  ext m
  rw [List.mem_toFinset, List.mem_range'_1, Finset.mem_Ico]

theorem map_mod_range' (S a n len : Nat) (h : a + n ≤ len) :
    (List.range' a n).map (fun k => S + k % len) = List.range' (S + a) n := by
  have hcg : ∀ k ∈ List.range' a n, S + k % len = S + k := by
    intro k hk
    have hb := (List.mem_range'_1.mp hk).2
    rw [Nat.mod_eq_of_lt (by omega)]
  rw [List.map_congr_left hcg]
  exact List.map_add_range' S a n 1

/-- C1: if every family's strict demand fits its capacity, the strict pass
succeeds; per capped family the labelled strict assignments receive exactly
the indices 0..L-1 with no index repeated, the leftover run L..S-1 is recorded
unlabeled, and S queues are deducted — provided no two strict requests on one
family share a label (the original claim fails without that proviso). -/
theorem claim1_strict_reservation (rs : List QueueRequest) (caps : List (Nat × Nat))
    (hnd : ∀ g ∈ rs.map (fun r => r.family), (strictLabelsOf rs g).Nodup)
    (hcap : ∀ g ∈ rs.map (fun r => r.family),
        strictDemand rs g ≤ (alistGet caps g).getD (strictDemand rs g)) :
    ∃ st1, strictPass rs caps = .ok st1
      ∧ ∀ f C, alistGet caps f = some C →
          ((st1.trace.filter (fun e => decide (e.2.family = f))).map (fun e => e.2.index)
              = List.range' 0 (labeledStrictDemand rs f))
          ∧ ((st1.trace.filter (fun e => decide (e.2.family = f))).map
              (fun e => e.2.index)).Nodup
          ∧ alistGet st1.unlabeled f
              = (if labeledStrictDemand rs f < strictDemand rs f
                 then some (Finset.Ico (labeledStrictDemand rs f) (strictDemand rs f))
                 else none)
          ∧ alistGet st1.avail f = some (C - strictDemand rs f) := by
  obtain ⟨st1, heq, -, hper⟩ := strictPass_master rs caps hnd hcap
  refine ⟨st1, heq, ?_⟩
  intro f C hfC
  obtain ⟨hav, -, hun, htr⟩ := hper f C hfC
  have hidx : (st1.trace.filter (fun e => decide (e.2.family = f))).map (fun e => e.2.index)
      = List.range' 0 (labeledStrictDemand rs f) := by
    rw [htr, strictBlocks_indices, strictLabelCounts_sum_all rs hnd f]
  refine ⟨hidx, ?_, hun, hav⟩
  rw [hidx]
  exact List.nodup_range' 0 (labeledStrictDemand rs f) 1 Nat.one_pos

theorem claim1_witness :
    (∀ g ∈ ([QueueRequest.strict_labeled 0 2 QueueLabel.Graphics].map (fun r => r.family)),
        (strictLabelsOf [QueueRequest.strict_labeled 0 2 QueueLabel.Graphics] g).Nodup)
    ∧ (∀ g ∈ ([QueueRequest.strict_labeled 0 2 QueueLabel.Graphics].map (fun r => r.family)),
        strictDemand [QueueRequest.strict_labeled 0 2 QueueLabel.Graphics] g
          ≤ (alistGet [(0, 3)] g).getD
              (strictDemand [QueueRequest.strict_labeled 0 2 QueueLabel.Graphics] g))
    ∧ ∃ st1, strictPass [QueueRequest.strict_labeled 0 2 QueueLabel.Graphics] [(0, 3)]
          = .ok st1
      ∧ ∀ f C, alistGet [(0, 3)] f = some C →
          ((st1.trace.filter (fun e => decide (e.2.family = f))).map (fun e => e.2.index)
              = List.range' 0
                  (labeledStrictDemand [QueueRequest.strict_labeled 0 2 QueueLabel.Graphics] f))
          ∧ ((st1.trace.filter (fun e => decide (e.2.family = f))).map
              (fun e => e.2.index)).Nodup
          ∧ alistGet st1.unlabeled f
              = (if labeledStrictDemand [QueueRequest.strict_labeled 0 2 QueueLabel.Graphics] f
                    < strictDemand [QueueRequest.strict_labeled 0 2 QueueLabel.Graphics] f
                 then some (Finset.Ico
                   (labeledStrictDemand [QueueRequest.strict_labeled 0 2 QueueLabel.Graphics] f)
                   (strictDemand [QueueRequest.strict_labeled 0 2 QueueLabel.Graphics] f))
                 else none)
          ∧ alistGet st1.avail f
              = some (C - strictDemand [QueueRequest.strict_labeled 0 2 QueueLabel.Graphics] f) :=
  ⟨by decide, by decide,
    claim1_strict_reservation [QueueRequest.strict_labeled 0 2 QueueLabel.Graphics] [(0, 3)]
      (by decide) (by decide)⟩

theorem claim1_counterexample :
    strictDemand [QueueRequest.strict_labeled 0 1 (QueueLabel.Custom "X"),
        QueueRequest.strict_labeled 0 1 (QueueLabel.Custom "X")] 0 = 2
    ∧ 2 ≤ 4
    ∧ strictPass [QueueRequest.strict_labeled 0 1 (QueueLabel.Custom "X"),
        QueueRequest.strict_labeled 0 1 (QueueLabel.Custom "X")] [(0, 4)]
      = .error .arithmeticOverflow := by
  refine ⟨by decide, by decide, by decide⟩

/-- C2: when exactly one family is over-subscribed by strict demand (every
other family fits), allocation fails with the capacity error carrying that
family, the strict demand plus one when flexible demand is pending on it, and
the family's capacity; with several over-subscribed families only the first
one reached is reported (the original per-family claim fails then). -/
theorem claim2_capacity_error (rs : List QueueRequest) (caps : List (Nat × Nat)) (f C : Nat)
    (hnd : ∀ g ∈ rs.map (fun r => r.family), (strictLabelsOf rs g).Nodup)
    (hfC : alistGet caps f = some C)
    (hover : C < strictDemand rs f)
    (hcap : ∀ g ∈ rs.map (fun r => r.family), ¬(g = f) →
        strictDemand rs g ≤ (alistGet caps g).getD (strictDemand rs g)) :
    allocateQueues rs caps
      = .error (.notEnoughQueuesInFamily f
          (strictDemand rs f + (if hasFlex rs f = true then 1 else 0)) C) :=
  allocateQueues_error_of_strict rs caps _
    (strictPass_error rs caps f C hnd hfC hover hcap)

theorem claim2_witness :
    (∀ g ∈ ([QueueRequest.strict_labeled 0 2 (QueueLabel.Custom "A")].map (fun r => r.family)),
        (strictLabelsOf [QueueRequest.strict_labeled 0 2 (QueueLabel.Custom "A")] g).Nodup)
    ∧ alistGet [(0, 1)] 0 = some 1
    ∧ 1 < strictDemand [QueueRequest.strict_labeled 0 2 (QueueLabel.Custom "A")] 0
    ∧ allocateQueues [QueueRequest.strict_labeled 0 2 (QueueLabel.Custom "A")] [(0, 1)]
        = .error (.notEnoughQueuesInFamily 0
            (strictDemand [QueueRequest.strict_labeled 0 2 (QueueLabel.Custom "A")] 0
              + (if hasFlex [QueueRequest.strict_labeled 0 2 (QueueLabel.Custom "A")] 0 = true
                 then 1 else 0)) 1) :=
  ⟨by decide, by decide, by decide,
    claim2_capacity_error [QueueRequest.strict_labeled 0 2 (QueueLabel.Custom "A")] [(0, 1)]
      0 1 (by decide) (by decide) (by decide) (by decide)⟩

theorem claim2_counterexample :
    strictDemand [QueueRequest.strict_labeled 0 2 (QueueLabel.Custom "A"),
        QueueRequest.strict_labeled 1 2 (QueueLabel.Custom "B")] 1 = 2
    ∧ alistGet [(0, 1), (1, 1)] 1 = some 1
    ∧ allocateQueues [QueueRequest.strict_labeled 0 2 (QueueLabel.Custom "A"),
        QueueRequest.strict_labeled 1 2 (QueueLabel.Custom "B")] [(0, 1), (1, 1)]
      = .error (.notEnoughQueuesInFamily 0 2 1)
    ∧ (AllocError.notEnoughQueuesInFamily 0 2 1 ≠ AllocError.notEnoughQueuesInFamily 1 2 1) := by
  refine ⟨by decide, by decide, by decide, by decide⟩

/-- C3: when a family's strict demand is strictly below its capacity but
strict plus flexible demand exceeds it, allocation still succeeds, the
family's remaining capacity drops to 0, and each labelled flexible assignment
receives index S + (k mod (C - S)) for the running offset k, so all flexible
indices lie in [S, C) — provided strict demand does not already equal the
capacity (the original claim fails in that boundary case) and no two same-kind
requests on one family share a label. -/
theorem claim3_flexible_wrap (rs : List QueueRequest) (caps : List (Nat × Nat)) (f C : Nat)
    (hnd1 : ∀ g ∈ rs.map (fun r => r.family), (strictLabelsOf rs g).Nodup)
    (hnd2 : ∀ g ∈ rs.map (fun r => r.family), (flexLabelsOf rs g).Nodup)
    (hcap : ∀ g ∈ rs.map (fun r => r.family),
        strictDemand rs g ≤ (alistGet caps g).getD (strictDemand rs g))
    (hflex : ∀ g ∈ rs.map (fun r => r.family), hasFlex rs g = true →
        strictDemand rs g < (alistGet caps g).getD 0)
    (hfC : alistGet caps f = some C)
    (hover : C < strictDemand rs f + flexDemand rs f) :
    ∃ res, allocateQueues rs caps = .ok res
      ∧ alistGet res.avail f = some 0
      ∧ ∃ tr1 tr2, res.trace = tr1 ++ tr2
          ∧ (tr2.filter (fun e => decide (e.2.family = f))).map (fun e => e.2.index)
              = (List.range' 0 (labeledFlexDemand rs f)).map
                  (fun k => strictDemand rs f + k % (C - strictDemand rs f))
          ∧ ∀ i ∈ (tr2.filter (fun e => decide (e.2.family = f))).map (fun e => e.2.index),
              strictDemand rs f ≤ i ∧ i < C := by
  have hFpos : 0 < flexDemand rs f := by
    by_contra hc
    have hF0 : flexDemand rs f = 0 := by omega
    have hSpos : 0 < strictDemand rs f := by omega
    have hhs : hasStrict rs f = true := by
      by_contra hh
      have := strictDemand_eq_zero_of_not_has rs f hh
      omega
    have hle := hcap f (mem_families_of_hasStrict rs f hhs)
    rw [hfC] at hle
    simp only [Option.getD_some] at hle
    omega
  have hhf : hasFlex rs f = true := hasFlex_of_flexDemand_pos rs f hFpos
  have hmem := mem_families_of_hasFlex rs f hhf
  have hSltC : strictDemand rs f < C := by
    have := hflex f hmem hhf
    rw [hfC] at this
    simpa using this
  obtain ⟨res, heq, -, -, tr1, tr2, htr, -, hper⟩ :=
    allocateQueues_master rs caps hnd1 hnd2 hcap hflex
  obtain ⟨-, hfil2, hav, -⟩ := hper f C hfC
  have hidx : (tr2.filter (fun e => decide (e.2.family = f))).map (fun e => e.2.index)
      = (List.range' 0 (labeledFlexDemand rs f)).map
          (fun k => strictDemand rs f + k % (C - strictDemand rs f)) := by
    rw [hfil2, flexBlocks_indices, flexLabelCounts_sum_all rs hnd2 f]
  refine ⟨res, heq, ?_, tr1, tr2, htr, hidx, ?_⟩
  · rw [hav, if_pos hhf, if_pos (by omega)]
  · intro i hi
    rw [hidx] at hi
    obtain ⟨k, -, hk⟩ := List.mem_map.mp hi
    have hmod : k % (C - strictDemand rs f) < C - strictDemand rs f :=
      Nat.mod_lt k (by omega)
    omega

theorem claim3_witness :
    (∀ g ∈ rs3w.map (fun r => r.family), (strictLabelsOf rs3w g).Nodup)
    ∧ (∀ g ∈ rs3w.map (fun r => r.family), (flexLabelsOf rs3w g).Nodup)
    ∧ (∀ g ∈ rs3w.map (fun r => r.family),
        strictDemand rs3w g ≤ (alistGet caps3w g).getD (strictDemand rs3w g))
    ∧ (∀ g ∈ rs3w.map (fun r => r.family), hasFlex rs3w g = true →
        strictDemand rs3w g < (alistGet caps3w g).getD 0)
    ∧ alistGet caps3w 0 = some 2
    ∧ 2 < strictDemand rs3w 0 + flexDemand rs3w 0
    ∧ ∃ res, allocateQueues rs3w caps3w = .ok res
      ∧ alistGet res.avail 0 = some 0
      ∧ ∃ tr1 tr2, res.trace = tr1 ++ tr2
          ∧ (tr2.filter (fun e => decide (e.2.family = 0))).map (fun e => e.2.index)
              = (List.range' 0 (labeledFlexDemand rs3w 0)).map
                  (fun k => strictDemand rs3w 0 + k % (2 - strictDemand rs3w 0))
          ∧ ∀ i ∈ (tr2.filter (fun e => decide (e.2.family = 0))).map (fun e => e.2.index),
              strictDemand rs3w 0 ≤ i ∧ i < 2 :=
  ⟨by decide, by decide, by decide, by decide, by decide, by decide,
    claim3_flexible_wrap rs3w caps3w 0 2 (by decide) (by decide) (by decide) (by decide)
      (by decide) (by decide)⟩

theorem claim3_counterexample :
    strictDemand [QueueRequest.strict_labeled 0 1 QueueLabel.Graphics,
        QueueRequest.flexible_labeled 0 1 (QueueLabel.Custom "F")] 0 = 1
    ∧ flexDemand [QueueRequest.strict_labeled 0 1 QueueLabel.Graphics,
        QueueRequest.flexible_labeled 0 1 (QueueLabel.Custom "F")] 0 = 1
    ∧ alistGet [(0, 1)] 0 = some 1
    ∧ allocateQueues [QueueRequest.strict_labeled 0 1 QueueLabel.Graphics,
        QueueRequest.flexible_labeled 0 1 (QueueLabel.Custom "F")] [(0, 1)]
      = .error (.notEnoughQueuesInFamily 0 2 1) := by
  refine ⟨by decide, by decide, by decide, by decide⟩

/-- C4: when a family's strict plus flexible demand fits its capacity, the
labelled flexible assignments receive the consecutive distinct indices
S..S+L-1 and the flexible unlabeled leftover covers S+L..S+F-1, so all F
flexible slots get distinct indices in [S, S+F) — in particular starting at
index 0 when strict demand is zero — provided no two same-kind requests on
one family share a label (the original claim fails without that proviso). -/
theorem claim4_flexible_distinct (rs : List QueueRequest) (caps : List (Nat × Nat)) (f C : Nat)
    (hnd1 : ∀ g ∈ rs.map (fun r => r.family), (strictLabelsOf rs g).Nodup)
    (hnd2 : ∀ g ∈ rs.map (fun r => r.family), (flexLabelsOf rs g).Nodup)
    (hcap : ∀ g ∈ rs.map (fun r => r.family),
        strictDemand rs g ≤ (alistGet caps g).getD (strictDemand rs g))
    (hflex : ∀ g ∈ rs.map (fun r => r.family), hasFlex rs g = true →
        strictDemand rs g < (alistGet caps g).getD 0)
    (hfC : alistGet caps f = some C)
    (hfit : strictDemand rs f + flexDemand rs f ≤ C) :
    ∃ res, allocateQueues rs caps = .ok res
      ∧ ∃ tr1 tr2, res.trace = tr1 ++ tr2
          ∧ (tr2.filter (fun e => decide (e.2.family = f))).map (fun e => e.2.index)
              = List.range' (strictDemand rs f) (labeledFlexDemand rs f)
          ∧ ((tr2.filter (fun e => decide (e.2.family = f))).map
              (fun e => e.2.index)).Nodup
          ∧ (labeledFlexDemand rs f < flexDemand rs f →
              alistGet res.unlabeled f
                = some (Finset.Ico (strictDemand rs f + labeledFlexDemand rs f)
                    (strictDemand rs f + flexDemand rs f))) := by
  have hLF := labeledFlexDemand_le rs f
  have hSF := labeledStrictDemand_le rs f
  obtain ⟨res, heq, -, -, tr1, tr2, htr, -, hper⟩ :=
    allocateQueues_master rs caps hnd1 hnd2 hcap hflex
  obtain ⟨-, hfil2, -, hun⟩ := hper f C hfC
  have hidx : (tr2.filter (fun e => decide (e.2.family = f))).map (fun e => e.2.index)
      = List.range' (strictDemand rs f) (labeledFlexDemand rs f) := by
    rw [hfil2, flexBlocks_indices, flexLabelCounts_sum_all rs hnd2 f,
      map_mod_range' (strictDemand rs f) 0 (labeledFlexDemand rs f)
        (C - strictDemand rs f) (by omega), Nat.add_zero]
  refine ⟨res, heq, tr1, tr2, htr, hidx, ?_, ?_⟩
  · rw [hidx]
    exact List.nodup_range' (strictDemand rs f) (labeledFlexDemand rs f) 1 Nat.one_pos
  · intro hlt
    rw [hun, if_pos hlt,
      map_mod_range' (strictDemand rs f) (labeledFlexDemand rs f)
        (flexDemand rs f - labeledFlexDemand rs f) (C - strictDemand rs f) (by omega),
      toFinset_range']
    have haux : strictDemand rs f + labeledFlexDemand rs f
        + (flexDemand rs f - labeledFlexDemand rs f)
        = strictDemand rs f + flexDemand rs f := by omega
    rw [haux]

theorem claim4_witness :
    (∀ g ∈ rs4w.map (fun r => r.family), (strictLabelsOf rs4w g).Nodup)
    ∧ (∀ g ∈ rs4w.map (fun r => r.family), (flexLabelsOf rs4w g).Nodup)
    ∧ (∀ g ∈ rs4w.map (fun r => r.family),
        strictDemand rs4w g ≤ (alistGet caps4w g).getD (strictDemand rs4w g))
    ∧ (∀ g ∈ rs4w.map (fun r => r.family), hasFlex rs4w g = true →
        strictDemand rs4w g < (alistGet caps4w g).getD 0)
    ∧ alistGet caps4w 0 = some 4
    ∧ strictDemand rs4w 0 + flexDemand rs4w 0 ≤ 4
    ∧ strictDemand rs4w 0 = 0
    ∧ ∃ res, allocateQueues rs4w caps4w = .ok res
      ∧ ∃ tr1 tr2, res.trace = tr1 ++ tr2
          ∧ (tr2.filter (fun e => decide (e.2.family = 0))).map (fun e => e.2.index)
              = List.range' (strictDemand rs4w 0) (labeledFlexDemand rs4w 0)
          ∧ ((tr2.filter (fun e => decide (e.2.family = 0))).map
              (fun e => e.2.index)).Nodup
          ∧ (labeledFlexDemand rs4w 0 < flexDemand rs4w 0 →
              alistGet res.unlabeled 0
                = some (Finset.Ico (strictDemand rs4w 0 + labeledFlexDemand rs4w 0)
                    (strictDemand rs4w 0 + flexDemand rs4w 0))) :=
  ⟨by decide, by decide, by decide, by decide, by decide, by decide, by decide,
    claim4_flexible_distinct rs4w caps4w 0 4 (by decide) (by decide) (by decide) (by decide)
      (by decide) (by decide)⟩

theorem claim4_counterexample :
    strictDemand [QueueRequest.flexible_labeled 0 1 (QueueLabel.Custom "X"),
        QueueRequest.flexible_labeled 0 1 (QueueLabel.Custom "X")] 0
      + flexDemand [QueueRequest.flexible_labeled 0 1 (QueueLabel.Custom "X"),
        QueueRequest.flexible_labeled 0 1 (QueueLabel.Custom "X")] 0 ≤ 4
    ∧ alistGet [(0, 4)] 0 = some 4
    ∧ allocateQueues [QueueRequest.flexible_labeled 0 1 (QueueLabel.Custom "X"),
        QueueRequest.flexible_labeled 0 1 (QueueLabel.Custom "X")] [(0, 4)]
      = .error .arithmeticOverflow := by
  refine ⟨by decide, by decide, by decide⟩

/-- C5: a run in which the strict pass leaves the unlabeled leftover run 1..2
on family 0 and the flexible pass then records its own unlabeled leftover for
the same family: the final unlabeled map holds only the flexible leftover
index 3, and the strict unlabeled indices 1 and 2 are gone, because the
flexible pass inserts over the family's existing entry instead of merging. -/
theorem claim5_strict_leftover_lost :
    labeledStrictDemand rs5b 0 = 1
    ∧ strictDemand rs5b 0 = 3
    ∧ allocateQueues rs5b caps5b = .ok (exceptOkD (allocateQueues rs5b caps5b))
    ∧ alistGet (exceptOkD (allocateQueues rs5b caps5b)).unlabeled 0 = some {3}
    ∧ (1 ∉ ({3} : Finset Nat)) ∧ (2 ∉ ({3} : Finset Nat)) := by
  refine ⟨by decide, by decide, by decide, by decide, by decide, by decide⟩

/-- C6: the family scan latches as dedicated transfer family the first index
whose flags pass transfer && !(graphics && compute) — families with transfer
plus exactly one of graphics or compute qualify, not only transfer-only ones
as the original claim states — and seeding then adds a strict count-1 Transfer
request on that family with no warning, or, when no family passes, a flexible
Transfer request on the graphics family together with the warning
diagnostic. -/
theorem claim6_transfer_seeding (props : List QueueFamilyProps)
    (graphics compute : Nat) (pres : Option Nat) :
    (scanFamilies props).transfer
        = firstIdxFrom (fun p => p.transfer && !(p.graphics && p.compute)) props 0
    ∧ (∀ t, (seedQueueRequests graphics compute (some t) pres).1.filter
          (fun r => decide (r.label = some QueueLabel.Transfer))
            = [QueueRequest.strict_labeled t 1 QueueLabel.Transfer]
        ∧ SeedDiagnostic.noExclusiveTransferWarning
            ∉ (seedQueueRequests graphics compute (some t) pres).2)
    ∧ ((seedQueueRequests graphics compute none pres).1.filter
          (fun r => decide (r.label = some QueueLabel.Transfer))
            = [QueueRequest.flexible_labeled graphics 1 QueueLabel.Transfer]
        ∧ SeedDiagnostic.noExclusiveTransferWarning
            ∈ (seedQueueRequests graphics compute none pres).2) := by
  refine ⟨scanFamilies_transfer props, ?_, ?_⟩
  · intro t
    cases pres with
    | none =>
      constructor
      · simp [seedQueueRequests, QueueRequest.flexible_labeled, QueueRequest.strict_labeled]
      · simp [seedQueueRequests]
    | some q =>
      constructor
      · simp [seedQueueRequests, QueueRequest.flexible_labeled, QueueRequest.strict_labeled]
      · simp [seedQueueRequests]
  · cases pres with
    | none =>
      constructor
      · simp [seedQueueRequests, QueueRequest.flexible_labeled]
      · simp [seedQueueRequests]
    | some q =>
      constructor
      · simp [seedQueueRequests, QueueRequest.flexible_labeled]
      · simp [seedQueueRequests]

theorem claim6_counterexample :
    (∀ p ∈ props6, ¬(p.transfer = true ∧ p.graphics = false ∧ p.compute = false))
    ∧ (scanFamilies props6).transfer = some 0
    ∧ (seedQueueRequests 0 1 (scanFamilies props6).transfer
          (scanFamilies props6).presentation).1.filter
        (fun r => decide (r.label = some QueueLabel.Transfer))
        = [QueueRequest.strict_labeled 0 1 QueueLabel.Transfer]
    ∧ (seedQueueRequests 0 1 (scanFamilies props6).transfer
          (scanFamilies props6).presentation).2 = [] := by
  refine ⟨by decide, by decide, by decide, by decide⟩

/-- C7: after any successful allocation, looking a label up in the labeled map
returns exactly the sequence of QueueRefs produced for that label, in
production order (the model's trace order): every produced ref is retrievable.
The original claim's stronger ordering — raw request order — fails, since the
strict pass runs before the flexible pass. -/
theorem claim7_labels_recoverable (rs : List QueueRequest) (caps : List (Nat × Nat))
    (res : AllocResult) (heq : allocateQueues rs caps = .ok res) (l : QueueLabel) :
    (alistGet res.labeled l).getD []
      = (res.trace.filter (fun e => decide (e.1 = l))).map (fun e => e.2) :=
  allocateQueues_LMT rs caps res heq l

theorem claim7_witness :
    allocateQueues rs7c caps7c = .ok (exceptOkD (allocateQueues rs7c caps7c))
    ∧ (alistGet (exceptOkD (allocateQueues rs7c caps7c)).labeled
          (QueueLabel.Custom "X")).getD []
        = ((exceptOkD (allocateQueues rs7c caps7c)).trace.filter
            (fun e => decide (e.1 = QueueLabel.Custom "X"))).map (fun e => e.2) :=
  ⟨by decide, claim7_labels_recoverable rs7c caps7c _ (by decide) _⟩

theorem claim7_counterexample :
    (rs7c.filter (fun r => decide (r.label = some (QueueLabel.Custom "X")))).map
        (fun r => r.family) = [0, 1]
    ∧ allocateQueues rs7c caps7c = .ok (exceptOkD (allocateQueues rs7c caps7c))
    ∧ ((alistGet (exceptOkD (allocateQueues rs7c caps7c)).labeled
          (QueueLabel.Custom "X")).getD []).map (fun q => q.family) = [1, 0] := by
  refine ⟨by decide, by decide, by decide⟩

/-- C8: after any successful allocation over a capacity table without repeated
families, every family with an allocated queue (remaining r < total C) carries
exactly C - r priorities, all 1.0, in the queue-creation parameter list, and a
family whose remaining capacity still equals its total is absent from the
list; families outside the capacity table are absent as well. -/
theorem claim8_priorities (rs : List QueueRequest) (caps : List (Nat × Nat))
    (res : AllocResult) (hnd : alistNodupKeys caps)
    (heq : allocateQueues rs caps = .ok res) :
    ∀ f, (∀ C, alistGet caps f = some C →
        ∃ r, alistGet res.avail f = some r ∧ r ≤ C
          ∧ (r = C → alistGet res.priorities f = none)
          ∧ (r < C → alistGet res.priorities f = some (List.replicate (C - r) (1 : ℚ))))
      ∧ (alistGet caps f = none → alistGet res.priorities f = none) := by
  have hb := allocateQueues_availBounded rs caps res heq
  obtain ⟨st1, st2, -, -, -, -, hav, -, -, hpr⟩ := allocateQueues_elim rs caps res heq
  intro f
  constructor
  · intro C hC
    obtain ⟨r, hr, hrle⟩ := hb f C hC
    have hr2 : alistGet st2.avail f = some r := by
      rw [← hav]
      exact hr
    have hred : alistGet res.priorities f
        = if r = C then none else some (List.replicate (C - r) (1 : ℚ)) := by
      rw [hpr, alistGet_buildPriorities caps st2.avail hnd f, hC, hr2]
    refine ⟨r, hr, hrle, ?_, ?_⟩
    · intro hEq
      rw [hred, if_pos hEq]
    · intro hlt
      rw [hred, if_neg (by omega)]
  · intro hC
    rw [hpr, alistGet_buildPriorities caps st2.avail hnd f, hC]

theorem claim8_witness :
    alistNodupKeys caps8w
    ∧ allocateQueues rs8w caps8w = .ok (exceptOkD (allocateQueues rs8w caps8w))
    ∧ ∀ f, (∀ C, alistGet caps8w f = some C →
          ∃ r, alistGet (exceptOkD (allocateQueues rs8w caps8w)).avail f = some r ∧ r ≤ C
            ∧ (r = C → alistGet (exceptOkD (allocateQueues rs8w caps8w)).priorities f = none)
            ∧ (r < C → alistGet (exceptOkD (allocateQueues rs8w caps8w)).priorities f
                = some (List.replicate (C - r) (1 : ℚ))))
        ∧ (alistGet caps8w f = none
            → alistGet (exceptOkD (allocateQueues rs8w caps8w)).priorities f = none) :=
  ⟨by unfold alistNodupKeys alistKeys; decide, by decide,
    claim8_priorities rs8w caps8w _ (by unfold alistNodupKeys alistKeys; decide) (by decide)⟩

/-- C9: extension negotiation resolves to the intersection of the requested
and available name sets when every required name is available; when some
required name is unavailable it fails with the list of exactly the missing
required names; a missing optional name causes no error and is simply absent
from the resolved set. -/
theorem claim9_extension_negotiation (requested : List ExtensionRequest)
    (available : Finset String) :
    ((∀ r ∈ requested, r.required = true → r.name ∈ available) →
        resolveDeviceExtensions requested available
          = .ok ((requested.map (fun r => r.name)).toFinset ∩ available))
    ∧ (∀ r ∈ requested, r.required = true → r.name ∉ available →
        ∃ l, resolveDeviceExtensions requested available = .error l
          ∧ l ≠ []
          ∧ ∀ n, n ∈ l
              ↔ ∃ q ∈ requested, q.name = n ∧ q.required = true ∧ n ∉ available) := by
  constructor
  · intro h
    have hfil : requested.filter
        (fun req => req.required && !(decide (req.name ∈ available))) = [] := by
      rw [List.filter_eq_nil]
      intro a ha
      intro hcontra
      rw [Bool.and_eq_true, Bool.not_eq_true', decide_eq_false_iff_not] at hcontra
      exact hcontra.2 (h a ha hcontra.1)
    have hset : ((requested.filter (fun req => decide (req.name ∈ available))).map
          (fun req => req.name)).toFinset
        = (requested.map (fun r => r.name)).toFinset ∩ available := by
      ext n
      simp only [List.mem_toFinset, List.mem_map, List.mem_filter, Finset.mem_inter,
        decide_eq_true_eq]
      constructor
      · rintro ⟨q, ⟨hq, hqa⟩, rfl⟩
        exact ⟨⟨q, hq, rfl⟩, hqa⟩
      · rintro ⟨⟨q, hq, rfl⟩, hna⟩
        exact ⟨q, ⟨hq, hna⟩, rfl⟩
    simp only [resolveDeviceExtensions, hfil, List.map_nil, List.isEmpty_nil, if_pos]
    rw [hset]
  · intro r hr hreq hnav
    have hmem : r.name ∈ (requested.filter
        (fun req => req.required && !(decide (req.name ∈ available)))).map
        (fun req => req.name) := by
      refine List.mem_map_of_mem _ (List.mem_filter.mpr ⟨hr, ?_⟩)
      rw [Bool.and_eq_true, Bool.not_eq_true', decide_eq_false_iff_not]
      exact ⟨hreq, hnav⟩
    have hne : ¬(((requested.filter
        (fun req => req.required && !(decide (req.name ∈ available)))).map
        (fun req => req.name)).isEmpty = true) := by
      intro hc
      rw [List.isEmpty_iff] at hc
      rw [hc] at hmem
      cases hmem
    refine ⟨(requested.filter
        (fun req => req.required && !(decide (req.name ∈ available)))).map
        (fun req => req.name), ?_, ?_, ?_⟩
    · simp only [resolveDeviceExtensions]
      rw [if_neg hne]
    · intro hc
      rw [hc] at hmem
      cases hmem
    · intro n
      simp only [List.mem_map, List.mem_filter, Bool.and_eq_true, Bool.not_eq_true',
        decide_eq_false_iff_not]
      constructor
      · rintro ⟨q, ⟨hq, hqr, hqa⟩, rfl⟩
        exact ⟨q, hq, rfl, hqr, hqa⟩
      · rintro ⟨q, hq, rfl, hqr, hqa⟩
        exact ⟨q, ⟨hq, hqr, hqa⟩, rfl⟩

theorem claim9_witness :
    (∀ r ∈ [ExtensionRequest.mk "a" true, ExtensionRequest.mk "b" false],
        r.required = true → r.name ∈ ({"a"} : Finset String))
    ∧ resolveDeviceExtensions [ExtensionRequest.mk "a" true, ExtensionRequest.mk "b" false]
          ({"a"} : Finset String)
        = .ok ((([ExtensionRequest.mk "a" true, ExtensionRequest.mk "b" false].map
            (fun r => r.name)).toFinset ∩ ({"a"} : Finset String)))
    ∧ ∃ l, resolveDeviceExtensions
          [ExtensionRequest.mk "a" true, ExtensionRequest.mk "b" false]
          (∅ : Finset String) = .error l
        ∧ l ≠ []
        ∧ ∀ n, n ∈ l
            ↔ ∃ q ∈ [ExtensionRequest.mk "a" true, ExtensionRequest.mk "b" false],
                q.name = n ∧ q.required = true ∧ n ∉ (∅ : Finset String) :=
  ⟨by decide,
    (claim9_extension_negotiation
      [ExtensionRequest.mk "a" true, ExtensionRequest.mk "b" false] {"a"}).1 (by decide),
    (claim9_extension_negotiation
      [ExtensionRequest.mk "a" true, ExtensionRequest.mk "b" false] ∅).2
      (ExtensionRequest.mk "a" true) (by decide) (by decide) (by decide)⟩

/-- C10: the queue phase aborts with a dedicated error when no family
advertises graphics, or (graphics existing) when no family advertises
compute, and in both cases the outcome is independent of the host callback,
which therefore was not consulted; by contrast, when graphics and compute
families exist, a missing dedicated-transfer family and a missing
presentation family do not abort: the phase returns the allocation result
together with the two warning diagnostics. -/
theorem claim10_early_abort (props : List QueueFamilyProps)
    (cb cb' : List QueueRequest → List QueueRequest) :
    ((∀ p ∈ props, p.graphics = false) →
        deviceQueuePhase props cb = .error .noGraphicsQueueFamily
          ∧ deviceQueuePhase props cb = deviceQueuePhase props cb')
    ∧ ((∃ p ∈ props, p.graphics = true) → (∀ p ∈ props, p.compute = false) →
        deviceQueuePhase props cb = .error .noComputeQueueFamily
          ∧ deviceQueuePhase props cb = deviceQueuePhase props cb')
    ∧ (∀ g c res, (scanFamilies props).graphics = some g →
        (scanFamilies props).compute = some c →
        (scanFamilies props).transfer = none →
        (scanFamilies props).presentation = none →
        allocateQueues ((seedQueueRequests g c none none).1
            ++ cb (seedQueueRequests g c none none).1)
          (scanFamilies props).total_queue_availability = .ok res →
        deviceQueuePhase props cb
          = .ok (res, [SeedDiagnostic.noExclusiveTransferWarning,
              SeedDiagnostic.noPresentationWarning])) := by
  refine ⟨?_, ?_, ?_⟩
  · intro h
    have hg : (scanFamilies props).graphics = none := by
      rw [scanFamilies_graphics]
      exact firstIdxFrom_eq_none _ props 0 h
    have hall : ∀ cbx : List QueueRequest → List QueueRequest,
        deviceQueuePhase props cbx = .error .noGraphicsQueueFamily := by
      intro cbx
      simp only [deviceQueuePhase, hg]
    exact ⟨hall cb, (hall cb).trans (hall cb').symm⟩
  · intro hex h
    obtain ⟨g, hg⟩ : ∃ g, (scanFamilies props).graphics = some g := by
      rw [scanFamilies_graphics]
      exact firstIdxFrom_isSome _ props 0 hex
    have hc : (scanFamilies props).compute = none := by
      rw [scanFamilies_compute]
      exact firstIdxFrom_eq_none _ props 0 h
    have hall : ∀ cbx : List QueueRequest → List QueueRequest,
        deviceQueuePhase props cbx = .error .noComputeQueueFamily := by
      intro cbx
      simp only [deviceQueuePhase, hg, hc]
    exact ⟨hall cb, (hall cb).trans (hall cb').symm⟩
  · intro g c res hg hc ht hp halloc
    simp only [deviceQueuePhase, hg, hc, ht, hp, halloc]
    rfl

theorem claim10_witness :
    ((∀ p ∈ props10g, p.graphics = false)
      ∧ deviceQueuePhase props10g cb10 = .error .noGraphicsQueueFamily
      ∧ deviceQueuePhase props10g cb10 = deviceQueuePhase props10g cb10x)
    ∧ ((∃ p ∈ props10c, p.graphics = true) ∧ (∀ p ∈ props10c, p.compute = false)
      ∧ deviceQueuePhase props10c cb10 = .error .noComputeQueueFamily
      ∧ deviceQueuePhase props10c cb10 = deviceQueuePhase props10c cb10x)
    ∧ ((scanFamilies props10n).graphics = some 0
      ∧ (scanFamilies props10n).compute = some 0
      ∧ (scanFamilies props10n).transfer = none
      ∧ (scanFamilies props10n).presentation = none
      ∧ allocateQueues ((seedQueueRequests 0 0 none none).1
            ++ cb10 (seedQueueRequests 0 0 none none).1)
          (scanFamilies props10n).total_queue_availability
          = .ok (exceptOkD (allocateQueues ((seedQueueRequests 0 0 none none).1
              ++ cb10 (seedQueueRequests 0 0 none none).1)
            (scanFamilies props10n).total_queue_availability))
      ∧ deviceQueuePhase props10n cb10
          = .ok (exceptOkD (allocateQueues ((seedQueueRequests 0 0 none none).1
              ++ cb10 (seedQueueRequests 0 0 none none).1)
            (scanFamilies props10n).total_queue_availability),
            [SeedDiagnostic.noExclusiveTransferWarning,
             SeedDiagnostic.noPresentationWarning])) :=
  ⟨⟨by decide, ((claim10_early_abort props10g cb10 cb10x).1 (by decide)).1,
      ((claim10_early_abort props10g cb10 cb10x).1 (by decide)).2⟩,
   ⟨by decide, by decide, ((claim10_early_abort props10c cb10 cb10x).2.1 (by decide)
        (by decide)).1,
      ((claim10_early_abort props10c cb10 cb10x).2.1 (by decide) (by decide)).2⟩,
   by decide, by decide, by decide, by decide, by decide,
   (claim10_early_abort props10n cb10 cb10x).2.2 0 0 _ (by decide) (by decide) (by decide)
     (by decide) (by decide)⟩
